import Mathlib

/-!
# cli-stats: binning and normalisation of empirical distributions

A shallow embedding of the three programs of the repository

* `binned_discrete_distribution.cpp` (namespace `Binned`),
* `discrete_distribution.cpp` (namespace `Unbinned`),
* `empirical_power_laws.cpp` (namespace `PowerLaw`),

together with theorems about them.

Modelling conventions.

* A C++ `double` is the rational number it holds (every finite binary64 number
  is rational).  `fl64` rounds a rational to binary64 (round to nearest, ties
  to even, gradual underflow).  The arithmetic of line 81 of
  `binned_discrete_distribution.cpp` (the bin boundaries), of the bin
  midpoints, and of the CCDF accumulation of `empirical_power_laws.cpp` is
  rounded operation by operation.  Counters incremented by `1.0` are exact (as
  they are in binary64 up to `2^53`), and a quotient `count / total` that is
  only handed to the output stream is kept as the exact quotient.  Overflow to
  an infinity is outside the model: there is no NaN and no infinity.  A
  quotient whose divisor is zero is not a number; `fdiv` returns `none` for it.
* An `unsigned int` is a natural number below `2^32`; sums and differences
  computed in that type are reduced modulo `2^32`.
* `std::vector<double>` and `double *` arrays are lists.  An access outside the
  array is undefined behaviour in C++; the embedding returns `none` for a run
  that performs one.
* `std::set<double>` is a strictly ascending list, `std::map<K, double>` an
  association list.
* Each pipeline is modelled from the list of extracted values (the successive
  contents of `data_buffer`) onwards; the column extraction itself is modelled
  on lines given as the lists of their numeric tokens.
* `gsl_histogram` belongs to the GNU Scientific Library and follows its
  reference manual.
-/

namespace CliStats

/-- The modulus of `unsigned int` arithmetic. -/
def UINT_SIZE : Nat := 2 ^ 32

/-- Division of two `double`s: `none` when the divisor is zero (the C++ result
is then NaN or an infinity, not a number). -/
def fdiv (a b : ℚ) : Option ℚ :=
  if b = 0 then none else some (a / b)

/-! ## Binary64 rounding -/

/-- Rounding of a rational to the nearest integer, ties to the even one. -/
def rne (t : ℚ) : Int :=
  if t - ⌊t⌋ < 1 / 2 then ⌊t⌋
  else if 1 / 2 < t - ⌊t⌋ then ⌊t⌋ + 1
  else if ⌊t⌋ % 2 = 0 then ⌊t⌋ else ⌊t⌋ + 1

/-- The exponent `e` of the binade `2^e <= |q| < 2^(e+1)` of `q`, not below
`-1022`, the exponent of the subnormal numbers. -/
def binade (q : ℚ) : Int := max (Int.log 2 |q|) (-1022)

/-- The spacing of the binary64 numbers in the binade of `q` (a significand of
53 bits). -/
def ulp (q : ℚ) : ℚ := (2 : ℚ) ^ (binade q - 52)

/-- Rounding to binary64: the multiple of `ulp q` nearest to `q`, ties to the
even significand.  This is the result a C++ `double` operation stores when its
exact result is `q` (magnitude below `2^1024`). -/
def fl64 (q : ℚ) : ℚ := (rne (q / ulp q) : ℚ) * ulp q

/-- The filter guard `!ignore_null || std::abs(data_buffer)>tolerance`, shared
by `binned_discrete_distribution.cpp` and `discrete_distribution.cpp`. -/
def keep (ignore_null : Bool) (tolerance data_buffer : ℚ) : Bool :=
  !ignore_null || decide (|data_buffer| > tolerance)

/-- Turn a list of partial results into a result: `none` as soon as one entry
is `none`. -/
def allSome {α : Type} : List (Option α) → Option (List α)
  | [] => some []
  | none :: _ => none
  | some a :: rest => (allSome rest).map (fun l => a :: l)

/-- The update `v[i] += 1.0` of one entry of a vector of counts (`i` inside the
vector). -/
def incr : List ℚ → Nat → List ℚ
  | [], _ => []
  | c :: cs, 0 => (c + 1) :: cs
  | c :: cs, i + 1 => c :: incr cs i

/-! ## `binned_discrete_distribution.cpp` -/

namespace Binned

/-- The size `number_of_bins+1` of the vectors `bin_limits` and `bins`,
computed in `unsigned int`. -/
def vector_size (number_of_bins : Nat) : Nat :=
  (number_of_bins + 1) % UINT_SIZE

/-- The value stored by line 81,
`lower_bound + ((double) i / ((double) number_of_bins)) * (upper_bound-lower_bound)`:
a quotient, a difference, a product and a sum, each rounded to binary64 (the
conversions of `i` and `number_of_bins` to `double` are exact). -/
def limit (number_of_bins : Nat) (lower_bound upper_bound : ℚ) (i : Nat) : ℚ :=
  fl64 (lower_bound
    + fl64 (fl64 ((i : ℚ) / (number_of_bins : ℚ)) * fl64 (upper_bound - lower_bound)))

/-- The vector `bin_limits` after the loop of lines 80-82: `bin_limits[i]` is
the value of line 81 for `i < number_of_bins+1`.  (For `number_of_bins = 0` the
C++ quotient `0/0` is not a number; the theorems below take
`number_of_bins >= 1`.) -/
def bin_limits (number_of_bins : Nat) (lower_bound upper_bound : ℚ) : List ℚ :=
  (List.range (vector_size number_of_bins)).map (limit number_of_bins lower_bound upper_bound)

/-- The mutable state of the accumulation pass: the vector `bins` and the
scalar `normalization`. -/
structure State where
  bins : List ℚ
  normalization : ℚ
deriving DecidableEq

/-- The state before the file is read: `bins` holds `number_of_bins+1` zeros
and `normalization = 0`. -/
def init (number_of_bins : Nat) : State :=
  { bins := List.replicate (vector_size number_of_bins) 0, normalization := 0 }

/-- The scan `for (; bin_limits[bin_idx] <= data_buffer; ++bin_idx) {}` started
at index `bin_idx` on the part of `bin_limits` from that index on.  The scan
has no bound check: running past the last entry is an out-of-bounds read
(`none`). -/
def scan : List ℚ → ℚ → Nat → Option Nat
  | [], _, _ => none
  | b :: rest, data_buffer, bin_idx =>
    if b ≤ data_buffer then scan rest data_buffer (bin_idx + 1) else some bin_idx

/-- The index `bin_idx-1` in `unsigned int` arithmetic (`0 - 1` wraps to
`2^32 - 1`). -/
def pred_idx (bin_idx : Nat) : Nat :=
  (bin_idx + UINT_SIZE - 1) % UINT_SIZE

/-- The body executed for one extracted value (lines 95-101 and 113-119): when
the value passes the filter, scan for its bin, add one to `bins[bin_idx-1]` and
to `normalization`. -/
def step (ignore_null : Bool) (tolerance : ℚ) (limits : List ℚ)
    (s : State) (data_buffer : ℚ) : Option State :=
  if keep ignore_null tolerance data_buffer then
    match scan limits data_buffer 0 with
    | none => none
    | some bin_idx =>
      if pred_idx bin_idx < s.bins.length then
        some { bins := incr s.bins (pred_idx bin_idx),
               normalization := s.normalization + 1 }
      else none
  else some s

/-- The accumulation pass over all extracted values. -/
def accumulate (ignore_null : Bool) (tolerance : ℚ) (limits : List ℚ) :
    State → List ℚ → Option State
  | s, [] => some s
  | s, v :: vs =>
    match step ignore_null tolerance limits s v with
    | none => none
    | some s' => accumulate ignore_null tolerance limits s' vs

/-- One output row (lines 125-126): the bin midpoint
`(bin_limits[i+1]+bin_limits[i])/2`, a sum and a quotient in binary64, and
`bins[i] / normalization`. -/
def row (limits : List ℚ) (s : State) (i : Nat) : Option (ℚ × Option ℚ) :=
  match limits[i + 1]?, limits[i]?, s.bins[i]? with
  | some hi, some lo, some c => some (fl64 (fl64 (hi + lo) / 2), fdiv c s.normalization)
  | _, _, _ => none

/-- The output loop `for (i = 0; i < number_of_bins; ++i)`. -/
def output (number_of_bins : Nat) (limits : List ℚ) (s : State) :
    Option (List (ℚ × Option ℚ)) :=
  allSome ((List.range number_of_bins).map (row limits s))

/-- The whole run on the list of extracted values: the emitted rows, or `none`
when the run reads or writes outside a vector. -/
def main (number_of_bins : Nat) (lower_bound upper_bound tolerance : ℚ)
    (ignore_null : Bool) (values : List ℚ) : Option (List (ℚ × Option ℚ)) :=
  match accumulate ignore_null tolerance (bin_limits number_of_bins lower_bound upper_bound)
      (init number_of_bins) values with
  | none => none
  | some s => output number_of_bins (bin_limits number_of_bins lower_bound upper_bound) s

end Binned

/-! ## `std::set` and `std::map` -/

/-- `std::set::insert` on a set held as a strictly ascending list: the new set
and the flag `ret_value.second` (`true` when the element was not yet
present). -/
def set_insert {α : Type} [LinearOrder α] : List α → α → List α × Bool
  | [], x => ([x], true)
  | y :: rest, x =>
    if x < y then (x :: y :: rest, true)
    else if x = y then (y :: rest, false)
    else ((y :: (set_insert rest x).1), (set_insert rest x).2)

/-- Reading `m[k]` in a `std::map<K, double>` held as an association list: the
stored value, or the value-initialised `0` when the key is absent. -/
def map_get {K : Type} [DecidableEq K] : List (K × ℚ) → K → ℚ
  | [], _ => 0
  | (k', x) :: rest, k => if k = k' then x else map_get rest k

/-- Writing `m[k] = f (m[k])` in a `std::map<K, double>`: `operator[]` creates
the entry with value `0` when the key is absent. -/
def map_update {K : Type} [DecidableEq K] (f : ℚ → ℚ) : List (K × ℚ) → K → List (K × ℚ)
  | [], k => [(k, f 0)]
  | (k', x) :: rest, k =>
    if k = k' then (k', f x) :: rest else (k', x) :: map_update f rest k

/-- The sum of all counts held in a map. -/
def map_total {K : Type} (m : List (K × ℚ)) : ℚ :=
  (m.map Prod.snd).sum

/-! ## `discrete_distribution.cpp` -/

namespace Unbinned

/-- The conversion `(unsigned int)data_buffer` of a `double`: the fractional
part is discarded (truncation toward zero); the behaviour is undefined (`none`)
when the truncated value is not an `unsigned int`. -/
def to_uint (data_buffer : ℚ) : Option Nat :=
  let t : Int := if 0 ≤ data_buffer then ⌊data_buffer⌋ else ⌈data_buffer⌉
  if 0 ≤ t ∧ t < (UINT_SIZE : Int) then some t.toNat else none

/-- The tally of a key among the values `l`: the number of members of `l` whose
conversion to `unsigned int` is `key`. -/
def key_count (l : List ℚ) (key : Nat) : Nat :=
  (l.filter (fun u => decide (to_uint u = some key))).length

/-- The state of the accumulation pass of either branch: the set `seen`, the
map `discrete_distribution` (keyed by `K = double` or `K = unsigned int`) and
`normalization`. -/
structure State (K : Type) where
  seen : List ℚ
  discrete_distribution : List (K × ℚ)
  normalization : ℚ

/-- The state before the file is read. -/
def init (K : Type) : State K :=
  { seen := [], discrete_distribution := [], normalization := 0 }

/-- The loop body of the floating-key branch (lines 99-108). -/
def step_float (ignore_null : Bool) (tolerance : ℚ) (s : State ℚ) (data_buffer : ℚ) :
    State ℚ :=
  if keep ignore_null tolerance data_buffer then
    { seen := (set_insert s.seen data_buffer).1,
      discrete_distribution :=
        if (set_insert s.seen data_buffer).2 then
          map_update (fun _ => 1) s.discrete_distribution data_buffer
        else
          map_update (fun c => c + 1) s.discrete_distribution data_buffer,
      normalization := s.normalization + 1 }
  else s

/-- The loop body of the `are_int` branch (lines 72-81): the set `seen` is
keyed by the `double`, the map by `(unsigned int)data_buffer`. -/
def step_int (ignore_null : Bool) (tolerance : ℚ) (s : State Nat) (data_buffer : ℚ) :
    Option (State Nat) :=
  if keep ignore_null tolerance data_buffer then
    match to_uint data_buffer with
    | none => none
    | some key =>
      some { seen := (set_insert s.seen data_buffer).1,
             discrete_distribution :=
               if (set_insert s.seen data_buffer).2 then
                 map_update (fun _ => 1) s.discrete_distribution key
               else
                 map_update (fun c => c + 1) s.discrete_distribution key,
             normalization := s.normalization + 1 }
  else some s

/-- The accumulation pass of the floating-key branch. -/
def accumulate_float (ignore_null : Bool) (tolerance : ℚ) : State ℚ → List ℚ → State ℚ
  | s, [] => s
  | s, v :: vs =>
    accumulate_float ignore_null tolerance (step_float ignore_null tolerance s v) vs

/-- The accumulation pass of the `are_int` branch. -/
def accumulate_int (ignore_null : Bool) (tolerance : ℚ) :
    State Nat → List ℚ → Option (State Nat)
  | s, [] => some s
  | s, v :: vs =>
    match step_int ignore_null tolerance s v with
    | none => none
    | some s' => accumulate_int ignore_null tolerance s' vs

/-- The output loop of the floating-key branch (lines 110-112): one row
`(*it, discrete_distribution[*it] / normalization)` per element of `seen`, in
the order of the set. -/
def output_float (s : State ℚ) : List (ℚ × Option ℚ) :=
  s.seen.map (fun v => (v, fdiv (map_get s.discrete_distribution v) s.normalization))

/-- One row of the `are_int` branch (line 84): the key `*it` is converted to
`unsigned int` by `operator[]`. -/
def row_int (s : State Nat) (v : ℚ) : Option (ℚ × Option ℚ) :=
  match to_uint v with
  | none => none
  | some key => some (v, fdiv (map_get s.discrete_distribution key) s.normalization)

/-- The output loop of the `are_int` branch (lines 83-85). -/
def output_int (s : State Nat) : Option (List (ℚ × Option ℚ)) :=
  allSome (s.seen.map (row_int s))

/-- The floating-key branch on the list of extracted values. -/
def main_float (ignore_null : Bool) (tolerance : ℚ) (values : List ℚ) :
    List (ℚ × Option ℚ) :=
  output_float (accumulate_float ignore_null tolerance (init ℚ) values)

/-- The `are_int` branch on the list of extracted values; `none` when a
conversion to `unsigned int` is undefined. -/
def main_int (ignore_null : Bool) (tolerance : ℚ) (values : List ℚ) :
    Option (List (ℚ × Option ℚ)) :=
  match accumulate_int ignore_null tolerance (init Nat) values with
  | none => none
  | some s => output_int s

/-! ### Loop invariants -/

/-- The invariant of the floating-key loop after the kept values `kept` have
been processed. -/
structure FloatInv (s : State ℚ) (kept : List ℚ) : Prop where
  sorted : s.seen.Pairwise (fun x y => x < y)
  mem : ∀ x, x ∈ s.seen ↔ x ∈ kept
  count : ∀ x, map_get s.discrete_distribution x = (kept.count x : ℚ)
  norm : s.normalization = (kept.length : ℚ)
  total : map_total s.discrete_distribution = (kept.length : ℚ)

/-- The invariant of the `are_int` loop after the kept values `kept` have been
processed, when distinct kept values have distinct keys. -/
structure IntInv (s : State Nat) (kept : List ℚ) : Prop where
  sorted : s.seen.Pairwise (fun x y => x < y)
  mem : ∀ x, x ∈ s.seen ↔ x ∈ kept
  count : ∀ k, map_get s.discrete_distribution k = (key_count kept k : ℚ)
  norm : s.normalization = (kept.length : ℚ)
  total : map_total s.discrete_distribution = (kept.length : ℚ)

end Unbinned

/-! ## `empirical_power_laws.cpp` -/

namespace PowerLaw

/-- A `double` held in the array `range`.  The program stores two kinds of
numbers there: rational ones, and powers `pow(10, t/10)` with `t` a natural
number, which are irrational unless `10` divides `t`.  A power is represented
by its exponent in tenths, so that every comparison the program makes with it
is decided exactly. -/
inductive Bound where
  | rat (q : ℚ)
  | pow10 (tenths : Nat)
deriving DecidableEq

/-- The comparison `x < b` of a boundary `b` with an `unsigned int` value `x`
converted to `double`; for a power, `x < 10^(t/10)` is `x^10 < 10^t`. -/
def Bound.above : Bound → Nat → Bool
  | .rat q, x => decide ((x : ℚ) < q)
  | .pow10 t, x => decide (x ^ 10 < 10 ^ t)

/-- The strict order `a < b` between two boundaries. -/
def Bound.lt : Bound → Bound → Prop
  | .rat p, .rat q => p < q
  | .pow10 a, .pow10 b => a < b
  | .rat p, .pow10 t => p < 0 ∨ p ^ 10 < 10 ^ t
  | .pow10 t, .rat q => 0 < q ∧ (10 : ℚ) ^ t < q ^ 10

/-- A counted loop `for (i = 0; i < n; ++i) body` run over `List.range n`: the
body may fail (an access outside an array), which ends the run. -/
def for_loop {σ : Type} (body : σ → Nat → Option σ) : List Nat → σ → Option σ
  | [], s => some s
  | i :: rest, s =>
    match body s i with
    | none => none
    | some s' => for_loop body rest s'

/-- The assignment `range[i] = b`; `none` when `i` is outside the array. -/
def write (range : List Bound) (i : Nat) (b : Bound) : Option (List Bound) :=
  if i < range.length then some (range.set i b) else none

/-- The set `element_set` built by the first pass over the file (lines 86-90). -/
def element_set (values : List Nat) : List Nat :=
  values.foldl (fun s v => (set_insert s v).1) []

/-- The value `*std::prev(element_set.end())`, the largest element of the set;
undefined (`none`) for an empty set. -/
def max_element (values : List Nat) : Option Nat :=
  (element_set values).getLast?

/-- The value `max_exponent` of lines 102-103:
`(unsigned int) log10(pow(10, ceil(log10(max_element))))`, that is the least
`e` with `max_element <= 10^e`.  For `max_element = 0` the logarithm is
`-inf` and the conversion to `unsigned int` is undefined (`none`). -/
def max_exponent (max_element : Nat) : Option Nat :=
  if max_element = 0 then none else some (Nat.clog 10 max_element)

/-- The value `number_of_bins = 10 * max_exponent - 1` of line 104, computed in
`unsigned int`. -/
def number_of_bins (max_exponent : Nat) : Nat :=
  ((10 * max_exponent) % UINT_SIZE + UINT_SIZE - 1) % UINT_SIZE

/-- The array `new double[number_of_bins + 1]` before it is filled; its entries
are uninitialised, `0` stands for them. -/
def new_range (number_of_bins : Nat) : List Bound :=
  List.replicate ((number_of_bins + 1) % UINT_SIZE) (Bound.rat 0)

/-- The nested loops of lines 113-117:
`range[exponent*10 + bin] = pow(10, exponent + bin * 0.1)`. -/
def fill_range (max_exponent : Nat) (range : List Bound) : Option (List Bound) :=
  for_loop (fun r exponent =>
      for_loop (fun r' bin =>
          write r' ((exponent * 10 + bin) % UINT_SIZE) (Bound.pow10 (exponent * 10 + bin)))
        (List.range 10) r)
    (List.range max_exponent) range

/-- The array `range` handed to the histogram (lines 111-119): the nested loops
followed by `range[number_of_bins] = pow(10, max_exponent)`. -/
def log_range (max_exponent : Nat) : Option (List Bound) :=
  match fill_range max_exponent (new_range (number_of_bins max_exponent)) with
  | none => none
  | some r => write r (number_of_bins max_exponent) (Bound.pow10 (10 * max_exponent))

/-! ### The GSL histogram

`gsl_histogram` belongs to the GNU Scientific Library, not to this repository.
The functions below follow the GSL reference manual (chapter "Histograms"):
a histogram with `n` bins has `n + 1` range entries, bin `i` covers
`range[i] <= x < range[i+1]`, and `gsl_histogram_increment` returns `GSL_EDOM`
and modifies no bin when `x` is less than the lower limit `range[0]` or
greater than or equal to the upper limit `range[n]`. -/

/-- The struct `gsl_histogram`: the number of bins, the `n + 1` range entries
and the `n` bin counts. -/
structure gsl_histogram where
  n : Nat
  range : List Bound
  bin : List ℚ

/-- `gsl_histogram_alloc (n)`: a histogram with `n` bins; for `n = 0` GSL raises
the error "histogram length n must be positive integer" (`none`: the default
error handler aborts the program). -/
def gsl_histogram_alloc (n : Nat) : Option gsl_histogram :=
  if n = 0 then none
  else some { n := n, range := List.replicate (n + 1) (Bound.rat 0),
              bin := List.replicate n 0 }

/-- `gsl_histogram_set_ranges (h, range, size)`: copies the ranges and resets
the bins to zero; an error (`none`) when `size` is not `n + 1` or the array is
shorter than `size`. -/
def gsl_histogram_set_ranges (h : gsl_histogram) (range : List Bound) (size : Nat) :
    Option gsl_histogram :=
  if size = h.n + 1 ∧ size ≤ range.length then
    some { n := h.n, range := range.take size, bin := List.replicate h.n 0 }
  else none

/-- The first index `i`, counted from `i`, whose upper boundary exceeds `x`. -/
def find_upper : List Bound → Nat → Nat → Option Nat
  | [], _, _ => none
  | b :: rest, x, i => if b.above x then some i else find_upper rest x (i + 1)

/-- The bin search of `gsl_histogram_increment`: `none` (`GSL_EDOM`) when
`x < range[0]` or `x >= range[n]`, otherwise the bin `i` with
`range[i] <= x < range[i+1]`. -/
def gsl_find (h : gsl_histogram) (x : Nat) : Option Nat :=
  match h.range[0]?, h.range[h.n]? with
  | some lo, some hi =>
    if lo.above x then none
    else if hi.above x then find_upper h.range.tail x 0
    else none
  | _, _ => none

/-- `gsl_histogram_increment (h, x)`: adds one to the bin containing `x`; no
bin is modified when `x` is outside the range of the histogram. -/
def gsl_histogram_increment (h : gsl_histogram) (x : Nat) : gsl_histogram :=
  match gsl_find h x with
  | none => h
  | some i => { n := h.n, range := h.range, bin := incr h.bin i }

/-- `gsl_histogram_sum (h)`. -/
def gsl_histogram_sum (h : gsl_histogram) : ℚ :=
  h.bin.sum

/-- The filling pass (lines 123-127) over the values read from the file. -/
def fill_histogram (h : gsl_histogram) (values : List Nat) : gsl_histogram :=
  values.foldl gsl_histogram_increment h

/-- One output row of the logarithmic mode (lines 132-133):
`range[idx]`, `range[idx + 1]` and `gsl_histogram_get (h, idx) / norm`. -/
def log_row (range : List Bound) (h : gsl_histogram) (idx : Nat) :
    Option (Bound × Bound × Option ℚ) :=
  match range[idx]?, range[idx + 1]?, h.bin[idx]? with
  | some lo, some hi, some c => some (lo, hi, fdiv c (gsl_histogram_sum h))
  | _, _, _ => none

/-- The histogram of the logarithmic mode after the filling pass, on the list
of `unsigned int` values read from the file; `none` when the run is undefined
(no value, maximum `0`, an access outside `range`, a GSL error). -/
def log_histogram (values : List Nat) : Option (List Bound × gsl_histogram) :=
  match max_element values with
  | none => none
  | some m =>
    match max_exponent m with
    | none => none
    | some me =>
      match log_range me with
      | none => none
      | some range =>
        match gsl_histogram_alloc (number_of_bins me) with
        | none => none
        | some h =>
          match gsl_histogram_set_ranges h range ((number_of_bins me + 1) % UINT_SIZE) with
          | none => none
          | some h0 => some (range, fill_histogram h0 values)

/-- The logarithmic mode (lines 96-138): the emitted rows. -/
def main_log (values : List Nat) : Option (List (Bound × Bound × Option ℚ)) :=
  match log_histogram values with
  | none => none
  | some (range, h) => allSome ((List.range h.n).map (log_row range h))

end PowerLaw

/-! ## Column extraction

A line of the input file is the list of its whitespace-separated numeric
tokens.  `data_buffer` is `none` while it is uninitialised. -/

/-- The extractions `line_buffer_stream >> data_buffer` repeated `count` times
on the tokens still to be read: a successful extraction stores the next token;
once the tokens are exhausted the extraction fails and leaves `data_buffer` as
it is. -/
def extract_loop {α : Type} : Nat → List α → Option α → Option α
  | 0, _, data_buffer => data_buffer
  | _ + 1, [], data_buffer => data_buffer
  | count + 1, token :: rest, _ => extract_loop count rest (some token)

/-- The loop
`for (unsigned int i = 0; i <= column_idx; ++i) line_buffer_stream >> data_buffer`
of `binned_discrete_distribution.cpp` (line 93) and `discrete_distribution.cpp`
(lines 70 and 97): `column_idx + 1` extractions.  For
`column_idx = 2^32 - 1` the test `i <= column_idx` holds for every
`unsigned int` `i`, the counter wraps from `2^32 - 1` to `0` and the loop never
ends: the run produces nothing (`none`).  The result is also `none` when
`data_buffer` is still uninitialised after the loop. -/
def extract_column {α : Type} (column_idx : Nat) (data_buffer : Option α) (line : List α) :
    Option α :=
  if column_idx + 1 < UINT_SIZE then extract_loop (column_idx + 1) line data_buffer
  else none

/-- The successive contents of `data_buffer` (declared once, before the loop
over the lines) after each line of the file has been processed with `read`.
`none` when a line is processed while `data_buffer` is still uninitialised, or
when `read` does not end. -/
def buffer_values {α : Type} (read : Option α → List α → Option α) :
    Option α → List (List α) → Option (List α)
  | _, [] => some []
  | data_buffer, line :: rest =>
    match read data_buffer line with
    | none => none
    | some v => (buffer_values read (some v) rest).map (fun vs => v :: vs)

/-- The values extracted in column mode by `binned_discrete_distribution.cpp`
and `discrete_distribution.cpp`. -/
def column_values (column_idx : Nat) (lines : List (List ℚ)) : Option (List ℚ) :=
  buffer_values (extract_column column_idx) none lines

namespace Binned

/-- The column mode of `binned_discrete_distribution.cpp` on the lines of the
file. -/
def main_column (column_idx number_of_bins : Nat) (lower_bound upper_bound tolerance : ℚ)
    (ignore_null : Bool) (lines : List (List ℚ)) : Option (List (ℚ × Option ℚ)) :=
  match column_values column_idx lines with
  | none => none
  | some values => main number_of_bins lower_bound upper_bound tolerance ignore_null values

end Binned

namespace Unbinned

/-- The floating-key branch of `discrete_distribution.cpp` on the lines of the
file. -/
def main_float_column (columnn_idx : Nat) (ignore_null : Bool) (tolerance : ℚ)
    (lines : List (List ℚ)) : Option (List (ℚ × Option ℚ)) :=
  (column_values columnn_idx lines).map (main_float ignore_null tolerance)

end Unbinned

namespace PowerLaw

set_option linter.unusedVariables false in
/-- The values read by `empirical_power_laws.cpp` (lines 86-90, 123-127 and
156-160): one extraction `lbs >> data_buffer` per line.  The option
`columnn_idx` is parsed (line 41) but not used by the reading loops.  (The
second and third loops start from the `data_buffer` left by the first one and
read the same values whenever the first loop is defined.) -/
def read_values (columnn_idx : Nat) (lines : List (List Nat)) : Option (List Nat) :=
  buffer_values (fun data_buffer line => extract_loop 1 line data_buffer) none lines

/-- The C function `round`: to the nearest integer, halves away from zero. -/
def c_round (q : ℚ) : Int :=
  if 0 ≤ q then ⌊q + 1 / 2⌋ else ⌈q - 1 / 2⌉

/-- The conversion `(int) x` of an integral `double`: undefined (`none`) when
the value is not an `int`. -/
def to_int (z : Int) : Option Int :=
  if -(2 : Int) ^ 31 ≤ z ∧ z < (2 : Int) ^ 31 then some z else none

/-- The array `range` of the unique-value histogram (lines 145-152):
`range[idx] = *it - 0.1` for the elements of the set in ascending order, then
`range[idx] = range[idx - 1] + 0.2`.  For an empty set the last assignment
reads `range[idx - 1]` with `idx = 0` (`none`).  The boundaries are kept exact:
for an `unsigned int` `v` the binary64 value of `v - 0.1` lies strictly between
`v - 1` and `v`, like the exact one, so that no comparison with a value and no
rounding by `round` depends on it. -/
def unique_range (element_set : List Nat) : Option (List ℚ) :=
  match (element_set.map (fun (v : Nat) => (v : ℚ) - 1 / 10)).getLast? with
  | none => none
  | some last =>
    some (element_set.map (fun (v : Nat) => (v : ℚ) - 1 / 10) ++ [last + 2 / 10])

/-- The unique-value histogram after the filling pass (lines 143-161), together
with the array `range`; `none` when the GSL allocation fails (no value).  The
number of bins `nb_of_unique_elements = element_set.size()` is taken without
reduction modulo `2^32` (the set would need all `2^32` values to reach it). -/
def unique_histogram (values : List Nat) : Option (List ℚ × gsl_histogram) :=
  match gsl_histogram_alloc (element_set values).length with
  | none => none
  | some h =>
    match unique_range (element_set values) with
    | none => none
    | some range =>
      match gsl_histogram_set_ranges h (range.map Bound.rat)
          ((element_set values).length + 1) with
      | none => none
      | some h0 => some (range, fill_histogram h0 values)

/-- The representative printed in a row: `(int) round(range[idx] + 0.1)`. -/
def representative (r : ℚ) : Option Int :=
  to_int (c_round (r + 1 / 10))

/-- The addition `accu += p` with the rounding `fl`, when either operand may
be not a number. -/
def add_opt (fl : ℚ → ℚ) : Option ℚ → Option ℚ → Option ℚ
  | some a, some p => some (fl (a + p))
  | _, _ => none

/-- The cumulative sums of `ps` started at `a`: entry `i` is
`a + ps[0] + ... + ps[i]`. -/
def running_sums : ℚ → List ℚ → List ℚ
  | _, [] => []
  | a, p :: ps => (a + p) :: running_sums (a + p) ps

/-- The cumulative sums of `ps` started at `a`, each addition rounded with
`fl`: entry `i` is `fl (... fl (fl (a + ps[0]) + ps[1]) ... + ps[i])`. -/
def rounded_sums (fl : ℚ → ℚ) : ℚ → List ℚ → List ℚ
  | _, [] => []
  | a, p :: ps => fl (a + p) :: rounded_sums fl (fl (a + p)) ps

/-- The output loop of the CCDF mode (lines 166-171) over the pairs
`(range[idx], gsl_histogram_get (h, idx))`, started with the accumulator
`accu`: each row carries the representative and `1 - accu` after
`accu += gsl_histogram_get (h, idx) / norm`.  The quotient, the addition and
the subtraction are `double` operations; `fl` is their rounding: `fl64` for the
program, `id` for the same loop in exact arithmetic. -/
def ccdf_loop (fl : ℚ → ℚ) (norm : ℚ) :
    List (ℚ × ℚ) → Option ℚ → List (Option Int × Option ℚ)
  | [], _ => []
  | (r, c) :: rest, accu =>
    (representative r,
        (add_opt fl accu ((fdiv c norm).map fl)).map (fun a => fl (1 - a)))
      :: ccdf_loop fl norm rest (add_opt fl accu ((fdiv c norm).map fl))

/-- The output loop of the normal mode (lines 177-180): each row carries the
representative and `gsl_histogram_get (h, idx) / norm`. -/
def pmf_rows (norm : ℚ) (bins : List (ℚ × ℚ)) : List (Option Int × Option ℚ) :=
  bins.map (fun rc => (representative rc.1, fdiv rc.2 norm))

/-- The unique-value modes (lines 139-184): the CCDF mode when `ccdf` is set,
the normal (PMF) mode otherwise.  The rows pair `range[idx]` with the count of
bin `idx` for `idx < nb_of_unique_elements`.  `fl` is the rounding of the CCDF
accumulation: `main_unique fl64` is the program, `main_unique id` the same
program in exact arithmetic. -/
def main_unique (fl : ℚ → ℚ) (ccdf : Bool) (values : List Nat) :
    Option (List (Option Int × Option ℚ)) :=
  match unique_histogram values with
  | none => none
  | some (range, h) =>
    if ccdf then
      some (ccdf_loop fl (gsl_histogram_sum h) ((range.take h.n).zip h.bin) (some 0))
    else
      some (pmf_rows (gsl_histogram_sum h) ((range.take h.n).zip h.bin))

end PowerLaw

end CliStats
namespace CliStats

/-! ## Rounding to the nearest integer -/

theorem rne_intCast (n : Int) : rne (n : ℚ) = n := by
  simp [rne]

theorem floor_le_rne (t : ℚ) : ⌊t⌋ ≤ rne t := by
  unfold rne
  split_ifs <;> omega

theorem rne_le_floor_succ (t : ℚ) : rne t ≤ ⌊t⌋ + 1 := by
  unfold rne
  split_ifs <;> omega

theorem rne_mono {t s : ℚ} (h : t ≤ s) : rne t ≤ rne s := by
  have hf : ⌊t⌋ ≤ ⌊s⌋ := Int.floor_mono h
  rcases hf.lt_or_eq with hlt | heq
  · have h1 := rne_le_floor_succ t
    have h2 := floor_le_rne s
    omega
  · unfold rne
    rw [heq]
    split_ifs <;> first | omega | linarith

theorem rne_eq_of_lt {t : ℚ} {f : Int} (h1 : (f : ℚ) - 1 / 2 < t) (h2 : t < (f : ℚ) + 1 / 2) :
    rne t = f := by
  rcases le_or_lt (f : ℚ) t with hft | hft
  · have hfl : ⌊t⌋ = f := by
      rw [Int.floor_eq_iff]
      exact ⟨hft, by linarith⟩
    unfold rne
    rw [hfl, if_pos (by linarith)]
  · have hfl : ⌊t⌋ = f - 1 := by
      rw [Int.floor_eq_iff]
      push_cast
      exact ⟨by linarith, by linarith⟩
    unfold rne
    rw [hfl]
    push_cast
    rw [if_neg (by linarith), if_pos (by linarith)]
    omega

theorem rne_eq_of_tie {t : ℚ} {f : Int} (hf : f % 2 = 0)
    (h : t = (f : ℚ) + 1 / 2 ∨ t = (f : ℚ) - 1 / 2) : rne t = f := by
  rcases h with h | h
  · have hfl : ⌊t⌋ = f := by
      rw [Int.floor_eq_iff]
      exact ⟨by linarith, by linarith⟩
    unfold rne
    rw [hfl, if_neg (by linarith), if_neg (by linarith), if_pos hf]
  · have hfl : ⌊t⌋ = f - 1 := by
      rw [Int.floor_eq_iff]
      push_cast
      exact ⟨by linarith, by linarith⟩
    unfold rne
    rw [hfl]
    push_cast
    rw [if_neg (by linarith), if_neg (by linarith), if_neg (by omega)]
    omega

theorem rne_neg (t : ℚ) : rne (-t) = -rne t := by
  rcases eq_or_ne ((⌊t⌋ : Int) : ℚ) t with hint | hne
  · rw [← hint, ← Int.cast_neg, rne_intCast, rne_intCast]
  · have hlt : ((⌊t⌋ : Int) : ℚ) < t := lt_of_le_of_ne (Int.floor_le t) hne
    have hlt2 : t < ((⌊t⌋ : Int) : ℚ) + 1 := Int.lt_floor_add_one t
    have hfl : ⌊-t⌋ = -⌊t⌋ - 1 := by
      rw [Int.floor_eq_iff]
      push_cast
      exact ⟨by linarith, by linarith⟩
    unfold rne
    rw [hfl]
    push_cast
    split_ifs <;> first | omega | linarith

theorem rne_le_of_le {t : ℚ} {n : Int} (h : t ≤ (n : ℚ)) : rne t ≤ n := by
  have := rne_mono h
  rwa [rne_intCast] at this

theorem le_rne_of_le {t : ℚ} {n : Int} (h : (n : ℚ) ≤ t) : n ≤ rne t := by
  have := rne_mono h
  rwa [rne_intCast] at this

/-! ## Rounding to binary64 -/

theorem ulp_pos (q : ℚ) : 0 < ulp q := by
  unfold ulp
  positivity

theorem binade_neg (q : ℚ) : binade (-q) = binade q := by
  unfold binade
  rw [abs_neg]

theorem ulp_neg (q : ℚ) : ulp (-q) = ulp q := by
  unfold ulp
  rw [binade_neg]

theorem fl64_neg (q : ℚ) : fl64 (-q) = -fl64 q := by
  unfold fl64
  rw [ulp_neg, neg_div, rne_neg]
  push_cast
  ring

theorem fl64_zero : fl64 0 = 0 := by
  unfold fl64
  rw [zero_div]
  have : rne 0 = 0 := by
    have := rne_intCast 0
    simpa using this
  rw [this]
  simp

theorem fl64_nonneg {q : ℚ} (h : 0 ≤ q) : 0 ≤ fl64 q := by
  unfold fl64
  have hu := ulp_pos q
  have h0 : (0 : Int) ≤ rne (q / ulp q) := by
    apply le_rne_of_le
    have : 0 ≤ q / ulp q := div_nonneg h hu.le
    simpa using this
  have : (0 : ℚ) ≤ (rne (q / ulp q) : ℚ) := by exact_mod_cast h0
  exact mul_nonneg this hu.le

theorem two_zpow_split (e : Int) : (2 : ℚ) ^ (e + 1) = (2 : ℚ) ^ (53 : ℕ) * (2 : ℚ) ^ (e - 52) := by
  rw [← zpow_natCast, ← zpow_add₀ (by norm_num : (2 : ℚ) ≠ 0)]
  congr 1
  push_cast
  ring

theorem two_zpow_split_low (e : Int) : (2 : ℚ) ^ e = (2 : ℚ) ^ (52 : ℕ) * (2 : ℚ) ^ (e - 52) := by
  rw [← zpow_natCast, ← zpow_add₀ (by norm_num : (2 : ℚ) ≠ 0)]
  congr 1
  push_cast
  ring

theorem abs_lt_zpow_binade (q : ℚ) : |q| < (2 : ℚ) ^ (binade q + 1) := by
  have h1 : |q| < ((2 : ℕ) : ℚ) ^ (Int.log 2 |q| + 1) :=
    Int.lt_zpow_succ_log_self (by norm_num) _
  have h2 : ((2 : ℕ) : ℚ) ^ (Int.log 2 |q| + 1) ≤ (2 : ℚ) ^ (binade q + 1) := by
    rw [Nat.cast_ofNat]
    apply zpow_le_zpow_right₀ (by norm_num)
    unfold binade
    have := le_max_left (Int.log 2 |q|) (-1022)
    omega
  exact lt_of_lt_of_le h1 h2

theorem zpow_binade_le {q : ℚ} (hq : q ≠ 0) (h : -1022 ≤ Int.log 2 |q|) :
    (2 : ℚ) ^ binade q ≤ |q| := by
  have hb : binade q = Int.log 2 |q| := by
    unfold binade
    exact max_eq_left h
  rw [hb]
  have := Int.zpow_log_le_self (b := 2) (r := |q|) (by norm_num) (abs_pos.mpr hq)
  rwa [Nat.cast_ofNat] at this

/-- The scaled significand of a rounded number is at most `2^53`. -/
theorem rne_div_ulp_le {q : ℚ} (h : 0 ≤ q) : rne (q / ulp q) ≤ 2 ^ 53 := by
  apply rne_le_of_le
  rw [div_le_iff₀ (ulp_pos q)]
  have h1 := abs_lt_zpow_binade q
  rw [abs_of_nonneg h, two_zpow_split] at h1
  unfold ulp
  push_cast
  exact h1.le

theorem fl64_le_zpow {q : ℚ} (h : 0 ≤ q) : fl64 q ≤ (2 : ℚ) ^ (binade q + 1) := by
  unfold fl64
  rw [two_zpow_split]
  have h1 : (rne (q / ulp q) : ℚ) ≤ (2 : ℚ) ^ (53 : ℕ) := by
    exact_mod_cast rne_div_ulp_le h
  exact mul_le_mul_of_nonneg_right h1 (ulp_pos q).le

theorem le_rne_div_ulp {q : ℚ} (hq : 0 < q) (h : -1022 ≤ Int.log 2 |q|) :
    2 ^ 52 ≤ rne (q / ulp q) := by
  apply le_rne_of_le
  rw [le_div_iff₀ (ulp_pos q)]
  have h1 := zpow_binade_le hq.ne' h
  rw [abs_of_pos hq, two_zpow_split_low] at h1
  unfold ulp
  push_cast
  exact h1

theorem zpow_le_fl64 {q : ℚ} (hq : 0 < q) (h : -1022 ≤ Int.log 2 |q|) :
    (2 : ℚ) ^ binade q ≤ fl64 q := by
  unfold fl64
  rw [two_zpow_split_low]
  have h1 : (2 : ℚ) ^ (52 : ℕ) ≤ (rne (q / ulp q) : ℚ) := by
    exact_mod_cast le_rne_div_ulp hq h
  exact mul_le_mul_of_nonneg_right h1 (ulp_pos q).le

theorem binade_mono {x y : ℚ} (hx : 0 < x) (h : x ≤ y) : binade x ≤ binade y := by
  unfold binade
  apply max_le_max_right
  rw [abs_of_pos hx, abs_of_pos (lt_of_lt_of_le hx h)]
  exact Int.log_mono_right hx h

theorem fl64_mono_pos {x y : ℚ} (hx : 0 < x) (h : x ≤ y) : fl64 x ≤ fl64 y := by
  have hy : 0 < y := lt_of_lt_of_le hx h
  rcases (binade_mono hx h).lt_or_eq with hlt | heq
  · have h1 := fl64_le_zpow hx.le
    have hlog : -1022 ≤ Int.log 2 |y| := by
      by_contra hcon
      have hb : binade y = -1022 := by
        unfold binade
        exact max_eq_right (by omega)
      have hb2 : -1022 ≤ binade x := by
        unfold binade
        exact le_max_right _ _
      omega
    have h2 := zpow_le_fl64 hy hlog
    have h3 : (2 : ℚ) ^ (binade x + 1) ≤ (2 : ℚ) ^ binade y :=
      zpow_le_zpow_right₀ (by norm_num) (by omega)
    linarith
  · have hu : ulp x = ulp y := by
      unfold ulp
      rw [heq]
    unfold fl64
    rw [hu]
    have h1 : x / ulp y ≤ y / ulp y := div_le_div_of_nonneg_right h (ulp_pos y).le
    have h2 : (rne (x / ulp y) : ℚ) ≤ (rne (y / ulp y) : ℚ) := by
      exact_mod_cast rne_mono h1
    exact mul_le_mul_of_nonneg_right h2 (ulp_pos y).le

/-- Rounding to nearest is monotone. -/
theorem fl64_mono {x y : ℚ} (h : x ≤ y) : fl64 x ≤ fl64 y := by
  rcases lt_trichotomy 0 x with hx | hx | hx
  · exact fl64_mono_pos hx h
  · rw [← hx, fl64_zero]
    exact fl64_nonneg (by linarith)
  · rcases le_or_lt 0 y with hy | hy
    · have h1 : fl64 x ≤ 0 := by
        have := fl64_nonneg (q := -x) (by linarith)
        rw [fl64_neg] at this
        linarith
      have h2 := fl64_nonneg hy
      linarith
    · have := fl64_mono_pos (x := -y) (y := -x) (by linarith) (by linarith)
      rw [fl64_neg, fl64_neg] at this
      linarith

/-- A number `m * 2^k` with `|m| < 2^53` and `k ≥ -1074` is a binary64 number:
rounding leaves it unchanged. -/
theorem fl64_dyadic (m k : Int) (hm : |m| < 2 ^ 53) (hk : -1074 ≤ k) :
    fl64 ((m : ℚ) * (2 : ℚ) ^ k) = (m : ℚ) * (2 : ℚ) ^ k := by
  rcases eq_or_ne m 0 with rfl | hm0
  · simp [fl64_zero]
  have h2k : (0 : ℚ) < (2 : ℚ) ^ k := by positivity
  have hq0 : (m : ℚ) * (2 : ℚ) ^ k ≠ 0 := by
    apply mul_ne_zero _ h2k.ne'
    exact_mod_cast hm0
  have hqlt : |(m : ℚ) * (2 : ℚ) ^ k| < ((2 : ℕ) : ℚ) ^ (k + 53) := by
    rw [abs_mul, abs_of_pos h2k, Nat.cast_ofNat, zpow_add₀ (by norm_num : (2 : ℚ) ≠ 0), mul_comm]
    apply mul_lt_mul_of_pos_left _ h2k
    have : ((|m| : Int) : ℚ) < ((2 ^ 53 : Int) : ℚ) := by exact_mod_cast hm
    rw [Int.cast_abs] at this
    norm_num at this ⊢
    exact this
  have hlog : Int.log 2 |(m : ℚ) * (2 : ℚ) ^ k| < k + 53 :=
    (Int.lt_zpow_iff_log_lt (by norm_num) (abs_pos.mpr hq0)).mp hqlt
  have hb : binade ((m : ℚ) * (2 : ℚ) ^ k) ≤ k + 52 := by
    unfold binade
    apply max_le <;> omega
  obtain ⟨n, hn⟩ : ∃ n : ℕ, k = (binade ((m : ℚ) * (2 : ℚ) ^ k) - 52) + (n : Int) :=
    ⟨(k - (binade ((m : ℚ) * (2 : ℚ) ^ k) - 52)).toNat, by omega⟩
  have hdiv : (m : ℚ) * (2 : ℚ) ^ k / ulp ((m : ℚ) * (2 : ℚ) ^ k) = ((m * 2 ^ n : Int) : ℚ) := by
    rw [div_eq_iff (ulp_pos _).ne']
    unfold ulp
    push_cast
    rw [mul_assoc, ← zpow_natCast, ← zpow_add₀ (by norm_num : (2 : ℚ) ≠ 0)]
    congr 2
    omega
  unfold fl64
  rw [hdiv, rne_intCast, ← hdiv]
  exact div_mul_cancel₀ _ (ulp_pos _).ne'

/-- Rounding is idempotent: a rounded number is a binary64 number. -/
theorem fl64_idem (q : ℚ) : fl64 (fl64 q) = fl64 q := by
  have key : ∀ x : ℚ, 0 ≤ x → fl64 (fl64 x) = fl64 x := by
    intro x hx
    have hb : -1022 ≤ binade x := by
      unfold binade
      exact le_max_right _ _
    have hle := rne_div_ulp_le hx
    have h0 : (0 : Int) ≤ rne (x / ulp x) := by
      apply le_rne_of_le
      have : 0 ≤ x / ulp x := div_nonneg hx (ulp_pos x).le
      simpa using this
    rcases hle.lt_or_eq with hlt | heq
    · have : fl64 x = ((rne (x / ulp x) : Int) : ℚ) * (2 : ℚ) ^ (binade x - 52) := rfl
      rw [this]
      apply fl64_dyadic
      · rw [abs_of_nonneg h0]
        exact hlt
      · omega
    · have : fl64 x = ((1 : Int) : ℚ) * (2 : ℚ) ^ (binade x + 1) := by
        unfold fl64
        rw [heq, two_zpow_split]
        unfold ulp
        push_cast
        ring
      rw [this]
      apply fl64_dyadic
      · norm_num
      · omega
  rcases le_or_lt 0 q with h | h
  · exact key q h
  · have := key (-q) (by linarith)
    rw [fl64_neg, fl64_neg] at this
    linarith

/-- Evaluation of `fl64` from the binade and the rounded significand. -/
theorem fl64_eq {q : ℚ} (e m : Int) (he : -1022 ≤ e) (h1 : (2 : ℚ) ^ e ≤ |q|)
    (h2 : |q| < (2 : ℚ) ^ (e + 1)) (hm : rne (q / (2 : ℚ) ^ (e - 52)) = m) :
    fl64 q = (m : ℚ) * (2 : ℚ) ^ (e - 52) := by
  have hpos : 0 < |q| := lt_of_lt_of_le (by positivity) h1
  have hlog : Int.log 2 |q| = e := by
    apply le_antisymm
    · have : Int.log 2 |q| < e + 1 := by
        apply (Int.lt_zpow_iff_log_lt (by norm_num) hpos).mp
        rwa [Nat.cast_ofNat]
      omega
    · apply (Int.zpow_le_iff_le_log (by norm_num) hpos).mp
      rwa [Nat.cast_ofNat]
  have hb : binade q = e := by
    unfold binade
    rw [hlog]
    exact max_eq_left he
  unfold fl64 ulp
  rw [hb, hm]

/-- Rounding to the nearest integer moves a number by at most one half. -/
theorem abs_rne_sub_le (t : ℚ) : |(rne t : ℚ) - t| ≤ 1 / 2 := by
  have h1 : ((⌊t⌋ : Int) : ℚ) ≤ t := Int.floor_le t
  have h2 : t < ((⌊t⌋ : Int) : ℚ) + 1 := Int.lt_floor_add_one t
  rw [abs_le]
  unfold rne
  split_ifs <;> push_cast <;> constructor <;> linarith

/-- The rounding error of `fl64` on a number of magnitude below `2^(E+1)` is at
most `2^(E-53)`, half a unit in the last place. -/
theorem abs_fl64_sub_le (q : ℚ) (E : Int) (hE : -1022 ≤ E) (h : |q| < (2 : ℚ) ^ (E + 1)) :
    |fl64 q - q| ≤ (2 : ℚ) ^ (E - 53) := by
  rcases eq_or_ne q 0 with rfl | hq
  · rw [fl64_zero]
    simp only [sub_zero, abs_zero]
    positivity
  have hlog : Int.log 2 |q| < E + 1 := by
    apply (Int.lt_zpow_iff_log_lt (by norm_num) (abs_pos.mpr hq)).mp
    rwa [Nat.cast_ofNat]
  have hb : binade q ≤ E := by
    unfold binade
    apply max_le <;> omega
  have hu : ulp q ≤ (2 : ℚ) ^ (E - 52) := by
    unfold ulp
    exact zpow_le_zpow_right₀ (by norm_num) (by omega)
  have hu0 := ulp_pos q
  have hsplit : (2 : ℚ) ^ (E - 52) = 2 * (2 : ℚ) ^ (E - 53) := by
    rw [show E - 52 = 1 + (E - 53) by ring, zpow_add₀ (by norm_num : (2 : ℚ) ≠ 0)]
    norm_num
  have heq : fl64 q - q = ((rne (q / ulp q) : ℚ) - q / ulp q) * ulp q := by
    unfold fl64
    field_simp
  rw [heq, abs_mul, abs_of_pos hu0]
  have h1 := abs_rne_sub_le (q / ulp q)
  have h2 : |(rne (q / ulp q) : ℚ) - q / ulp q| * ulp q ≤ 1 / 2 * ulp q :=
    mul_le_mul_of_nonneg_right h1 hu0.le
  linarith

end CliStats


namespace CliStats

/-! ## Lemmas on vectors of counts -/

theorem getElem?_incr_ne (l : List ℚ) (i j : Nat) (h : j ≠ i) :
    (incr l i)[j]? = l[j]? := by
  induction l generalizing i j with
  | nil => rfl
  | cons c cs ih =>
    cases i with
    | zero =>
      cases j with
      | zero => exact absurd rfl h
      | succ k => simp [incr]
    | succ i' =>
      cases j with
      | zero => simp [incr]
      | succ k =>
        have hk : k ≠ i' := fun e => h (by rw [e])
        simp [incr, ih i' k hk]

theorem getElem?_incr_eq (l : List ℚ) (i : Nat) :
    (incr l i)[i]? = (l[i]?).map (fun c => c + 1) := by
  induction l generalizing i with
  | nil => rfl
  | cons c cs ih =>
    cases i with
    | zero => simp [incr]
    | succ i' => simp [incr, ih i']

theorem take_incr_of_le (l : List ℚ) (i n : Nat) (h : n ≤ i) :
    (incr l i).take n = l.take n := by
  induction l generalizing i n with
  | nil => rfl
  | cons c cs ih =>
    cases n with
    | zero => simp
    | succ m =>
      cases i with
      | zero => omega
      | succ i' => simp [incr, ih i' m (by omega)]

theorem allSome_map_some {α β : Type} (f : α → Option β) (g : α → β) (l : List α)
    (h : ∀ a ∈ l, f a = some (g a)) : allSome (l.map f) = some (l.map g) := by
  induction l with
  | nil => rfl
  | cons a as ih =>
    have ha : f a = some (g a) := h a (by simp)
    have ht : ∀ b ∈ as, f b = some (g b) := fun b hb => h b (by simp [hb])
    simp [allSome, ha, ih ht]

end CliStats

namespace CliStats

namespace Binned

/-! ## Lemmas on the linear bins -/

theorem vector_size_eq (N : Nat) (h : N + 1 < UINT_SIZE) : vector_size N = N + 1 :=
  Nat.mod_eq_of_lt h

theorem length_bin_limits (N : Nat) (l u : ℚ) :
    (bin_limits N l u).length = vector_size N := by
  simp [bin_limits]

theorem getElem?_bin_limits (N : Nat) (l u : ℚ) (i : Nat) (h : i < vector_size N) :
    (bin_limits N l u)[i]? = some (limit N l u i) := by
  simp [bin_limits, List.getElem?_map, List.getElem?_range h]

theorem getElem?_bin_limits_some (N : Nat) (l u : ℚ) (i : Nat) (b : ℚ)
    (h : (bin_limits N l u)[i]? = some b) :
    i < vector_size N ∧ b = limit N l u i := by
  have hi : i < vector_size N := by
    by_contra hc
    have : (bin_limits N l u)[i]? = none := by
      apply List.getElem?_eq_none
      rw [length_bin_limits]; omega
    rw [this] at h; cases h
  rw [getElem?_bin_limits N l u i hi] at h
  exact ⟨hi, (Option.some.inj h).symm⟩

/-- The computed boundaries do not decrease with the index: rounding is
monotone. -/
theorem limit_mono (N : Nat) (l u : ℚ) (hlu : l ≤ u) (i j : Nat) (hij : i ≤ j) :
    limit N l u i ≤ limit N l u j := by
  have hd : (0 : ℚ) ≤ fl64 (u - l) := fl64_nonneg (by linarith)
  have hq : (i : ℚ) / (N : ℚ) ≤ (j : ℚ) / (N : ℚ) := by
    apply div_le_div_of_nonneg_right _ (Nat.cast_nonneg N)
    exact_mod_cast hij
  have h1 := mul_le_mul_of_nonneg_right (fl64_mono hq) hd
  have h2 := fl64_mono h1
  unfold limit
  exact fl64_mono (by linarith)

/-- The first boundary is `lower_bound` itself. -/
theorem limit_zero (N : Nat) (l u : ℚ) (hl : fl64 l = l) : limit N l u 0 = l := by
  simp [limit, fl64_zero, hl]

/-- The scan runs off the end of the vector when no boundary exceeds the
value. -/
theorem scan_none (l : List ℚ) (d : ℚ) (k : Nat) (h : ∀ b ∈ l, b ≤ d) :
    scan l d k = none := by
  induction l generalizing k with
  | nil => rfl
  | cons b rest ih =>
    have hb : b ≤ d := h b (by simp)
    simp only [scan, hb, if_true]
    exact ih (k + 1) (fun c hc => h c (by simp [hc]))

end Binned

end CliStats

namespace CliStats

theorem sum_map_div (l : List ℚ) (c : ℚ) :
    (l.map (fun x => x / c)).sum = l.sum / c := by
  induction l with
  | nil => simp
  | cons a as ih => simp [ih, add_div]

namespace Binned

theorem step_not_kept (tol : ℚ) (ign : Bool) (limits : List ℚ) (s : State) (v : ℚ)
    (hk : keep ign tol v = false) : step ign tol limits s v = some s := by
  simp [step, hk]

/-- The accumulation pass when no value passes the filter: the state is
unchanged, whatever the boundaries. -/
theorem accumulate_none_kept (tol : ℚ) (ign : Bool) (limits : List ℚ) (values : List ℚ)
    (hnone : values.filter (keep ign tol) = []) (s : State) :
    accumulate ign tol limits s values = some s := by
  induction values with
  | nil => rfl
  | cons v vs ih =>
    cases hk : keep ign tol v with
    | false =>
      have hvs : vs.filter (keep ign tol) = [] := by
        simpa [List.filter, hk] using hnone
      simp [accumulate, step_not_kept tol ign _ s v hk, ih hvs]
    | true =>
      simp [List.filter, hk] at hnone

/-- The output loop on a state whose `bins` vector has its full size. -/
theorem output_eq (N : Nat) (l u : ℚ) (s : State) (hN' : N + 1 < UINT_SIZE)
    (hs : s.bins.length = N + 1) :
    output N (bin_limits N l u) s = some ((List.range N).map (fun i =>
      (fl64 (fl64 (limit N l u (i + 1) + limit N l u i) / 2),
        fdiv (s.bins.getD i 0) s.normalization))) := by
  unfold output
  apply allSome_map_some
  intro i hi
  have hiN : i < N := List.mem_range.mp hi
  have hsz := vector_size_eq N hN'
  have h1 := getElem?_bin_limits N l u (i + 1) (by omega)
  have h2 := getElem?_bin_limits N l u i (by omega)
  have hil : i < s.bins.length := by omega
  have h3 : s.bins[i]? = some (s.bins.getD i 0) := by
    simp [List.getD_eq_getElem?_getD, List.getElem?_eq_getElem hil]
  simp only [row, h1, h2, h3]

end Binned

end CliStats
namespace CliStats

/-! ## Binary64 values used in the examples -/

theorem fl64_one : fl64 1 = 1 := by
  have := fl64_dyadic 1 0 (by norm_num) (by norm_num)
  simpa using this

theorem fl64_two : fl64 2 = 2 := by
  have := fl64_dyadic 2 0 (by norm_num) (by norm_num)
  simpa using this

theorem fl64_three : fl64 3 = 3 := by
  have := fl64_dyadic 3 0 (by norm_num) (by norm_num)
  simpa using this

theorem fl64_five : fl64 5 = 5 := by
  have := fl64_dyadic 5 0 (by norm_num) (by norm_num)
  simpa using this

theorem fl64_half : fl64 (1 / 2) = 1 / 2 := by
  have := fl64_dyadic 1 (-1) (by norm_num) (by norm_num)
  norm_num at this ⊢
  exact this

theorem fl64_three_halves : fl64 (3 / 2) = 3 / 2 := by
  have := fl64_dyadic 3 (-1) (by norm_num) (by norm_num)
  norm_num at this ⊢
  exact this

theorem fl64_five_halves : fl64 (5 / 2) = 5 / 2 := by
  have := fl64_dyadic 5 (-1) (by norm_num) (by norm_num)
  norm_num at this ⊢
  exact this

/-- The binary64 value of `1/3`. -/
theorem fl64_third : fl64 (1 / 3) = 6004799503160661 / 18014398509481984 := by
  rw [fl64_eq (-2) 6004799503160661 (by norm_num) (by norm_num [abs_of_pos])
    (by norm_num [abs_of_pos]) (rne_eq_of_lt (by norm_num) (by norm_num))]
  norm_num

/-- The binary64 value of `2/3`. -/
theorem fl64_two_thirds : fl64 (2 / 3) = 6004799503160661 / 9007199254740992 := by
  rw [fl64_eq (-1) 6004799503160661 (by norm_num) (by norm_num [abs_of_pos])
    (by norm_num [abs_of_pos]) (rne_eq_of_lt (by norm_num) (by norm_num))]
  norm_num

/-- The binary64 product `fl64 (1/3) * 3` is a tie and rounds to `1`. -/
theorem fl64_third_mul_three : fl64 (6004799503160661 / 18014398509481984 * 3) = 1 := by
  rw [fl64_eq (-1) (2 ^ 53) (by norm_num) (by norm_num [abs_of_pos])
    (by norm_num [abs_of_pos]) (rne_eq_of_tie (by norm_num) (by norm_num))]
  norm_num

/-- The binary64 product `fl64 (2/3) * 3` is a tie and rounds to `2`. -/
theorem fl64_two_thirds_mul_three : fl64 (6004799503160661 / 9007199254740992 * 3) = 2 := by
  rw [fl64_eq 0 (2 ^ 53) (by norm_num) (by norm_num [abs_of_pos])
    (by norm_num [abs_of_pos]) (rne_eq_of_tie (by norm_num) (by norm_num))]
  norm_num

namespace Binned

theorem limit_three_0 : limit 3 0 3 0 = 0 := by
  simp [limit, fl64_zero]

theorem limit_three_1 : limit 3 0 3 1 = 1 := by
  have h : limit 3 0 3 1 = fl64 (0 + fl64 (fl64 (1 / 3) * fl64 (3 - 0))) := by
    simp [limit]
  rw [h, sub_zero, fl64_three, fl64_third, fl64_third_mul_three, zero_add, fl64_one]

theorem limit_three_2 : limit 3 0 3 2 = 2 := by
  have h : limit 3 0 3 2 = fl64 (0 + fl64 (fl64 (2 / 3) * fl64 (3 - 0))) := by
    simp [limit]
  rw [h, sub_zero, fl64_three, fl64_two_thirds, fl64_two_thirds_mul_three, zero_add, fl64_two]

theorem limit_three_3 : limit 3 0 3 3 = 3 := by
  have h : limit 3 0 3 3 = fl64 (0 + fl64 (fl64 1 * fl64 (3 - 0))) := by
    simp [limit]
  rw [h, sub_zero, fl64_three, fl64_one, one_mul, fl64_three, zero_add, fl64_three]

/-- Three bins over `[0, 3)`: the boundaries computed by line 81 are `0`, `1`,
`2`, `3`. -/
theorem bin_limits_three : bin_limits 3 0 3 = [0, 1, 2, 3] := by
  have hsz : vector_size 3 = 4 := by norm_num [vector_size, UINT_SIZE]
  have hr : List.range 4 = [0, 1, 2, 3] := by decide
  rw [bin_limits, hsz, hr]
  simp only [List.map_cons, List.map_nil, limit_three_0, limit_three_1, limit_three_2,
    limit_three_3]

/-! ### The bounds `0.8` and `2.9` with seven bins

`0.8` is the binary64 number `3602879701896397 / 2^52` and `2.9` is
`6530219459687219 / 2^51`. -/

theorem fl64_point_eight :
    fl64 (3602879701896397 / 4503599627370496) = 3602879701896397 / 4503599627370496 := by
  have := fl64_dyadic 3602879701896397 (-52) (by norm_num) (by norm_num)
  norm_num at this ⊢
  exact this

end Binned

end CliStats
namespace CliStats

namespace Binned

/-! ## C1: the emitted counts and probabilities of the linear-bin pipeline -/

end Binned

end CliStats
namespace CliStats

namespace Binned

/-! ## C2: the half-open, lower-inclusive bin of a value -/

end Binned

end CliStats

namespace CliStats

/-! ## Lemmas on `std::set` and `std::map` -/

theorem mem_set_insert {α : Type} [LinearOrder α] (s : List α) (a x : α) :
    x ∈ (set_insert s a).1 ↔ x = a ∨ x ∈ s := by
  induction s with
  | nil => simp [set_insert]
  | cons y rest ih =>
    by_cases h1 : a < y
    · simp [set_insert, h1]
    · by_cases h2 : a = y
      · subst h2
        simp [set_insert]
      · simp only [set_insert, h1, h2, if_false, List.mem_cons, ih]
        tauto

theorem pairwise_set_insert {α : Type} [LinearOrder α] (s : List α) (a : α)
    (hs : s.Pairwise (fun x y => x < y)) :
    (set_insert s a).1.Pairwise (fun x y => x < y) := by
  induction s with
  | nil => simp [set_insert]
  | cons y rest ih =>
    have hy : ∀ z ∈ rest, y < z := (List.pairwise_cons.mp hs).1
    have hr : rest.Pairwise (fun x y => x < y) := (List.pairwise_cons.mp hs).2
    by_cases h1 : a < y
    · simp only [set_insert, h1, if_true]
      refine List.pairwise_cons.mpr ⟨?_, hs⟩
      intro z hz
      rcases List.mem_cons.mp hz with e | e
      · rw [e]; exact h1
      · exact lt_trans h1 (hy z e)
    · by_cases h2 : a = y
      · simp only [set_insert, h1, h2, if_false, if_true]
        rw [h2] at h1
        simpa [set_insert, h1] using hs
      · simp only [set_insert, h1, h2, if_false]
        refine List.pairwise_cons.mpr ⟨?_, ih hr⟩
        intro z hz
        rcases (mem_set_insert rest a z).mp hz with e | e
        · rw [e]
          exact lt_of_le_of_ne (not_lt.mp h1) (fun e' => h2 e'.symm)
        · exact hy z e

theorem set_insert_flag {α : Type} [LinearOrder α] (s : List α) (a : α)
    (hs : s.Pairwise (fun x y => x < y)) :
    (set_insert s a).2 = true ↔ a ∉ s := by
  induction s with
  | nil => simp [set_insert]
  | cons y rest ih =>
    have hy : ∀ z ∈ rest, y < z := (List.pairwise_cons.mp hs).1
    have hr : rest.Pairwise (fun x y => x < y) := (List.pairwise_cons.mp hs).2
    by_cases h1 : a < y
    · simp only [set_insert, h1, if_true, true_iff, List.mem_cons, not_or]
      refine ⟨ne_of_lt h1, ?_⟩
      intro hmem
      exact absurd (lt_trans h1 (hy a hmem)) (lt_irrefl a)
    · by_cases h2 : a = y
      · simp [set_insert, h2]
      · simp only [set_insert, h1, h2, if_false, List.mem_cons, not_or, ih hr]
        tauto

theorem map_get_update {K : Type} [DecidableEq K] (f : ℚ → ℚ) (m : List (K × ℚ))
    (k k' : K) :
    map_get (map_update f m k) k' = if k' = k then f (map_get m k) else map_get m k' := by
  induction m with
  | nil =>
    by_cases h : k' = k <;> simp [map_update, map_get, h]
  | cons e rest ih =>
    obtain ⟨ke, x⟩ := e
    by_cases h1 : k = ke
    · subst h1
      by_cases h : k' = k <;> simp [map_update, map_get, h]
    · by_cases h : k' = k
      · subst h
        simp [map_update, map_get, h1, ih]
      · by_cases h3 : k' = ke
        · subst h3
          simp [map_update, map_get, h1, h]
        · simp [map_update, map_get, h1, h, h3, ih]

theorem map_total_update {K : Type} [DecidableEq K] (f : ℚ → ℚ) (m : List (K × ℚ))
    (k : K) :
    map_total (map_update f m k) = map_total m - map_get m k + f (map_get m k) := by
  induction m with
  | nil => simp [map_update, map_get, map_total]
  | cons e rest ih =>
    obtain ⟨ke, x⟩ := e
    by_cases h1 : k = ke
    · subst h1
      simp [map_update, map_get, map_total]
      ring
    · have ih' : (List.map Prod.snd (map_update f rest k)).sum
          = (List.map Prod.snd rest).sum - map_get rest k + f (map_get rest k) := ih
      simp only [map_update, map_get, map_total, h1, if_false, List.map_cons,
        List.sum_cons, ih']
      ring

end CliStats

namespace CliStats

namespace Unbinned

/-! ## The floating-key branch -/

theorem floatInv_init : FloatInv (init ℚ) [] where
  sorted := by simp [init]
  mem := by simp [init]
  count := by simp [init, map_get]
  norm := by simp [init]
  total := by simp [init, map_total]

theorem floatInv_step_kept (ign : Bool) (tol : ℚ) (s : State ℚ) (kept : List ℚ) (v : ℚ)
    (hk : keep ign tol v = true) (h : FloatInv s kept) :
    FloatInv (step_float ign tol s v) (kept ++ [v]) := by
  have hflag := set_insert_flag s.seen v h.sorted
  have hnew : (set_insert s.seen v).2 = true → kept.count v = 0 := by
    intro hf
    have : v ∉ kept := fun hm => (hflag.mp hf) ((h.mem v).mpr hm)
    exact List.count_eq_zero_of_not_mem this
  constructor
  · simpa [step_float, hk] using pairwise_set_insert s.seen v h.sorted
  · intro x
    simp only [step_float, hk, if_true, mem_set_insert, h.mem x, List.mem_append,
      List.mem_singleton]
    tauto
  · intro x
    cases hf : (set_insert s.seen v).2 with
    | true =>
      have h0 := hnew hf
      simp only [step_float, hk, hf, if_true, map_get_update, h.count,
        List.count_append, List.count_cons, List.count_nil]
      by_cases hx : x = v
      · subst hx; simp [h0]
      · have hx' : ¬ v = x := fun e => hx e.symm
        simp [hx, hx']
    | false =>
      simp only [step_float, hk, hf, if_true, Bool.false_eq_true, if_false,
        map_get_update, h.count,
        List.count_append, List.count_cons, List.count_nil]
      by_cases hx : x = v
      · subst hx; simp
      · have hx' : ¬ v = x := fun e => hx e.symm
        simp [hx, hx']
  · simp [step_float, hk, h.norm]
  · cases hf : (set_insert s.seen v).2 with
    | true =>
      have h0 := hnew hf
      simp only [step_float, hk, hf, if_true, map_total_update, h.total, h.count, h0]
      simp
    | false =>
      simp only [step_float, hk, hf, if_true, Bool.false_eq_true, if_false,
        map_total_update, h.total, h.count, List.length_append, List.length_singleton]
      push_cast
      ring

theorem step_float_not_kept (ign : Bool) (tol : ℚ) (s : State ℚ) (v : ℚ)
    (hk : keep ign tol v = false) : step_float ign tol s v = s := by
  simp [step_float, hk]

theorem floatInv_accumulate (ign : Bool) (tol : ℚ) (values : List ℚ) (s : State ℚ)
    (kept : List ℚ) (h : FloatInv s kept) :
    FloatInv (accumulate_float ign tol s values) (kept ++ values.filter (keep ign tol)) := by
  induction values generalizing s kept with
  | nil => simpa [accumulate_float] using h
  | cons v vs ih =>
    cases hk : keep ign tol v with
    | false =>
      simpa [accumulate_float, step_float_not_kept ign tol s v hk, List.filter, hk]
        using ih s kept h
    | true =>
      have := ih _ _ (floatInv_step_kept ign tol s kept v hk h)
      simpa [accumulate_float, List.filter, hk] using this

theorem floatInv_final (ign : Bool) (tol : ℚ) (values : List ℚ) :
    FloatInv (accumulate_float ign tol (init ℚ) values) (values.filter (keep ign tol)) := by
  simpa using floatInv_accumulate ign tol values (init ℚ) [] floatInv_init

/-- Over a strictly ascending list with the same members as `l`, the tallies of
`l` add up to the length of `l`. -/
theorem sum_count_of_sorted (seen l : List ℚ) (hs : seen.Pairwise (fun x y => x < y))
    (hm : ∀ x, x ∈ seen ↔ x ∈ l) :
    (seen.map (fun x => (l.count x : ℚ))).sum = (l.length : ℚ) := by
  have hnd : seen.Nodup := hs.imp (fun h => ne_of_lt h)
  have hperm : seen.Perm l.dedup := by
    apply (List.perm_ext_iff_of_nodup hnd (List.nodup_dedup l)).mpr
    intro x
    rw [hm x, List.mem_dedup]
  have h1 : (seen.map (fun x => (l.count x : ℚ))).sum
      = (l.dedup.map (fun x => (l.count x : ℚ))).sum := (hperm.map _).sum_eq
  have h2 : (l.dedup.map (fun x => l.count x)).sum = l.length :=
    List.sum_map_count_dedup_eq_length l
  rw [h1, ← h2]
  push_cast
  rw [List.map_map]
  rfl

end Unbinned

end CliStats

namespace CliStats

namespace Unbinned

/-! ## C3: the rows of the floating-key branch -/

/-- C3: in the unbinned pipeline without `are_int`, for every list of extracted
values, the representative values of the emitted rows are strictly ascending
(so no value is emitted twice), a value has a row exactly when it occurs among
the kept values, and the row of `v` carries (number of kept occurrences of
`v`) / (number of kept values). -/
theorem float_rows_tally (ign : Bool) (tol : ℚ) (values : List ℚ) :
    ((main_float ign tol values).map Prod.fst).Pairwise (fun x y => x < y) ∧
    (∀ v, v ∈ (main_float ign tol values).map Prod.fst
      ↔ v ∈ values.filter (keep ign tol)) ∧
    (∀ r ∈ main_float ign tol values,
      r.2 = some (((values.filter (keep ign tol)).count r.1 : ℚ)
        / ((values.filter (keep ign tol)).length : ℚ))) := by
  have hinv := floatInv_final ign tol values
  have hfst : (main_float ign tol values).map Prod.fst
      = (accumulate_float ign tol (init ℚ) values).seen := by
    simp [main_float, output_float, List.map_map, Function.comp_def]
  refine ⟨?_, ?_, ?_⟩
  · rw [hfst]; exact hinv.sorted
  · intro v; rw [hfst]; exact hinv.mem v
  · intro r hr
    simp only [main_float, output_float, List.mem_map] at hr
    obtain ⟨v, hv, rfl⟩ := hr
    have hvk : v ∈ values.filter (keep ign tol) := (hinv.mem v).mp hv
    have hpos : 0 < (values.filter (keep ign tol)).length := List.length_pos_of_mem hvk
    have hne : ((values.filter (keep ign tol)).length : ℚ) ≠ 0 := by
      exact_mod_cast (Nat.pos_iff_ne_zero.mp hpos)
    simp [fdiv, hinv.norm, hinv.count, hne]

end Unbinned

end CliStats

namespace CliStats

namespace Unbinned

/-! ## The `are_int` branch -/

theorem to_uint_of_nonneg (v : ℚ) (h0 : 0 ≤ v) (h1 : v < (UINT_SIZE : ℚ)) :
    to_uint v = some ⌊v⌋.toNat := by
  have hf0 : (0 : Int) ≤ ⌊v⌋ := Int.floor_nonneg.mpr h0
  have hf1 : ⌊v⌋ < (UINT_SIZE : Int) := by
    have : ⌊v⌋ < ((UINT_SIZE : Nat) : Int) := by
      rw [Int.floor_lt]
      exact_mod_cast h1
    exact this
  simp [to_uint, h0, hf0, hf1]

/-- The conversion to `unsigned int` is defined exactly for `-1 < v < 2^32`. -/
theorem to_uint_defined_iff (v : ℚ) :
    (∃ k, to_uint v = some k) ↔ (-1 < v ∧ v < (UINT_SIZE : ℚ)) := by
  constructor
  · rintro ⟨k, hk⟩
    by_cases h0 : 0 ≤ v
    · refine ⟨by linarith, ?_⟩
      by_contra hc
      have hge : (UINT_SIZE : ℚ) ≤ v := not_lt.mp hc
      have : ((UINT_SIZE : Nat) : Int) ≤ ⌊v⌋ := by
        rw [Int.le_floor]
        exact_mod_cast hge
      have hnot : ¬ (⌊v⌋ < (UINT_SIZE : Int)) := not_lt.mpr this
      simp [to_uint, h0, hnot] at hk
    · have hneg : v < 0 := not_le.mp h0
      have hU : (0 : ℚ) < (UINT_SIZE : ℚ) := by
        have : 0 < UINT_SIZE := by norm_num [UINT_SIZE]
        exact_mod_cast this
      refine ⟨?_, by linarith⟩
      by_contra hc
      have hle : v ≤ -1 := not_lt.mp hc
      have hceil : ⌈v⌉ ≤ -1 := by
        rw [Int.ceil_le]
        exact_mod_cast hle
      have hnot : ¬ (0 ≤ ⌈v⌉) := by omega
      simp [to_uint, h0, hnot] at hk
  · rintro ⟨hlo, hhi⟩
    by_cases h0 : 0 ≤ v
    · exact ⟨_, to_uint_of_nonneg v h0 hhi⟩
    · have hneg : v < 0 := not_le.mp h0
      have hceil0 : ⌈v⌉ = 0 := by
        rw [Int.ceil_eq_iff]
        constructor
        · simpa using hlo
        · simpa using le_of_lt hneg
      refine ⟨0, ?_⟩
      have hU : (0 : Int) < (UINT_SIZE : Int) := by
        have : 0 < UINT_SIZE := by norm_num [UINT_SIZE]
        exact_mod_cast this
      simp [to_uint, h0, hceil0, hU]

theorem key_count_append_singleton (l : List ℚ) (v : ℚ) (kv k : Nat)
    (hv : to_uint v = some kv) :
    key_count (l ++ [v]) k = key_count l k + (if k = kv then 1 else 0) := by
  by_cases h : k = kv
  · subst h
    simp [key_count, List.filter_append, List.filter, hv]
  · have h' : ¬ kv = k := fun e => h e.symm
    simp [key_count, List.filter_append, List.filter, hv, h, h']

/-- When distinct members of `l` have distinct keys, the tally of the key of
`v` is the tally of `v` itself. -/
theorem key_count_eq_count (l : List ℚ) (v : ℚ) (kv : Nat) (hv : to_uint v = some kv)
    (hinj : ∀ u ∈ l, to_uint u = some kv → u = v) :
    key_count l kv = l.count v := by
  induction l with
  | nil => simp [key_count]
  | cons a as ih =>
    have ih' := ih (fun u hu => hinj u (by simp [hu]))
    unfold key_count at ih' ⊢
    by_cases ha : to_uint a = some kv
    · have hav : a = v := hinj a (by simp) ha
      subst hav
      simp [List.filter, ha, ih']
    · have hav : ¬ a = v := fun e => ha (by rw [e]; exact hv)
      simp [List.filter, ha, ih', List.count_cons, hav]

theorem intInv_init : IntInv (init Nat) [] where
  sorted := by simp [init]
  mem := by simp [init]
  count := by simp [init, map_get, key_count]
  norm := by simp [init]
  total := by simp [init, map_total]

theorem step_int_kept (ign : Bool) (tol : ℚ) (s : State Nat) (v : ℚ) (kv : Nat)
    (hk : keep ign tol v = true) (hv : to_uint v = some kv) :
    step_int ign tol s v = some
      { seen := (set_insert s.seen v).1,
        discrete_distribution :=
          if (set_insert s.seen v).2 then
            map_update (fun _ => 1) s.discrete_distribution kv
          else
            map_update (fun c => c + 1) s.discrete_distribution kv,
        normalization := s.normalization + 1 } := by
  simp only [step_int, hk, hv, if_true]

theorem intInv_step_kept (ign : Bool) (tol : ℚ) (s : State Nat) (kept : List ℚ) (v : ℚ)
    (kv : Nat) (hk : keep ign tol v = true) (hv : to_uint v = some kv)
    (hinj : ∀ u ∈ kept, to_uint u = some kv → u = v) (h : IntInv s kept) :
    ∃ s', step_int ign tol s v = some s' ∧ IntInv s' (kept ++ [v]) := by
  have hflag := set_insert_flag s.seen v h.sorted
  have hnew : (set_insert s.seen v).2 = true → key_count kept kv = 0 := by
    intro hf
    have hnot : v ∉ kept := fun hm => (hflag.mp hf) ((h.mem v).mpr hm)
    rw [key_count_eq_count kept v kv hv hinj]
    exact List.count_eq_zero_of_not_mem hnot
  have hstep := step_int_kept ign tol s v kv hk hv
  refine ⟨_, hstep, ?_⟩
  constructor
  · exact pairwise_set_insert s.seen v h.sorted
  · intro x
    simp only [mem_set_insert, h.mem x, List.mem_append, List.mem_singleton]
    tauto
  · intro k
    rw [key_count_append_singleton kept v kv k hv]
    cases hf : (set_insert s.seen v).2 with
    | true =>
      have h0 := hnew hf
      simp only [if_true, map_get_update, h.count]
      by_cases hx : k = kv
      · subst hx; simp [h0]
      · simp [hx]
    | false =>
      simp only [Bool.false_eq_true, if_false, map_get_update, h.count]
      by_cases hx : k = kv
      · subst hx; simp
      · simp [hx]
  · simp [h.norm]
  · cases hf : (set_insert s.seen v).2 with
    | true =>
      have h0 := hnew hf
      simp only [if_true, map_total_update, h.total, h.count, h0]
      simp
    | false =>
      simp only [Bool.false_eq_true, if_false, map_total_update, h.total, h.count,
        List.length_append, List.length_singleton]
      push_cast
      ring

theorem step_int_not_kept (ign : Bool) (tol : ℚ) (s : State Nat) (v : ℚ)
    (hk : keep ign tol v = false) : step_int ign tol s v = some s := by
  simp [step_int, hk]

theorem intInv_accumulate (ign : Bool) (tol : ℚ) (values : List ℚ) (s : State Nat)
    (kept : List ℚ)
    (hcast : ∀ v ∈ values.filter (keep ign tol), ∃ k, to_uint v = some k)
    (hinj : ∀ a ∈ kept ++ values.filter (keep ign tol),
      ∀ b ∈ kept ++ values.filter (keep ign tol), to_uint a = to_uint b → a = b)
    (h : IntInv s kept) :
    ∃ s', accumulate_int ign tol s values = some s' ∧
      IntInv s' (kept ++ values.filter (keep ign tol)) := by
  induction values generalizing s kept with
  | nil => exact ⟨s, rfl, by simpa using h⟩
  | cons v vs ih =>
    cases hk : keep ign tol v with
    | false =>
      have hf : (v :: vs).filter (keep ign tol) = vs.filter (keep ign tol) := by
        simp [List.filter, hk]
      rw [hf] at hcast hinj ⊢
      obtain ⟨s', h1, h2⟩ := ih s kept hcast hinj h
      exact ⟨s', by simp [accumulate_int, step_int_not_kept ign tol s v hk, h1], h2⟩
    | true =>
      have hf : (v :: vs).filter (keep ign tol) = v :: vs.filter (keep ign tol) := by
        simp [List.filter, hk]
      rw [hf] at hcast hinj ⊢
      obtain ⟨kv, hv⟩ := hcast v (by simp)
      have hinj1 : ∀ u ∈ kept, to_uint u = some kv → u = v := by
        intro u hu hukv
        exact hinj u (by simp [hu]) v (by simp) (by rw [hukv, hv])
      obtain ⟨s1, hs1, hinv1⟩ := intInv_step_kept ign tol s kept v kv hk hv hinj1 h
      have happ : kept ++ v :: vs.filter (keep ign tol)
          = (kept ++ [v]) ++ vs.filter (keep ign tol) := by simp
      rw [happ] at hinj ⊢
      obtain ⟨s', h1, h2⟩ := ih s1 (kept ++ [v])
        (fun w hw => hcast w (by simp [hw])) hinj hinv1
      exact ⟨s', by simp [accumulate_int, hs1, h1], h2⟩

theorem intInv_final (ign : Bool) (tol : ℚ) (values : List ℚ)
    (hcast : ∀ v ∈ values.filter (keep ign tol), ∃ k, to_uint v = some k)
    (hinj : ∀ a ∈ values.filter (keep ign tol), ∀ b ∈ values.filter (keep ign tol),
      to_uint a = to_uint b → a = b) :
    ∃ s, accumulate_int ign tol (init Nat) values = some s ∧
      IntInv s (values.filter (keep ign tol)) := by
  simpa using intInv_accumulate ign tol values (init Nat) [] hcast (by simpa using hinj)
    intInv_init

end Unbinned

end CliStats

namespace CliStats

namespace Unbinned

/-- The output loop of the `are_int` branch when every element of `seen` has a
defined conversion to `unsigned int`. -/
theorem output_int_eq (s : State Nat)
    (hcast : ∀ v ∈ s.seen, ∃ k, to_uint v = some k) :
    output_int s = some (s.seen.map (fun v =>
      (v, fdiv (map_get s.discrete_distribution ((to_uint v).getD 0)) s.normalization))) := by
  unfold output_int
  apply allSome_map_some
  intro v hv
  obtain ⟨k, hk⟩ := hcast v hv
  simp [row_int, hk]

/-! ## C4: the rows of the `are_int` branch -/

/-- C4, as stated, fails.  The non-negative values `1.2, 1.5` both truncate to
the key `1`, yet two rows are emitted for that key, each with probability
`1/2`, while the number of kept values whose truncation is `1`, divided by the
number of kept values, is `2/2`.  And for the non-negative value `2^32` the
conversion to `unsigned int` is undefined, so the run has no defined result. -/
theorem int_rows_counterexample :
    main_int false 0 [6/5, 3/2] = some [(6/5, some (1/2)), (3/2, some (1/2))] ∧
    to_uint (6/5) = some 1 ∧ to_uint (3/2) = some 1 ∧
    key_count (([6/5, 3/2] : List ℚ).filter (keep false 0)) 1 = 2 ∧
    (0 : ℚ) ≤ 4294967296 ∧ main_int false 0 [4294967296] = none := by
  have h1 : to_uint (6/5) = some 1 := by
    norm_num [to_uint, UINT_SIZE, Int.floor_eq_iff]
  have h2 : to_uint (3/2) = some 1 := by
    norm_num [to_uint, UINT_SIZE, Int.floor_eq_iff]
  have h3 : to_uint 4294967296 = none := by
    norm_num [to_uint, UINT_SIZE]
  refine ⟨?_, h1, h2, ?_, by norm_num, ?_⟩
  · norm_num [main_int, accumulate_int, step_int, keep, h1, h2, set_insert, map_update,
      map_get, init, output_int, row_int, allSome, fdiv]
  · simp [key_count, keep, h1, h2]
  · simp [main_int, accumulate_int, step_int, keep, h3]

/-- C4 (amended): in the unbinned pipeline with `are_int` set, for every list
of extracted values whose kept values are non-negative and below `2^32` and in
which no two distinct kept values truncate to the same key, the run completes;
the emitted representative values are strictly ascending and are exactly the
kept values; no two rows have the same truncated key, and the keys of the rows
are exactly the keys of the kept values; and the probability emitted in the
row of key `k` is (number of kept values whose truncation toward zero is `k`)
/ (number of kept values). -/
theorem int_rows_tally (ign : Bool) (tol : ℚ) (values : List ℚ)
    (hrange : ∀ v ∈ values.filter (keep ign tol), 0 ≤ v ∧ v < (UINT_SIZE : ℚ))
    (hinj : ∀ a ∈ values.filter (keep ign tol), ∀ b ∈ values.filter (keep ign tol),
      to_uint a = to_uint b → a = b) :
    ∃ rows, main_int ign tol values = some rows ∧
      (rows.map Prod.fst).Pairwise (fun x y => x < y) ∧
      (∀ v, v ∈ rows.map Prod.fst ↔ v ∈ values.filter (keep ign tol)) ∧
      (∀ r ∈ rows, ∀ r' ∈ rows, to_uint r.1 = to_uint r'.1 → r = r') ∧
      (∀ k, (∃ r ∈ rows, to_uint r.1 = some k)
        ↔ (∃ v ∈ values.filter (keep ign tol), to_uint v = some k)) ∧
      (∀ r ∈ rows, ∀ k, to_uint r.1 = some k →
        r.2 = some ((key_count (values.filter (keep ign tol)) k : ℚ)
          / ((values.filter (keep ign tol)).length : ℚ))) := by
  have hcast : ∀ v ∈ values.filter (keep ign tol), ∃ k, to_uint v = some k :=
    fun v hv => ⟨_, to_uint_of_nonneg v (hrange v hv).1 (hrange v hv).2⟩
  obtain ⟨s, hacc, hinv⟩ := intInv_final ign tol values hcast hinj
  have hcast' : ∀ v ∈ s.seen, ∃ k, to_uint v = some k :=
    fun v hv => hcast v ((hinv.mem v).mp hv)
  have hout := output_int_eq s hcast'
  have hmain : main_int ign tol values = some (s.seen.map (fun v =>
      (v, fdiv (map_get s.discrete_distribution ((to_uint v).getD 0)) s.normalization))) := by
    simp [main_int, hacc, hout]
  refine ⟨_, hmain, ?_, ?_, ?_, ?_, ?_⟩
  · simpa [List.map_map, Function.comp_def] using hinv.sorted
  · intro v
    simpa [List.map_map, Function.comp_def] using hinv.mem v
  · intro r hr r' hr' hkey
    simp only [List.mem_map] at hr hr'
    obtain ⟨v, hv, rfl⟩ := hr
    obtain ⟨v', hv', rfl⟩ := hr'
    have : v = v' := hinj v ((hinv.mem v).mp hv) v' ((hinv.mem v').mp hv') hkey
    subst this
    rfl
  · intro k
    constructor
    · rintro ⟨r, hr, hk⟩
      simp only [List.mem_map] at hr
      obtain ⟨v, hv, rfl⟩ := hr
      exact ⟨v, (hinv.mem v).mp hv, hk⟩
    · rintro ⟨v, hv, hk⟩
      exact ⟨_, List.mem_map.mpr ⟨v, (hinv.mem v).mpr hv, rfl⟩, hk⟩
  · intro r hr k hk
    simp only [List.mem_map] at hr
    obtain ⟨v, hv, rfl⟩ := hr
    have hvk : v ∈ values.filter (keep ign tol) := (hinv.mem v).mp hv
    have hpos : 0 < (values.filter (keep ign tol)).length := List.length_pos_of_mem hvk
    have hne : ((values.filter (keep ign tol)).length : ℚ) ≠ 0 := by
      exact_mod_cast (Nat.pos_iff_ne_zero.mp hpos)
    have hk' : to_uint v = some k := hk
    simp [fdiv, hinv.norm, hinv.count, hne, hk']

/-- Witness for C4 (amended): the values `0.75, 1.75, 0.75`, whose keys are
`0, 1, 0`. -/
theorem int_rows_tally_witness :
    ∃ rows, main_int false 0 [3/4, 7/4, 3/4] = some rows ∧
      (rows.map Prod.fst).Pairwise (fun x y => x < y) ∧
      (∀ v, v ∈ rows.map Prod.fst ↔ v ∈ ([3/4, 7/4, 3/4] : List ℚ).filter (keep false 0)) ∧
      (∀ r ∈ rows, ∀ r' ∈ rows, to_uint r.1 = to_uint r'.1 → r = r') ∧
      (∀ k, (∃ r ∈ rows, to_uint r.1 = some k)
        ↔ (∃ v ∈ ([3/4, 7/4, 3/4] : List ℚ).filter (keep false 0), to_uint v = some k)) ∧
      (∀ r ∈ rows, ∀ k, to_uint r.1 = some k →
        r.2 = some ((key_count (([3/4, 7/4, 3/4] : List ℚ).filter (keep false 0)) k : ℚ)
          / ((([3/4, 7/4, 3/4] : List ℚ).filter (keep false 0)).length : ℚ))) :=
  int_rows_tally false 0 [3/4, 7/4, 3/4]
    (by
      intro v hv
      simp only [keep, Bool.not_false, Bool.true_or, List.filter_cons_of_pos,
        List.filter_nil, List.mem_cons, List.mem_singleton, List.not_mem_nil, or_false] at hv
      rcases hv with h | h | h <;> subst h <;> norm_num [UINT_SIZE])
    (by
      have h1 : to_uint (3/4) = some 0 := by
        norm_num [to_uint, UINT_SIZE, Int.floor_eq_iff]
      have h2 : to_uint (7/4) = some 1 := by
        norm_num [to_uint, UINT_SIZE, Int.floor_eq_iff]
      intro a ha b hb
      simp only [keep, Bool.not_false, Bool.true_or, List.filter_cons_of_pos,
        List.filter_nil, List.mem_cons, List.mem_singleton, List.not_mem_nil, or_false]
        at ha hb
      rcases ha with h | h | h <;> rcases hb with h' | h' | h' <;> subst h <;> subst h' <;>
        simp [h1, h2])

end Unbinned

end CliStats

namespace CliStats

namespace Unbinned

/-! ## C5: the normalisation divisor and the sum of the probabilities -/

/-- C5, as stated, fails in the `are_int` mode.  On the values `1.2, 1.5, 1.2`
(all kept) the divisor `normalization` is `3` while the only count held in the
table when output starts is `2` (the count of key `1` was reset to `1` when
`1.5` was first seen), and the two emitted probabilities `2/3` and `2/3` sum to
`4/3`. -/
theorem normalization_counterexample :
    0 < (([6/5, 3/2, 6/5] : List ℚ).filter (keep false 0)).length ∧
    (∃ s, accumulate_int false 0 (init Nat) [6/5, 3/2, 6/5] = some s ∧
      s.normalization = 3 ∧ map_total s.discrete_distribution = 2) ∧
    main_int false 0 [6/5, 3/2, 6/5] = some [(6/5, some (2/3)), (3/2, some (2/3))] ∧
    ([(2/3 : ℚ), 2/3] : List ℚ).sum ≠ 1 := by
  have h1 : to_uint (6/5) = some 1 := by
    norm_num [to_uint, UINT_SIZE, Int.floor_eq_iff]
  have h2 : to_uint (3/2) = some 1 := by
    norm_num [to_uint, UINT_SIZE, Int.floor_eq_iff]
  refine ⟨by simp [keep], ?_, ?_, by norm_num⟩
  · refine ⟨_, by
      simp only [accumulate_int, step_int, keep, Bool.not_false, Bool.true_or, if_true,
        h1, h2]; rfl, ?_, ?_⟩
    · norm_num [init]
    · norm_num [init, set_insert, map_update, map_total]
  · norm_num [main_int, accumulate_int, step_int, keep, h1, h2, set_insert, map_update,
      map_get, init, output_int, row_int, allSome, fdiv]

/-- C5 (amended): in the unbinned pipeline, for every list of extracted values
with at least one kept value: in the floating-key mode the divisor
`normalization` equals the sum of all counts held in the table when output
starts and the emitted probabilities sum to exactly `1`; in the `are_int` mode
the same holds provided every kept value has a defined conversion to
`unsigned int` (`-1 < v < 2^32`) and no two distinct kept values truncate to
the same key. -/
theorem normalization_is_total (ign : Bool) (tol : ℚ) (values : List ℚ)
    (hpos : 0 < (values.filter (keep ign tol)).length) :
    ((accumulate_float ign tol (init ℚ) values).normalization
        = map_total (accumulate_float ign tol (init ℚ) values).discrete_distribution ∧
      ∃ ps : List ℚ, (main_float ign tol values).map Prod.snd = ps.map some ∧ ps.sum = 1) ∧
    ((∀ v ∈ values.filter (keep ign tol), ∃ k, to_uint v = some k) →
      (∀ a ∈ values.filter (keep ign tol), ∀ b ∈ values.filter (keep ign tol),
        to_uint a = to_uint b → a = b) →
      ∃ s rows, ∃ ps : List ℚ,
        accumulate_int ign tol (init Nat) values = some s ∧
        s.normalization = map_total s.discrete_distribution ∧
        main_int ign tol values = some rows ∧
        rows.map Prod.snd = ps.map some ∧ ps.sum = 1) := by
  have hne : ((values.filter (keep ign tol)).length : ℚ) ≠ 0 := by
    exact_mod_cast (Nat.pos_iff_ne_zero.mp hpos)
  constructor
  · have hinv := floatInv_final ign tol values
    refine ⟨by rw [hinv.norm, hinv.total], ?_⟩
    refine ⟨(accumulate_float ign tol (init ℚ) values).seen.map (fun v =>
      ((values.filter (keep ign tol)).count v : ℚ)
        / ((values.filter (keep ign tol)).length : ℚ)), ?_, ?_⟩
    · simp only [main_float, output_float, List.map_map]
      apply List.map_congr_left
      intro v _
      simp [fdiv, hinv.norm, hinv.count, hne]
    · have h1 := sum_count_of_sorted _ _ hinv.sorted hinv.mem
      have h2 := sum_map_div
        ((accumulate_float ign tol (init ℚ) values).seen.map (fun v =>
          ((values.filter (keep ign tol)).count v : ℚ)))
        ((values.filter (keep ign tol)).length : ℚ)
      rw [List.map_map] at h2
      rw [h1] at h2
      rw [div_self hne] at h2
      exact h2
  · intro hcast hinj
    obtain ⟨s, hacc, hinv⟩ := intInv_final ign tol values hcast hinj
    have hcast' : ∀ v ∈ s.seen, ∃ k, to_uint v = some k :=
      fun v hv => hcast v ((hinv.mem v).mp hv)
    have hout := output_int_eq s hcast'
    have hmain : main_int ign tol values = some (s.seen.map (fun v =>
        (v, fdiv (map_get s.discrete_distribution ((to_uint v).getD 0)) s.normalization))) := by
      simp [main_int, hacc, hout]
    refine ⟨s, _, s.seen.map (fun v =>
      ((values.filter (keep ign tol)).count v : ℚ)
        / ((values.filter (keep ign tol)).length : ℚ)), hacc,
      by rw [hinv.norm, hinv.total], hmain, ?_, ?_⟩
    · simp only [List.map_map]
      apply List.map_congr_left
      intro v hv
      have hvk := (hinv.mem v).mp hv
      obtain ⟨k, hk⟩ := hcast v hvk
      have hkc : key_count (values.filter (keep ign tol)) k
          = (values.filter (keep ign tol)).count v :=
        key_count_eq_count _ v k hk
          (fun u hu huk => hinj u hu v hvk (by rw [huk, hk]))
      simp [fdiv, hinv.norm, hinv.count, hne, hk, hkc]
    · have h1 := sum_count_of_sorted _ _ hinv.sorted hinv.mem
      have h2 := sum_map_div
        (s.seen.map (fun v => ((values.filter (keep ign tol)).count v : ℚ)))
        ((values.filter (keep ign tol)).length : ℚ)
      rw [List.map_map] at h2
      rw [h1] at h2
      rw [div_self hne] at h2
      exact h2

/-- Witness for C5 (amended): the values `0.75, 1.75, 0.75` in both modes. -/
theorem normalization_is_total_witness :
    ((accumulate_float false 0 (init ℚ) [3/4, 7/4, 3/4]).normalization
        = map_total (accumulate_float false 0 (init ℚ) [3/4, 7/4, 3/4]).discrete_distribution ∧
      ∃ ps : List ℚ, (main_float false 0 [3/4, 7/4, 3/4]).map Prod.snd = ps.map some
        ∧ ps.sum = 1) ∧
    (∃ s rows, ∃ ps : List ℚ,
        accumulate_int false 0 (init Nat) [3/4, 7/4, 3/4] = some s ∧
        s.normalization = map_total s.discrete_distribution ∧
        main_int false 0 [3/4, 7/4, 3/4] = some rows ∧
        rows.map Prod.snd = ps.map some ∧ ps.sum = 1) := by
  have h1 : to_uint (3/4) = some 0 := by
    norm_num [to_uint, UINT_SIZE, Int.floor_eq_iff]
  have h2 : to_uint (7/4) = some 1 := by
    norm_num [to_uint, UINT_SIZE, Int.floor_eq_iff]
  have hmem : ∀ v ∈ ([3/4, 7/4, 3/4] : List ℚ).filter (keep false 0),
      v = 3/4 ∨ v = 7/4 := by
    intro v hv
    simp only [keep, Bool.not_false, Bool.true_or, List.filter_cons_of_pos,
      List.filter_nil, List.mem_cons, List.mem_singleton, List.not_mem_nil, or_false] at hv
    tauto
  have h := normalization_is_total false 0 [3/4, 7/4, 3/4] (by simp [keep])
  refine ⟨h.1, h.2 ?_ ?_⟩
  · intro v hv
    rcases hmem v hv with e | e <;> subst e
    · exact ⟨0, h1⟩
    · exact ⟨1, h2⟩
  · intro a ha b hb
    rcases hmem a ha with e | e <;> rcases hmem b hb with e' | e' <;> subst e <;> subst e' <;>
      simp [h1, h2]

end Unbinned

end CliStats

namespace CliStats

/-! ## C6: the filter -/

end CliStats

namespace CliStats

namespace PowerLaw

/-! ## Lemmas on the logarithmic boundaries -/

/-- The representation of a power is exact: `x < 10^(t/10)` over the reals is
`x^10 < 10^t` over the naturals. -/
theorem above_pow10_iff_real (x t : Nat) :
    (Bound.pow10 t).above x = true ↔ (x : ℝ) < (10 : ℝ) ^ ((t : ℝ) / 10) := by
  have hy : (0 : ℝ) ≤ (10 : ℝ) ^ ((t : ℝ) / 10) :=
    (Real.rpow_pos_of_pos (by norm_num) _).le
  have hp : ((10 : ℝ) ^ ((t : ℝ) / 10)) ^ 10 = (10 : ℝ) ^ t := by
    rw [← Real.rpow_natCast, ← Real.rpow_mul (by norm_num)]
    have : (t : ℝ) / 10 * ((10 : ℕ) : ℝ) = (t : ℝ) := by push_cast; ring
    rw [this, Real.rpow_natCast]
  simp only [Bound.above, decide_eq_true_eq]
  constructor
  · intro h
    by_contra hc
    have hle : (10 : ℝ) ^ ((t : ℝ) / 10) ≤ (x : ℝ) := not_lt.mp hc
    have h2 : ((10 : ℝ) ^ ((t : ℝ) / 10)) ^ 10 ≤ ((x : ℝ)) ^ 10 :=
      pow_le_pow_left₀ hy hle 10
    rw [hp] at h2
    have h3 : (10 : ℕ) ^ t ≤ x ^ 10 := by exact_mod_cast h2
    omega
  · intro h
    have h2 : ((x : ℝ)) ^ 10 < ((10 : ℝ) ^ ((t : ℝ) / 10)) ^ 10 :=
      pow_lt_pow_left₀ h (Nat.cast_nonneg x) (by norm_num)
    rw [hp] at h2
    exact_mod_cast h2

/-- The order of two powers is the order of the real numbers they stand for. -/
theorem lt_pow10_iff_real (a b : Nat) :
    Bound.lt (Bound.pow10 a) (Bound.pow10 b)
      ↔ (10 : ℝ) ^ ((a : ℝ) / 10) < (10 : ℝ) ^ ((b : ℝ) / 10) := by
  simp only [Bound.lt]
  rw [Real.rpow_lt_rpow_left_iff (by norm_num : (1 : ℝ) < 10)]
  constructor
  · intro h
    have : (a : ℝ) < (b : ℝ) := by exact_mod_cast h
    linarith
  · intro h
    have : (a : ℝ) < (b : ℝ) := by linarith
    exact_mod_cast this

theorem for_loop_append {σ : Type} (body : σ → Nat → Option σ) (l1 l2 : List Nat) (s : σ) :
    for_loop body (l1 ++ l2) s
      = match for_loop body l1 s with
        | none => none
        | some s' => for_loop body l2 s' := by
  induction l1 generalizing s with
  | nil => simp [for_loop]
  | cons i rest ih =>
    simp only [List.cons_append, for_loop]
    cases body s i with
    | none => rfl
    | some s' => exact ih s'

/-- Invariant rule for a counted loop. -/
theorem for_loop_range {σ : Type} (body : σ → Nat → Option σ) (P : Nat → σ → Prop)
    (n : Nat) (s0 : σ) (h0 : P 0 s0)
    (hstep : ∀ i s, i < n → P i s → ∃ s', body s i = some s' ∧ P (i + 1) s') :
    ∃ s', for_loop body (List.range n) s0 = some s' ∧ P n s' := by
  induction n with
  | zero => exact ⟨s0, rfl, h0⟩
  | succ m ih =>
    obtain ⟨s1, h1, hP1⟩ := ih (fun i s hi hP => hstep i s (by omega) hP)
    obtain ⟨s2, h2, hP2⟩ := hstep m s1 (by omega) hP1
    refine ⟨s2, ?_, hP2⟩
    rw [List.range_succ, for_loop_append, h1]
    simp [for_loop, h2]

theorem write_eq (range : List Bound) (i : Nat) (b : Bound) (h : i < range.length) :
    write range i b = some (range.set i b) := by
  simp [write, h]

/-- The nested loops on an array of `10 * max_exponent` entries: they complete
and entry `k` holds `pow(10, k/10)`. -/
theorem fill_range_spec (me : Nat) (hme : 10 * me < UINT_SIZE) (r0 : List Bound)
    (hlen : r0.length = 10 * me) :
    ∃ r, fill_range me r0 = some r ∧ r.length = 10 * me ∧
      ∀ k, k < 10 * me → r[k]? = some (Bound.pow10 k) := by
  unfold fill_range
  have hout := for_loop_range
    (fun r exponent =>
      for_loop (fun r' bin =>
          write r' ((exponent * 10 + bin) % UINT_SIZE) (Bound.pow10 (exponent * 10 + bin)))
        (List.range 10) r)
    (fun e r => r.length = 10 * me ∧ ∀ k, k < 10 * e → r[k]? = some (Bound.pow10 k))
    me r0 ⟨hlen, fun k hk => by omega⟩
    (by
      intro e r he ⟨hl, hr⟩
      have hin := for_loop_range
        (fun r' bin =>
          write r' ((e * 10 + bin) % UINT_SIZE) (Bound.pow10 (e * 10 + bin)))
        (fun b r' => r'.length = 10 * me ∧
          ∀ k, k < 10 * e + b → r'[k]? = some (Bound.pow10 k))
        10 r ⟨hl, fun k hk => hr k (by omega)⟩
        (by
          intro b r' hb ⟨hl', hr'⟩
          have hidx : (e * 10 + b) % UINT_SIZE = e * 10 + b :=
            Nat.mod_eq_of_lt (by omega)
          have hlt : e * 10 + b < r'.length := by omega
          refine ⟨r'.set (e * 10 + b) (Bound.pow10 (e * 10 + b)), ?_, ?_, ?_⟩
          · show write r' ((e * 10 + b) % UINT_SIZE) (Bound.pow10 (e * 10 + b)) = _
            rw [hidx]
            exact write_eq r' _ _ hlt
          · show (r'.set (e * 10 + b) (Bound.pow10 (e * 10 + b))).length = 10 * me
            rw [List.length_set]
            exact hl'
          intro k hk
          by_cases hkb : k = e * 10 + b
          · subst hkb
            simp [List.getElem?_set, hlt]
          · have hne : e * 10 + b ≠ k := fun e' => hkb e'.symm
            rw [List.getElem?_set_ne hne]
            exact hr' k (by omega))
      obtain ⟨r1, h1, hl1, hr1⟩ := hin
      exact ⟨r1, h1, hl1, fun k hk => hr1 k (by omega)⟩)
  obtain ⟨r, h1, hl, hr⟩ := hout
  exact ⟨r, h1, hl, hr⟩

theorem number_of_bins_eq (me : Nat) (h1 : 1 ≤ me) (hme : 10 * me < UINT_SIZE) :
    number_of_bins me = 10 * me - 1 := by
  unfold number_of_bins
  rw [Nat.mod_eq_of_lt hme]
  have : 10 * me + UINT_SIZE - 1 = (10 * me - 1) + UINT_SIZE := by omega
  rw [this, Nat.add_mod_right]
  exact Nat.mod_eq_of_lt (by omega)

/-- The array handed to the histogram, for `max_exponent >= 1`: the powers
`10^(k/10)` for `k < 10 * max_exponent - 1`, then `10^max_exponent`. -/
theorem log_range_eq (me : Nat) (h1 : 1 ≤ me) (hme : 10 * me < UINT_SIZE) :
    log_range me
      = some ((List.range (10 * me - 1)).map Bound.pow10 ++ [Bound.pow10 (10 * me)]) := by
  have hnb := number_of_bins_eq me h1 hme
  have hsz : (number_of_bins me + 1) % UINT_SIZE = 10 * me := by
    rw [hnb]
    have : 10 * me - 1 + 1 = 10 * me := by omega
    rw [this]
    exact Nat.mod_eq_of_lt hme
  obtain ⟨r, hfill, hl, hr⟩ := fill_range_spec me hme (new_range (number_of_bins me))
    (by simp [new_range, hsz])
  have hlt : number_of_bins me < r.length := by omega
  unfold log_range
  rw [hfill]
  simp only [write_eq r _ _ hlt]
  refine congrArg some ?_
  apply List.ext_getElem?
  intro k
  rw [hnb]
  by_cases hk : k < 10 * me - 1
  · have hne : 10 * me - 1 ≠ k := by omega
    rw [List.getElem?_set_ne hne, hr k (by omega)]
    rw [List.getElem?_append_left (by simpa using hk)]
    simp [List.getElem?_map, List.getElem?_range hk]
  · by_cases hk2 : k = 10 * me - 1
    · subst hk2
      have hl' : 10 * me - 1 < r.length := by omega
      rw [List.getElem?_append_right (by simp)]
      simp [List.getElem?_set, hl']
    · have h3 : (r.set (10 * me - 1) (Bound.pow10 (10 * me)))[k]? = none := by
        apply List.getElem?_eq_none
        simp; omega
      have h4 : ((List.range (10 * me - 1)).map Bound.pow10
          ++ [Bound.pow10 (10 * me)])[k]? = none := by
        apply List.getElem?_eq_none
        simp; omega
      rw [h3, h4]

/-- For a maximum between `2` and `2^32 - 1` the exponent is defined and lies
between `1` and `10`. -/
theorem max_exponent_bounds (m : Nat) (h2 : 2 ≤ m) (hm : m < UINT_SIZE) :
    ∃ me, max_exponent m = some me ∧ 1 ≤ me ∧ me ≤ 10 ∧ me = Nat.clog 10 m := by
  refine ⟨Nat.clog 10 m, ?_, ?_, ?_, rfl⟩
  · have : m ≠ 0 := by omega
    simp [max_exponent, this]
  · exact Nat.clog_pos (by norm_num) h2
  · apply (Nat.le_pow_iff_clog_le (by norm_num)).mp
    have : UINT_SIZE ≤ 10 ^ 10 := by norm_num [UINT_SIZE]
    omega

end PowerLaw

end CliStats

namespace CliStats

namespace PowerLaw

/-! ## C7: which values the logarithmic histogram counts -/

/-- C7 fails on the code: for the inputs `3, 10` the maximum `10` equals the
final boundary `10^max_exponent` and is not counted in the last bin (the GSL
search rejects `x >= range[n]`, no bin is modified); only `3` is counted, in
the bin `[10^0.4, 10^0.5)`, and the histogram sum is `1` although both inputs
are strictly positive. -/
theorem log_histogram_drops_final_boundary :
    ∃ range h, log_histogram [3, 10] = some (range, h) ∧
      range[h.n]? = some (Bound.pow10 10) ∧
      gsl_find h 10 = none ∧
      h.bin = [0, 0, 0, 0, 1, 0, 0, 0, 0] ∧
      gsl_histogram_sum h = 1 ∧
      (([3, 10] : List Nat).filter (fun v => decide (0 < v))).length = 2 := by
  have hmax : max_element [3, 10] = some 10 := by
    simp [max_element, element_set, set_insert]
  have hme : max_exponent 10 = some 1 := by
    simp [max_exponent, Nat.clog]
  have hnb : number_of_bins 1 = 9 := by
    norm_num [number_of_bins, UINT_SIZE]
  have hr := log_range_eq 1 (by norm_num) (by norm_num [UINT_SIZE])
  have hr' : log_range 1 = some [Bound.pow10 0, Bound.pow10 1, Bound.pow10 2, Bound.pow10 3,
      Bound.pow10 4, Bound.pow10 5, Bound.pow10 6, Bound.pow10 7, Bound.pow10 8,
      Bound.pow10 10] := by
    rw [hr]; rfl
  have hsz : (9 + 1) % UINT_SIZE = 10 := by norm_num [UINT_SIZE]
  have halloc : gsl_histogram_alloc 9 = some
      { n := 9, range := List.replicate (9 + 1) (Bound.rat 0), bin := List.replicate 9 0 } := by
    simp [gsl_histogram_alloc]
  have hset : gsl_histogram_set_ranges
      { n := 9, range := List.replicate (9 + 1) (Bound.rat 0), bin := List.replicate 9 0 }
      [Bound.pow10 0, Bound.pow10 1, Bound.pow10 2, Bound.pow10 3,
        Bound.pow10 4, Bound.pow10 5, Bound.pow10 6, Bound.pow10 7, Bound.pow10 8,
        Bound.pow10 10] 10
      = some { n := 9,
               range := [Bound.pow10 0, Bound.pow10 1, Bound.pow10 2, Bound.pow10 3,
                 Bound.pow10 4, Bound.pow10 5, Bound.pow10 6, Bound.pow10 7, Bound.pow10 8,
                 Bound.pow10 10],
               bin := [0, 0, 0, 0, 0, 0, 0, 0, 0] } := by
    simp [gsl_histogram_set_ranges, List.replicate]
  have hfill : fill_histogram
      { n := 9,
        range := [Bound.pow10 0, Bound.pow10 1, Bound.pow10 2, Bound.pow10 3,
          Bound.pow10 4, Bound.pow10 5, Bound.pow10 6, Bound.pow10 7, Bound.pow10 8,
          Bound.pow10 10],
        bin := [0, 0, 0, 0, 0, 0, 0, 0, 0] } [3, 10]
      = { n := 9,
          range := [Bound.pow10 0, Bound.pow10 1, Bound.pow10 2, Bound.pow10 3,
            Bound.pow10 4, Bound.pow10 5, Bound.pow10 6, Bound.pow10 7, Bound.pow10 8,
            Bound.pow10 10],
          bin := [0, 0, 0, 0, 1, 0, 0, 0, 0] } := by
    simp [fill_histogram, gsl_histogram_increment, gsl_find, find_upper, Bound.above, incr]
  have hh : log_histogram [3, 10] = some
      ([Bound.pow10 0, Bound.pow10 1, Bound.pow10 2, Bound.pow10 3,
          Bound.pow10 4, Bound.pow10 5, Bound.pow10 6, Bound.pow10 7, Bound.pow10 8,
          Bound.pow10 10],
        { n := 9,
          range := [Bound.pow10 0, Bound.pow10 1, Bound.pow10 2, Bound.pow10 3,
            Bound.pow10 4, Bound.pow10 5, Bound.pow10 6, Bound.pow10 7, Bound.pow10 8,
            Bound.pow10 10],
          bin := [0, 0, 0, 0, 1, 0, 0, 0, 0] }) := by
    simp only [log_histogram, hmax, hme, hr', hnb, hsz, halloc, hset, hfill]
  refine ⟨_, _, hh, ?_, ?_, rfl, ?_, ?_⟩
  · simp
  · simp [gsl_find, Bound.above]
  · norm_num [gsl_histogram_sum]
  · simp

/-! ## C8: the boundaries of the logarithmic bins -/

/-- For every maximum between `2` and `2^32 - 1`, the array handed to the
histogram has `10 * max_exponent` entries and does not contain the boundary
`10^(max_exponent - 1 + 9/10)`: the final assignment
`range[number_of_bins] = pow(10, max_exponent)` overwrites it. -/
theorem log_range_last_tenth_missing (m : Nat) (h2 : 2 ≤ m) (hm : m < UINT_SIZE) :
    ∃ me range, max_exponent m = some me ∧ log_range me = some range ∧
      range.length = 10 * me ∧ Bound.pow10 ((me - 1) * 10 + 9) ∉ range := by
  obtain ⟨me, hme, h1, h10, _⟩ := max_exponent_bounds m h2 hm
  have hlt : 10 * me < UINT_SIZE := by
    have : (100 : Nat) < UINT_SIZE := by norm_num [UINT_SIZE]
    omega
  refine ⟨me, _, hme, log_range_eq me h1 hlt, ?_, ?_⟩
  · simp; omega
  · simp only [List.mem_append, List.mem_map, List.mem_range, List.mem_singleton, not_or]
    constructor
    · rintro ⟨k, hk, hkeq⟩
      have : k = (me - 1) * 10 + 9 := by
        injection hkeq
      omega
    · intro hkeq
      have : (me - 1) * 10 + 9 = 10 * me := by
        injection hkeq
      omega

/-- C8 fails on the code: for the maximum `2` (`max_exponent = 1`) the array
handed to the histogram is `10^0, 10^0.1, ..., 10^0.8, 10^1`; it has ten
entries instead of eleven, the boundary `10^(0 + 9/10)` is missing, and the
last bin `[10^0.8, 10^1)` merges two tenth-of-a-decade intervals. -/
theorem log_range_boundary_overwritten :
    max_exponent 2 = some 1 ∧
    log_range 1 = some [Bound.pow10 0, Bound.pow10 1, Bound.pow10 2, Bound.pow10 3,
      Bound.pow10 4, Bound.pow10 5, Bound.pow10 6, Bound.pow10 7, Bound.pow10 8,
      Bound.pow10 10] ∧
    Bound.pow10 (0 * 10 + 9) ∉ [Bound.pow10 0, Bound.pow10 1, Bound.pow10 2, Bound.pow10 3,
      Bound.pow10 4, Bound.pow10 5, Bound.pow10 6, Bound.pow10 7, Bound.pow10 8,
      Bound.pow10 10] := by
  refine ⟨by simp [max_exponent, Nat.clog], ?_, by decide⟩
  rw [log_range_eq 1 (by norm_num) (by norm_num [UINT_SIZE])]
  rfl

/-! ## C9: the boundaries are strictly increasing -/

/-- C9: in the logarithmic mode, for every maximum observed value `m >= 2`
(an `unsigned int`, so `m < 2^32`), the construction completes and the
`number_of_bins + 1` entries of the array handed to the histogram are strictly
increasing, with `range[0] = 10^0 = 1` and
`range[number_of_bins] = 10^max_exponent`. -/
theorem log_range_strictly_increasing (m : Nat) (h2 : 2 ≤ m) (hm : m < UINT_SIZE) :
    ∃ me range, max_exponent m = some me ∧ log_range me = some range ∧
      range.length = number_of_bins me + 1 ∧
      range.Pairwise Bound.lt ∧
      range[0]? = some (Bound.pow10 0) ∧
      range[number_of_bins me]? = some (Bound.pow10 (10 * me)) ∧
      (10 : ℝ) ^ (((0 : Nat) : ℝ) / 10) = 1 ∧
      (10 : ℝ) ^ (((10 * me : Nat) : ℝ) / 10) = (10 : ℝ) ^ me := by
  obtain ⟨me, hme, h1, h10, _⟩ := max_exponent_bounds m h2 hm
  have hlt : 10 * me < UINT_SIZE := by
    have : (100 : Nat) < UINT_SIZE := by norm_num [UINT_SIZE]
    omega
  have hnb := number_of_bins_eq me h1 hlt
  refine ⟨me, _, hme, log_range_eq me h1 hlt, ?_, ?_, ?_, ?_, ?_, ?_⟩
  · rw [hnb]; simp
  · rw [List.pairwise_append]
    refine ⟨?_, by simp, ?_⟩
    · rw [List.pairwise_map]
      exact (List.pairwise_lt_range _).imp (fun h => h)
    · intro a ha b hb
      simp only [List.mem_map, List.mem_range] at ha
      obtain ⟨k, hk, rfl⟩ := ha
      simp only [List.mem_singleton] at hb
      subst hb
      show k < 10 * me
      omega
  · rw [List.getElem?_append_left (by simp; omega)]
    simp [List.getElem?_map, List.getElem?_range (show 0 < 10 * me - 1 by omega)]
  · rw [hnb, List.getElem?_append_right (by simp)]
    simp
  · simp
  · have : (((10 * me : Nat) : ℝ) / 10) = (me : ℝ) := by push_cast; ring
    rw [this, Real.rpow_natCast]

/-- Witness for C9: the maximum `2`. -/
theorem log_range_strictly_increasing_witness :
    ∃ me range, max_exponent 2 = some me ∧ log_range me = some range ∧
      range.length = number_of_bins me + 1 ∧
      range.Pairwise Bound.lt ∧
      range[0]? = some (Bound.pow10 0) ∧
      range[number_of_bins me]? = some (Bound.pow10 (10 * me)) ∧
      (10 : ℝ) ^ (((0 : Nat) : ℝ) / 10) = 1 ∧
      (10 : ℝ) ^ (((10 * me : Nat) : ℝ) / 10) = (10 : ℝ) ^ me :=
  log_range_strictly_increasing 2 (by norm_num) (by norm_num [UINT_SIZE])

/-! ## C10: the number of logarithmic bins -/

/-- For every maximum between `2` and `2^32 - 1` the subtraction
`10 * max_exponent - 1` does not wrap and `number_of_bins` is at least `9`. -/
theorem number_of_bins_no_wrap (m : Nat) (h2 : 2 ≤ m) (hm : m < UINT_SIZE) :
    ∃ me, max_exponent m = some me ∧ number_of_bins me = 10 * me - 1 ∧
      9 ≤ number_of_bins me := by
  obtain ⟨me, hme, h1, h10, _⟩ := max_exponent_bounds m h2 hm
  have hlt : 10 * me < UINT_SIZE := by
    have : (100 : Nat) < UINT_SIZE := by norm_num [UINT_SIZE]
    omega
  have hnb := number_of_bins_eq me h1 hlt
  exact ⟨me, hme, hnb, by omega⟩

/-- C10 fails on the code for a maximum of exactly `1`: `max_exponent` is `0`,
`number_of_bins = 10 * 0 - 1` wraps around to `4294967295`, the array
`new double[number_of_bins + 1]` has `0` entries, and the assignment
`range[number_of_bins] = pow(10, max_exponent)` writes outside it: no bin
specification is built. -/
theorem number_of_bins_wraps_at_one :
    max_element [1] = some 1 ∧ max_exponent 1 = some 0 ∧
    number_of_bins 0 = 4294967295 ∧ new_range (number_of_bins 0) = [] ∧
    log_range 0 = none ∧ main_log [1] = none := by
  have hmax : max_element [1] = some 1 := by
    simp [max_element, element_set, set_insert]
  have hme : max_exponent 1 = some 0 := by
    simp [max_exponent]
  have hnb : number_of_bins 0 = 4294967295 := by
    norm_num [number_of_bins, UINT_SIZE]
  have hnew : new_range (number_of_bins 0) = [] := by
    rw [hnb]
    norm_num [new_range, UINT_SIZE]
  have hlog : log_range 0 = none := by
    simp [log_range, fill_range, for_loop, hnew, write]
  refine ⟨hmax, hme, hnb, hnew, hlog, ?_⟩
  simp [main_log, log_histogram, hmax, hme, hlog]

end PowerLaw

end CliStats

namespace CliStats

namespace Binned

/-! ## C14: kept values outside the bins -/

/-- For every linear-bin configuration, a kept value below `lower_bound` stops
the scan at `bin_idx = 0`, the index `bin_idx - 1` wraps to `2^32 - 1`, and the
step has no defined result; a kept value at or above the last computed
boundary makes the scan read past `bin_limits[number_of_bins]`, and the step
has no defined result either. -/
theorem step_out_of_range (N : Nat) (l u tol : ℚ) (ign : Bool) (s : State) (v : ℚ)
    (hN' : N + 1 < UINT_SIZE) (hlu : l < u) (hl : fl64 l = l)
    (hs : s.bins.length = N + 1) (hk : keep ign tol v = true) :
    (v < l → scan (bin_limits N l u) v 0 = some 0 ∧
      step ign tol (bin_limits N l u) s v = none) ∧
    (limit N l u N ≤ v → scan (bin_limits N l u) v 0 = none ∧
      step ign tol (bin_limits N l u) s v = none) := by
  have hsz := vector_size_eq N hN'
  constructor
  · intro hv
    have hscan : scan (bin_limits N l u) v 0 = some 0 := by
      have h0 : bin_limits N l u = l :: (bin_limits N l u).tail := by
        have hg := getElem?_bin_limits N l u 0 (by omega)
        rw [limit_zero N l u hl] at hg
        cases hb : bin_limits N l u with
        | nil => rw [hb] at hg; simp at hg
        | cons b rest =>
          rw [hb] at hg
          simp at hg
          simp [hg]
      rw [h0]
      simp [scan, not_le.mpr hv]
    refine ⟨hscan, ?_⟩
    have hp : pred_idx 0 = UINT_SIZE - 1 := by
      norm_num [pred_idx, UINT_SIZE]
    have hnot : ¬ (UINT_SIZE - 1 < s.bins.length) := by omega
    simp [step, hk, hscan, hp, hnot]
  · intro hv
    have hscan : scan (bin_limits N l u) v 0 = none := by
      apply scan_none
      intro b hb
      obtain ⟨i, hi⟩ := List.mem_iff_getElem?.mp hb
      obtain ⟨hisz, hbeq⟩ := getElem?_bin_limits_some N l u i b hi
      have hm := limit_mono N l u hlu.le i N (by omega)
      rw [hbeq]
      exact le_trans hm hv
    exact ⟨hscan, by simp [step, hk, hscan]⟩

/-- C14 fails on the code: with three bins over `[0, 3)`, the kept value `-1`
stops the scan at `bin_idx = 0` and the write goes to `bins[4294967295]`,
outside the vector; the kept value `3` makes the scan read `bin_limits[4]`,
outside the vector.  In both cases the run has no defined result and no range
error is reported. -/
theorem out_of_range_undefined :
    scan (bin_limits 3 0 3) (-1) 0 = some 0 ∧ pred_idx 0 = 4294967295 ∧
    (init 3).bins.length = 4 ∧
    step false 0 (bin_limits 3 0 3) (init 3) (-1) = none ∧
    main 3 0 3 0 false [-1] = none ∧
    (bin_limits 3 0 3).length = 4 ∧
    scan (bin_limits 3 0 3) 3 0 = none ∧
    step false 0 (bin_limits 3 0 3) (init 3) 3 = none ∧
    main 3 0 3 0 false [3] = none := by
  have hk1 : keep false 0 (-1) = true := by simp [keep]
  have hk2 : keep false 0 3 = true := by simp [keep]
  have hs : (init 3).bins.length = 3 + 1 := by simp [init, vector_size, UINT_SIZE]
  have h1 := (step_out_of_range 3 0 3 0 false (init 3) (-1)
    (by norm_num [UINT_SIZE]) (by norm_num) fl64_zero hs hk1).1 (by norm_num)
  have h2 := (step_out_of_range 3 0 3 0 false (init 3) 3
    (by norm_num [UINT_SIZE]) (by norm_num) fl64_zero hs hk2).2
    (by rw [limit_three_3])
  refine ⟨h1.1, by norm_num [pred_idx, UINT_SIZE], hs, h1.2, ?_, ?_, h2.1, h2.2, ?_⟩
  · simp [main, accumulate, h1.2]
  · simp [length_bin_limits, vector_size, UINT_SIZE]
  · simp [main, accumulate, h2.2]

end Binned

end CliStats
namespace CliStats

namespace Binned

/-! ## C15: the boundaries and the rows of the linear-bin output -/

end Binned

end CliStats

namespace CliStats

namespace Unbinned

/-! ## C16: the `are_int` branch on integer-valued data -/

theorem to_uint_natCast (n : Nat) (h : n < UINT_SIZE) : to_uint (n : ℚ) = some n := by
  have h0 : (0 : ℚ) ≤ (n : ℚ) := Nat.cast_nonneg n
  have h1 : (n : ℚ) < (UINT_SIZE : ℚ) := by exact_mod_cast h
  rw [to_uint_of_nonneg (n : ℚ) h0 h1]
  simp

/-- C16: in the unbinned pipeline with `are_int` set, for every list of
extracted values whose kept values are all non-negative integers below `2^32`,
the run completes and emits the same rows as the floating-key mode; these rows
have strictly ascending representative values, one for each distinct kept
value `v`, each carrying (number of kept occurrences of `v`) / (number of kept
values). -/
theorem int_rows_on_integers (ign : Bool) (tol : ℚ) (values : List ℚ)
    (hint : ∀ v ∈ values.filter (keep ign tol), ∃ n : Nat, n < UINT_SIZE ∧ v = (n : ℚ)) :
    main_int ign tol values = some (main_float ign tol values) ∧
    ((main_float ign tol values).map Prod.fst).Pairwise (fun x y => x < y) ∧
    (∀ v, v ∈ (main_float ign tol values).map Prod.fst
      ↔ v ∈ values.filter (keep ign tol)) ∧
    (∀ r ∈ main_float ign tol values,
      r.2 = some (((values.filter (keep ign tol)).count r.1 : ℚ)
        / ((values.filter (keep ign tol)).length : ℚ))) := by
  have hcast : ∀ v ∈ values.filter (keep ign tol), ∃ k, to_uint v = some k := by
    intro v hv
    obtain ⟨n, hn, rfl⟩ := hint v hv
    exact ⟨n, to_uint_natCast n hn⟩
  have hinj : ∀ a ∈ values.filter (keep ign tol), ∀ b ∈ values.filter (keep ign tol),
      to_uint a = to_uint b → a = b := by
    intro a ha b hb hab
    obtain ⟨n, hn, rfl⟩ := hint a ha
    obtain ⟨m, hm, rfl⟩ := hint b hb
    rw [to_uint_natCast n hn, to_uint_natCast m hm] at hab
    have : n = m := Option.some.inj hab
    rw [this]
  obtain ⟨s, hacc, hinv⟩ := intInv_final ign tol values hcast hinj
  have hfinv := floatInv_final ign tol values
  have hcast' : ∀ v ∈ s.seen, ∃ k, to_uint v = some k :=
    fun v hv => hcast v ((hinv.mem v).mp hv)
  have hout := output_int_eq s hcast'
  have hseen : s.seen = (accumulate_float ign tol (init ℚ) values).seen := by
    apply List.eq_of_perm_of_sorted (r := fun x y => x < y)
    · apply (List.perm_ext_iff_of_nodup (hinv.sorted.imp (fun h => ne_of_lt h))
        (hfinv.sorted.imp (fun h => ne_of_lt h))).mpr
      intro x
      rw [hinv.mem x, hfinv.mem x]
    · exact hinv.sorted
    · exact hfinv.sorted
  have hfst : (main_float ign tol values).map Prod.fst
      = (accumulate_float ign tol (init ℚ) values).seen := by
    simp [main_float, output_float, List.map_map, Function.comp_def]
  refine ⟨?_, by rw [hfst]; exact hfinv.sorted, fun v => by rw [hfst]; exact hfinv.mem v, ?_⟩
  swap
  · intro r hr
    simp only [main_float, output_float, List.mem_map] at hr
    obtain ⟨v, hv, rfl⟩ := hr
    have hvk : v ∈ values.filter (keep ign tol) := (hfinv.mem v).mp hv
    have hne : ((values.filter (keep ign tol)).length : ℚ) ≠ 0 := by
      exact_mod_cast (Nat.pos_iff_ne_zero.mp (List.length_pos_of_mem hvk))
    simp [fdiv, hfinv.norm, hfinv.count, hne]
  simp only [main_int, hacc, hout, main_float, output_float]
  rw [← hseen]
  refine congrArg some ?_
  apply List.map_congr_left
  intro v hv
  have hvk := (hinv.mem v).mp hv
  obtain ⟨k, hk⟩ := hcast v hvk
  have hkc : key_count (values.filter (keep ign tol)) k
      = (values.filter (keep ign tol)).count v :=
    key_count_eq_count _ v k hk (fun u hu huk => hinj u hu v hvk (by rw [huk, hk]))
  simp [hinv.norm, hinv.count, hfinv.norm, hfinv.count, hk, hkc]

/-- Witness for C16: the values `1 2 2 3 3 3` give the rows `(1, 1/6)`,
`(2, 1/3)`, `(3, 1/2)` in both modes. -/
theorem int_rows_on_integers_witness :
    main_int false 0 [1, 2, 2, 3, 3, 3]
      = some [(1, some (1 / 6)), (2, some (1 / 3)), (3, some (1 / 2))] ∧
    main_float false 0 [1, 2, 2, 3, 3, 3]
      = [(1, some (1 / 6)), (2, some (1 / 3)), (3, some (1 / 2))] := by
  have hf : main_float false 0 [1, 2, 2, 3, 3, 3]
      = [(1, some (1 / 6)), (2, some (1 / 3)), (3, some (1 / 2))] := by
    norm_num [main_float, accumulate_float, step_float, keep, set_insert, map_update,
      map_get, init, output_float, fdiv]
  have h := int_rows_on_integers false 0 [1, 2, 2, 3, 3, 3] (by
    intro v hv
    simp only [keep, Bool.not_false, Bool.true_or, List.filter_cons_of_pos,
      List.filter_nil, List.mem_cons, List.mem_singleton, List.not_mem_nil, or_false] at hv
    rcases hv with h | h | h | h | h | h <;> subst h
    · exact ⟨1, by norm_num [UINT_SIZE], by norm_num⟩
    · exact ⟨2, by norm_num [UINT_SIZE], by norm_num⟩
    · exact ⟨2, by norm_num [UINT_SIZE], by norm_num⟩
    · exact ⟨3, by norm_num [UINT_SIZE], by norm_num⟩
    · exact ⟨3, by norm_num [UINT_SIZE], by norm_num⟩
    · exact ⟨3, by norm_num [UINT_SIZE], by norm_num⟩)
  exact ⟨by rw [h.1, hf], hf⟩

end Unbinned

end CliStats

namespace CliStats

/-! ## C17 and C18: column extraction -/

theorem extract_loop_getElem {α : Type} (count : Nat) (toks : List α) (d : Option α)
    (h : count < toks.length) :
    extract_loop (count + 1) toks d = toks[count]? := by
  induction count generalizing toks d with
  | zero =>
    cases toks with
    | nil => simp at h
    | cons t rest => simp [extract_loop]
  | succ k ih =>
    cases toks with
    | nil => simp at h
    | cons t rest =>
      have hk : k < rest.length := by simpa using h
      simp only [extract_loop, List.getElem?_cons_succ]
      exact ih rest (some t) hk

/-- In `binned_discrete_distribution.cpp` and `discrete_distribution.cpp`, a
line with more than `column_idx` tokens yields the token at position
`column_idx`, whatever `data_buffer` held before. -/
theorem extract_column_long_line {α : Type} (column_idx : Nat) (toks : List α)
    (d : Option α) (hc : column_idx + 1 < UINT_SIZE) (h : column_idx < toks.length) :
    extract_column column_idx d toks = toks[column_idx]? := by
  unfold extract_column
  rw [if_pos hc]
  exact extract_loop_getElem column_idx toks d h

/-- For `column_idx = 2^32 - 1` the extraction loop does not end, whatever the
line. -/
theorem extract_column_no_end {α : Type} (toks : List α) (d : Option α) :
    extract_column 4294967295 d toks = none := by
  simp [extract_column, UINT_SIZE]

/-- A line with at least one token but no more than `column_idx` tokens yields
its last token. -/
theorem extract_loop_short_line {α : Type} (count : Nat) (toks : List α) (d : Option α)
    (h : toks.length ≤ count) (hne : toks ≠ []) :
    extract_loop count toks d = toks.getLast? := by
  induction count generalizing toks d with
  | zero =>
    cases toks with
    | nil => exact absurd rfl hne
    | cons t rest => simp at h
  | succ k ih =>
    cases toks with
    | nil => exact absurd rfl hne
    | cons t rest =>
      cases rest with
      | nil => cases k <;> simp [extract_loop]
      | cons t2 rest2 =>
        have hk : (t2 :: rest2).length ≤ k := by simpa using h
        simp only [extract_loop]
        rw [ih (t2 :: rest2) (some t) hk (by simp)]
        simp [List.getLast?_cons_cons]

/-- An empty line leaves `data_buffer` as the previous line left it. -/
theorem extract_loop_empty_line {α : Type} (count : Nat) (d : Option α) :
    extract_loop count ([] : List α) d = d := by
  cases count <;> rfl

/-- C17 fails on the code for the power-law pipeline: on the line `7 5` with
column index `1`, the linear-bin and unbinned pipelines extract the token at
position `1`, which is `5`; `empirical_power_laws.cpp` extracts `7`, the token
at position `0`, and its extracted values are the same for every column
index. -/
theorem power_law_ignores_column :
    extract_column 1 none [(7 : ℚ), 5] = some 5 ∧
    column_values 1 [ [7, 5] ] = some [5] ∧
    PowerLaw.read_values 1 [ [7, 5] ] = some [7] ∧
    PowerLaw.read_values 1 [ [7, 5] ] ≠ some [5] ∧
    (∀ columnn_idx lines,
      PowerLaw.read_values columnn_idx lines = PowerLaw.read_values 0 lines) := by
  refine ⟨by simp [extract_column, extract_loop, UINT_SIZE], ?_, ?_, ?_, fun _ _ => rfl⟩
  · simp [column_values, buffer_values, extract_column, extract_loop, UINT_SIZE]
  · simp [PowerLaw.read_values, buffer_values, extract_loop]
  · simp [PowerLaw.read_values, buffer_values, extract_loop]

/-- C18 fails on the code: with column index `1`, the short line `3` after the
line `1 2` raises no error and contributes `3`, the token of column `0` of the
same line; an empty line after the line `1 2` contributes `2`, the value left
over from the previous line.  In the unbinned pipeline the value `3` gets a
row with probability `1/2`; in the linear-bin pipeline with three bins over
`[0, 3)` the short line `2.5` after `0 1.5` is counted in the last bin. -/
theorem short_line_contributes :
    column_values 1 [[1, 2], [3]] = some [2, 3] ∧
    column_values 1 [[1, 2], []] = some [2, 2] ∧
    Unbinned.main_float_column 1 false 0 [[1, 2], [3]]
      = some [(2, some (1 / 2)), (3, some (1 / 2))] ∧
    Binned.main_column 1 3 0 3 0 false [[0, 3 / 2], [5 / 2]]
      = some [(1 / 2, some 0), (3 / 2, some (1 / 2)), (5 / 2, some (1 / 2))] := by
  have h1 : column_values 1 [[1, 2], [3]] = some [2, 3] := by
    simp [column_values, buffer_values, extract_column, extract_loop, UINT_SIZE]
  have h2 : column_values 1 [[0, 3 / 2], [5 / 2]] = some [3 / 2, 5 / 2] := by
    simp [column_values, buffer_values, extract_column, extract_loop, UINT_SIZE]
  refine ⟨h1, ?_, ?_, ?_⟩
  · simp [column_values, buffer_values, extract_column, extract_loop, UINT_SIZE]
  · rw [Unbinned.main_float_column, h1]
    norm_num [Unbinned.main_float, Unbinned.accumulate_float, Unbinned.step_float, keep,
      set_insert, map_update, map_get, Unbinned.init, Unbinned.output_float, fdiv]
  · rw [Binned.main_column, h2]
    simp only [Binned.main, Binned.bin_limits_three]
    norm_num [Binned.accumulate, Binned.step, keep, Binned.scan,
      Binned.vector_size, UINT_SIZE, Binned.init, Binned.pred_idx,
      Binned.output, Binned.row, allSome, fdiv, List.range, List.range.loop, incr,
      List.replicate,
      fl64_one, fl64_three, fl64_five, fl64_half, fl64_three_halves, fl64_five_halves]

end CliStats

namespace CliStats

/-! ## C13: no value survives -/

/-- C13, as stated, fails: with `ignore_null` set, the default tolerance and the
single value `0`, no value survives the filter, yet the linear-bin pipeline
with three bins over `[0, 3)` completes normally and emits three rows, each
carrying the quotient `0/0`, which is not a number. -/
theorem empty_distribution_counterexample :
    ([(0 : ℚ)].filter (keep true (1 / 10000000000))) = [] ∧
    Binned.main 3 0 3 (1 / 10000000000) true [0]
      = some [(1 / 2, none), (3 / 2, none), (5 / 2, none)] ∧
    fdiv 0 0 = none := by
  refine ⟨by norm_num [keep], ?_, by simp [fdiv]⟩
  simp only [Binned.main, Binned.bin_limits_three]
  norm_num [Binned.accumulate, Binned.step, keep,
    Binned.vector_size, UINT_SIZE, Binned.init, Binned.output, Binned.row, allSome, fdiv,
    List.range, List.range.loop, List.replicate,
    fl64_one, fl64_three, fl64_five, fl64_half, fl64_three_halves, fl64_five_halves]

/-- C13 (amended): when no value survives the filter, no pipeline reports an
`EmptyDistribution` failure.  The linear-bin pipeline (`1 <= number_of_bins`,
`number_of_bins + 1 < 2^32`) completes and emits `number_of_bins` rows, each
carrying the quotient by the zero total, which is not a number.  The unbinned
pipeline completes in both modes, emits no row and performs no division.  The
power-law pipeline on a file without values emits no row: in the unique-value
modes the GSL allocation of a histogram with `0` bins fails, in the
logarithmic mode the maximum of the empty set is undefined. -/
theorem empty_distribution_rows (N : Nat) (lower upper tol : ℚ) (ign : Bool)
    (values : List ℚ) (hN : 1 ≤ N) (hN' : N + 1 < UINT_SIZE)
    (hnone : values.filter (keep ign tol) = []) :
    (∃ rows, Binned.main N lower upper tol ign values = some rows ∧ rows.length = N ∧
      ∀ r ∈ rows, r.2 = none) ∧
    Unbinned.main_float ign tol values = [] ∧
    Unbinned.main_int ign tol values = some [] ∧
    (∀ fl ccdf, PowerLaw.main_unique fl ccdf [] = none) ∧
    PowerLaw.main_log [] = none := by
  refine ⟨?_, ?_, ?_, ?_, ?_⟩
  · have _ := hN
    have hsz := Binned.vector_size_eq N hN'
    have hlen : (Binned.init N).bins.length = N + 1 := by simp [Binned.init, hsz]
    have hacc := Binned.accumulate_none_kept tol ign (Binned.bin_limits N lower upper)
      values hnone (Binned.init N)
    have hz : (Binned.init N).normalization = 0 := rfl
    have hout := Binned.output_eq N lower upper (Binned.init N) hN' hlen
    have hmain : Binned.main N lower upper tol ign values
        = Binned.output N (Binned.bin_limits N lower upper) (Binned.init N) := by
      simp [Binned.main, hacc]
    rw [hmain, hout]
    refine ⟨_, rfl, by simp, ?_⟩
    intro r hr
    simp only [List.mem_map] at hr
    obtain ⟨i, _, rfl⟩ := hr
    simp [fdiv, hz]
  · have hinv := Unbinned.floatInv_final ign tol values
    have hseen : (Unbinned.accumulate_float ign tol (Unbinned.init ℚ) values).seen = [] := by
      apply List.eq_nil_iff_forall_not_mem.mpr
      intro x hx
      have := (hinv.mem x).mp hx
      rw [hnone] at this
      simp at this
    simp [Unbinned.main_float, Unbinned.output_float, hseen]
  · obtain ⟨s, hacc, hinv⟩ := Unbinned.intInv_final ign tol values
      (by rw [hnone]; simp) (by rw [hnone]; simp)
    have hseen : s.seen = [] := by
      apply List.eq_nil_iff_forall_not_mem.mpr
      intro x hx
      have := (hinv.mem x).mp hx
      rw [hnone] at this
      simp at this
    simp [Unbinned.main_int, hacc, Unbinned.output_int, hseen, allSome]
  · intro fl ccdf
    simp [PowerLaw.main_unique, PowerLaw.unique_histogram, PowerLaw.element_set,
      PowerLaw.gsl_histogram_alloc]
  · simp [PowerLaw.main_log, PowerLaw.log_histogram, PowerLaw.max_element,
      PowerLaw.element_set]

/-- Witness for C13 (amended): the single value `0` with `ignore_null` set and
three bins over `[0, 3)`. -/
theorem empty_distribution_rows_witness :
    (∃ rows, Binned.main 3 0 3 (1 / 10000000000) true [0] = some rows ∧ rows.length = 3 ∧
      ∀ r ∈ rows, r.2 = none) ∧
    Unbinned.main_float true (1 / 10000000000) [0] = [] ∧
    Unbinned.main_int true (1 / 10000000000) [0] = some [] ∧
    (∀ fl ccdf, PowerLaw.main_unique fl ccdf [] = none) ∧
    PowerLaw.main_log [] = none :=
  empty_distribution_rows 3 0 3 (1 / 10000000000) true [0] (by norm_num)
    (by norm_num [UINT_SIZE]) (by norm_num [keep])

end CliStats

namespace CliStats

namespace PowerLaw

/-! ## Lemmas on the unique-value histogram -/

theorem foldl_set_insert_spec (vs s : List Nat) (hs : s.Pairwise (fun x y => x < y)) :
    (vs.foldl (fun s v => (set_insert s v).1) s).Pairwise (fun x y => x < y) ∧
    ∀ x, x ∈ vs.foldl (fun s v => (set_insert s v).1) s ↔ x ∈ s ∨ x ∈ vs := by
  induction vs generalizing s with
  | nil => exact ⟨hs, fun x => by simp⟩
  | cons v rest ih =>
    obtain ⟨h1, h2⟩ := ih (set_insert s v).1 (pairwise_set_insert s v hs)
    refine ⟨h1, ?_⟩
    intro x
    simp only [List.foldl_cons]
    rw [h2 x, mem_set_insert]
    simp only [List.mem_cons]
    tauto

theorem element_set_sorted (values : List Nat) :
    (element_set values).Pairwise (fun x y => x < y) :=
  (foldl_set_insert_spec values [] List.Pairwise.nil).1

theorem mem_element_set (values : List Nat) (x : Nat) :
    x ∈ element_set values ↔ x ∈ values := by
  have h := (foldl_set_insert_spec values [] List.Pairwise.nil).2 x
  simpa [element_set] using h

theorem element_set_ne_nil (values : List Nat) (h : values ≠ []) :
    element_set values ≠ [] := by
  obtain ⟨v, hv⟩ := List.exists_mem_of_ne_nil values h
  intro he
  have := (mem_element_set values v).mpr hv
  rw [he] at this
  simp at this

/-- In a strictly ascending list the order of two entries is the order of their
indices. -/
theorem sorted_getElem?_lt (E : List Nat) (hE : E.Pairwise (fun x y => x < y))
    (i j a b : Nat) (hi : E[i]? = some a) (hj : E[j]? = some b) (hij : i < j) : a < b := by
  have hjl : j < E.length := (List.getElem?_eq_some_iff.mp hj).1
  have hil : i < E.length := by omega
  have ha : E[i] = a := (List.getElem?_eq_some_iff.mp hi).2
  have hb : E[j] = b := (List.getElem?_eq_some_iff.mp hj).2
  rw [← ha, ← hb]
  exact List.pairwise_iff_getElem.mp hE i j hil hjl hij

theorem sorted_getElem?_le (E : List Nat) (hE : E.Pairwise (fun x y => x < y))
    (i j a b : Nat) (hi : E[i]? = some a) (hj : E[j]? = some b) (hij : i ≤ j) : a ≤ b := by
  rcases Nat.lt_or_eq_of_le hij with h | h
  · exact le_of_lt (sorted_getElem?_lt E hE i j a b hi hj h)
  · subst h
    rw [hi] at hj
    exact le_of_eq (Option.some.inj hj)

theorem find_upper_cons_above (b : Bound) (l : List Bound) (x i : Nat)
    (h : b.above x = true) : find_upper (b :: l) x i = some i := by
  simp [find_upper, h]

theorem find_upper_cons_not_above (b : Bound) (l : List Bound) (x i : Nat)
    (h : b.above x = false) : find_upper (b :: l) x i = find_upper l x (i + 1) := by
  simp [find_upper, h]

theorem above_rat_true (q : ℚ) (x : Nat) (h : (x : ℚ) < q) :
    (Bound.rat q).above x = true := by
  simp [Bound.above, h]

theorem above_rat_false (q : ℚ) (x : Nat) (h : ¬ (x : ℚ) < q) :
    (Bound.rat q).above x = false := by
  simp [Bound.above, h]

/-- The search through the upper boundaries of the unique-value bins: for the
entry `x` of index `k` of the strictly ascending list `v0 :: rest`, the first
upper boundary exceeding `x` has index `k`. -/
theorem find_upper_unique (rest : List Nat) (v0 : Nat) (top : ℚ) (x k i : Nat)
    (hE : (v0 :: rest).Pairwise (fun x y => x < y))
    (htop : ∀ v ∈ v0 :: rest, (v : ℚ) < top)
    (hk : (v0 :: rest)[k]? = some x) :
    find_upper (rest.map (fun (v : Nat) => Bound.rat ((v : ℚ) - 1 / 10)) ++ [Bound.rat top])
      x i = some (i + k) := by
  induction rest generalizing v0 k i with
  | nil =>
    have hk0 : k = 0 := by
      have := (List.getElem?_eq_some_iff.mp hk).1
      simpa using this
    subst hk0
    have hx : x = v0 := by simpa using hk.symm
    subst hx
    have := htop x (by simp)
    rw [List.map_nil, List.nil_append,
      find_upper_cons_above _ _ _ _ (above_rat_true top x this)]
    rfl
  | cons v1 rest' ih =>
    have hE' : (v1 :: rest').Pairwise (fun x y => x < y) := (List.pairwise_cons.mp hE).2
    have h01 : v0 < v1 := (List.pairwise_cons.mp hE).1 v1 (by simp)
    rw [List.map_cons, List.cons_append]
    cases k with
    | zero =>
      have hx : x = v0 := by simpa using hk.symm
      subst hx
      have : (x : ℚ) < (v1 : ℚ) - 1 / 10 := by
        have : (x : ℚ) + 1 ≤ (v1 : ℚ) := by exact_mod_cast h01
        linarith
      rw [find_upper_cons_above _ _ _ _ (above_rat_true _ x this)]
      rfl
    | succ k' =>
      have hk' : (v1 :: rest')[k']? = some x := by simpa using hk
      have hv1x : v1 ≤ x :=
        sorted_getElem?_le (v1 :: rest') hE' 0 k' v1 x (by simp) hk' (by omega)
      have hnot : ¬ ((x : ℚ) < (v1 : ℚ) - 1 / 10) := by
        have : (v1 : ℚ) ≤ (x : ℚ) := by exact_mod_cast hv1x
        linarith
      have := ih v1 k' (i + 1) hE' (fun v hv => htop v (by simp [hv])) hk'
      rw [find_upper_cons_not_above _ _ _ _ (above_rat_false _ x hnot), this]
      congr 1
      omega

end PowerLaw

end CliStats

namespace CliStats

namespace PowerLaw

theorem sorted_le_getLast (E : List Nat) (hE : E.Pairwise (fun x y => x < y)) (m : Nat)
    (hm : E.getLast? = some m) (v : Nat) (hv : v ∈ E) : v ≤ m := by
  obtain ⟨i, hi⟩ := List.mem_iff_getElem?.mp hv
  have hil : i < E.length := (List.getElem?_eq_some_iff.mp hi).1
  rw [List.getLast?_eq_getElem?] at hm
  exact sorted_getElem?_le E hE i (E.length - 1) v m hi hm (by omega)

/-- The array `range` of the unique-value histogram for a non-empty set: the
values less `0.1`, then a last boundary above every value. -/
theorem unique_range_spec (E : List Nat) (hE : E.Pairwise (fun x y => x < y))
    (hne : E ≠ []) :
    ∃ top : ℚ, unique_range E
        = some (E.map (fun (v : Nat) => (v : ℚ) - 1 / 10) ++ [top]) ∧
      ∀ v ∈ E, (v : ℚ) < top := by
  cases hl : E.getLast? with
  | none => exact absurd (List.getLast?_eq_none_iff.mp hl) hne
  | some m =>
    refine ⟨(m : ℚ) - 1 / 10 + 2 / 10, ?_, ?_⟩
    · simp only [unique_range, List.getLast?_map, hl, Option.map_some']
    · intro v hv
      have : (v : ℚ) ≤ (m : ℚ) := by exact_mod_cast sorted_le_getLast E hE m hl v hv
      linarith

/-- The bin search of GSL on the unique-value bins: the entry of index `k` of
the set is found in bin `k`. -/
theorem gsl_find_unique (E : List Nat) (top : ℚ) (x k : Nat) (h : gsl_histogram)
    (hE : E.Pairwise (fun x y => x < y)) (htop : ∀ v ∈ E, (v : ℚ) < top)
    (hn : h.n = E.length)
    (hr : h.range = (E.map (fun (v : Nat) => (v : ℚ) - 1 / 10) ++ [top]).map Bound.rat)
    (hk : E[k]? = some x) : gsl_find h x = some k := by
  cases E with
  | nil => simp at hk
  | cons v0 rest =>
    have hr' : h.range = Bound.rat ((v0 : ℚ) - 1 / 10)
        :: (rest.map (fun (v : Nat) => Bound.rat ((v : ℚ) - 1 / 10)) ++ [Bound.rat top]) := by
      rw [hr]
      simp [List.map_map, Function.comp_def]
    have h0 : h.range[0]? = some (Bound.rat ((v0 : ℚ) - 1 / 10)) := by
      rw [hr', List.getElem?_cons_zero]
    have hlast : h.range[h.n]? = some (Bound.rat top) := by
      rw [hr', hn]
      simp only [List.length_cons, List.getElem?_cons_succ]
      rw [List.getElem?_append_right (by simp)]
      simp
    have hv0x : v0 ≤ x :=
      sorted_getElem?_le (v0 :: rest) hE 0 k v0 x (by simp) hk (by omega)
    have hlo : (Bound.rat ((v0 : ℚ) - 1 / 10)).above x = false := by
      apply above_rat_false
      have : (v0 : ℚ) ≤ (x : ℚ) := by exact_mod_cast hv0x
      linarith
    have hxE : x ∈ v0 :: rest := List.mem_iff_getElem?.mpr ⟨k, hk⟩
    have hhi : (Bound.rat top).above x = true := above_rat_true top x (htop x hxE)
    have hfind := find_upper_unique rest v0 top x k 0 hE htop hk
    have htail : h.range.tail
        = rest.map (fun (v : Nat) => Bound.rat ((v : ℚ) - 1 / 10)) ++ [Bound.rat top] := by
      rw [hr']; rfl
    simp only [gsl_find, h0, hlast, hlo, hhi, htail, hfind, Bool.false_eq_true, if_false,
      if_true, Nat.zero_add]

/-- Adding one to the count of the entry of index `k` of the set is recording
one more occurrence of that entry. -/
theorem incr_map_count (E P : List Nat) (x k : Nat) (hE : E.Pairwise (fun x y => x < y))
    (hk : E[k]? = some x) :
    incr (E.map (fun e => (P.count e : ℚ))) k
      = E.map (fun e => ((P ++ [x]).count e : ℚ)) := by
  apply List.ext_getElem?
  intro i
  by_cases hik : i = k
  · subst hik
    rw [getElem?_incr_eq]
    simp [List.getElem?_map, hk, List.count_append]
  · rw [getElem?_incr_ne _ _ _ hik]
    simp only [List.getElem?_map]
    cases hi : E[i]? with
    | none => rfl
    | some e =>
      have hne : e ≠ x := by
        intro he
        subst he
        rcases Nat.lt_or_gt_of_ne hik with h | h
        · exact absurd (sorted_getElem?_lt E hE i k e e hi hk h) (lt_irrefl e)
        · exact absurd (sorted_getElem?_lt E hE k i e e hk hi h) (lt_irrefl e)
      have hne' : ¬ x = e := fun e' => hne e'.symm
      simp [List.count_append, List.count_cons, hne']

/-- The filling pass on the unique-value bins: bin `k` counts the occurrences
of the entry of index `k` of the set. -/
theorem fill_histogram_unique (E : List Nat) (top : ℚ)
    (hE : E.Pairwise (fun x y => x < y)) (htop : ∀ v ∈ E, (v : ℚ) < top)
    (vs P : List Nat) (hvs : ∀ v ∈ vs, v ∈ E) (h : gsl_histogram)
    (hn : h.n = E.length)
    (hr : h.range = (E.map (fun (v : Nat) => (v : ℚ) - 1 / 10) ++ [top]).map Bound.rat)
    (hb : h.bin = E.map (fun e => (P.count e : ℚ))) :
    (fill_histogram h vs).n = E.length ∧
    (fill_histogram h vs).range
      = (E.map (fun (v : Nat) => (v : ℚ) - 1 / 10) ++ [top]).map Bound.rat ∧
    (fill_histogram h vs).bin = E.map (fun e => ((P ++ vs).count e : ℚ)) := by
  induction vs generalizing h P with
  | nil => exact ⟨hn, hr, by simpa using hb⟩
  | cons v rest ih =>
    obtain ⟨k, hk⟩ := List.mem_iff_getElem?.mp (hvs v (by simp))
    have hfind := gsl_find_unique E top v k h hE htop hn hr hk
    have hstep : gsl_histogram_increment h v
        = { n := h.n, range := h.range, bin := incr h.bin k } := by
      simp [gsl_histogram_increment, hfind]
    have := ih (P ++ [v]) (fun w hw => hvs w (by simp [hw]))
      { n := h.n, range := h.range, bin := incr h.bin k } hn hr
      (by rw [hb]; exact incr_map_count E P v k hE hk)
    simpa [fill_histogram, hstep, List.append_assoc] using this

/-- Over a strictly ascending list with the same members as `l`, the tallies of
`l` add up to the length of `l`. -/
theorem sum_count_nat (seen l : List Nat) (hs : seen.Pairwise (fun x y => x < y))
    (hm : ∀ x, x ∈ seen ↔ x ∈ l) :
    (seen.map (fun x => (l.count x : ℚ))).sum = (l.length : ℚ) := by
  have hnd : seen.Nodup := hs.imp (fun h => ne_of_lt h)
  have hperm : seen.Perm l.dedup := by
    apply (List.perm_ext_iff_of_nodup hnd (List.nodup_dedup l)).mpr
    intro x
    rw [hm x, List.mem_dedup]
  have h1 : (seen.map (fun x => (l.count x : ℚ))).sum
      = (l.dedup.map (fun x => (l.count x : ℚ))).sum := (hperm.map _).sum_eq
  have h2 : (l.dedup.map (fun x => l.count x)).sum = l.length :=
    List.sum_map_count_dedup_eq_length l
  rw [h1, ← h2]
  push_cast
  rw [List.map_map]
  rfl

/-- The unique-value histogram of a non-empty list of values: the array
`range`, and bins that count the occurrences of each element of the set. -/
theorem unique_histogram_spec (values : List Nat) (hne : values ≠ []) :
    ∃ (top : ℚ) (h : gsl_histogram),
      (∀ v ∈ element_set values, (v : ℚ) < top) ∧
      unique_histogram values
        = some ((element_set values).map (fun (v : Nat) => (v : ℚ) - 1 / 10) ++ [top], h) ∧
      h.n = (element_set values).length ∧
      h.range = ((element_set values).map (fun (v : Nat) => (v : ℚ) - 1 / 10)
        ++ [top]).map Bound.rat ∧
      h.bin = (element_set values).map (fun e => (values.count e : ℚ)) ∧
      gsl_histogram_sum h = (values.length : ℚ) := by
  have hE := element_set_sorted values
  have hEne := element_set_ne_nil values hne
  obtain ⟨top, hrange, htop⟩ := unique_range_spec (element_set values) hE hEne
  have hlen : (element_set values).length ≠ 0 := by
    intro h0
    exact hEne (List.length_eq_zero.mp h0)
  have hfill := fill_histogram_unique (element_set values) top hE htop values []
    (fun v hv => (mem_element_set values v).mpr hv)
    { n := (element_set values).length,
      range := ((element_set values).map (fun (v : Nat) => (v : ℚ) - 1 / 10)
        ++ [top]).map Bound.rat,
      bin := List.replicate (element_set values).length 0 } rfl rfl
    (by
      apply List.ext_getElem?
      intro i
      by_cases hi : i < (element_set values).length
      · simp [List.getElem?_replicate, hi, List.getElem?_map, List.getElem?_eq_getElem hi]
      · simp [List.getElem?_replicate, hi, List.getElem?_map,
          List.getElem?_eq_none (not_lt.mp hi)])
  obtain ⟨h1, h2, h3⟩ := hfill
  refine ⟨top, _, htop, ?_, h1, h2, by simpa using h3, ?_⟩
  · have htake : List.take ((element_set values).length + 1)
        (((element_set values).map (fun (v : Nat) => (v : ℚ) - 1 / 10) ++ [top]).map Bound.rat)
        = ((element_set values).map (fun (v : Nat) => (v : ℚ) - 1 / 10)
          ++ [top]).map Bound.rat := by
      apply List.take_of_length_le
      simp
    have hsize : (element_set values).length + 1
        ≤ (((element_set values).map (fun (v : Nat) => (v : ℚ) - 1 / 10)
          ++ [top]).map Bound.rat).length := by
      simp
    simp only [unique_histogram, gsl_histogram_alloc, hlen, if_false, hrange,
      gsl_histogram_set_ranges, htake, hsize, and_self, if_true]
  · rw [gsl_histogram_sum, h3]
    simpa using sum_count_nat (element_set values) values hE (mem_element_set values)

end PowerLaw

end CliStats

namespace CliStats

namespace PowerLaw

/-! ## Lemmas on the cumulative sums and the output loops -/

theorem length_running_sums (a : ℚ) (ps : List ℚ) :
    (running_sums a ps).length = ps.length := by
  induction ps generalizing a with
  | nil => rfl
  | cons p rest ih => simp [running_sums, ih]

theorem getElem?_running_sums (a : ℚ) (ps : List ℚ) (i : Nat) (hi : i < ps.length) :
    (running_sums a ps)[i]? = some (a + (ps.take (i + 1)).sum) := by
  induction ps generalizing a i with
  | nil => simp at hi
  | cons p rest ih =>
    cases i with
    | zero => simp [running_sums]
    | succ j =>
      have hj : j < rest.length := by simpa using hi
      simp only [running_sums, List.getElem?_cons_succ, ih (a + p) j hj, List.take_succ_cons,
        List.sum_cons]
      congr 1
      ring

theorem running_sums_ge (a : ℚ) (ps : List ℚ) (hp : ∀ p ∈ ps, 0 ≤ p) :
    ∀ s ∈ running_sums a ps, a ≤ s := by
  induction ps generalizing a with
  | nil => intro s hs; simp [running_sums] at hs
  | cons p rest ih =>
    intro s hs
    have hp0 : 0 ≤ p := hp p (by simp)
    simp only [running_sums, List.mem_cons] at hs
    rcases hs with h | h
    · rw [h]; linarith
    · have := ih (a + p) (fun q hq => hp q (by simp [hq])) s h
      linarith

theorem running_sums_gt (a : ℚ) (ps : List ℚ) (hp : ∀ p ∈ ps, 0 < p) :
    ∀ s ∈ running_sums a ps, a < s := by
  induction ps generalizing a with
  | nil => intro s hs; simp [running_sums] at hs
  | cons p rest ih =>
    intro s hs
    have hp0 : 0 < p := hp p (by simp)
    simp only [running_sums, List.mem_cons] at hs
    rcases hs with h | h
    · rw [h]; linarith
    · have := ih (a + p) (fun q hq => hp q (by simp [hq])) s h
      linarith

theorem running_sums_le_total (a : ℚ) (ps : List ℚ) (hp : ∀ p ∈ ps, 0 ≤ p) :
    ∀ s ∈ running_sums a ps, s ≤ a + ps.sum := by
  induction ps generalizing a with
  | nil => intro s hs; simp [running_sums] at hs
  | cons p rest ih =>
    intro s hs
    have hrest : ∀ q ∈ rest, 0 ≤ q := fun q hq => hp q (by simp [hq])
    have hsum : 0 ≤ rest.sum := List.sum_nonneg hrest
    simp only [running_sums, List.mem_cons] at hs
    rcases hs with h | h
    · rw [h, List.sum_cons]; linarith
    · have := ih (a + p) hrest s h
      rw [List.sum_cons]; linarith

theorem running_sums_pairwise_le (a : ℚ) (ps : List ℚ) (hp : ∀ p ∈ ps, 0 ≤ p) :
    (running_sums a ps).Pairwise (fun x y => x ≤ y) := by
  induction ps generalizing a with
  | nil => simp [running_sums]
  | cons p rest ih =>
    have hrest : ∀ q ∈ rest, 0 ≤ q := fun q hq => hp q (by simp [hq])
    simp only [running_sums]
    exact List.pairwise_cons.mpr ⟨running_sums_ge (a + p) rest hrest, ih (a + p) hrest⟩

theorem running_sums_pairwise_lt (a : ℚ) (ps : List ℚ) (hp : ∀ p ∈ ps, 0 < p) :
    (running_sums a ps).Pairwise (fun x y => x < y) := by
  induction ps generalizing a with
  | nil => simp [running_sums]
  | cons p rest ih =>
    have hrest : ∀ q ∈ rest, 0 < q := fun q hq => hp q (by simp [hq])
    simp only [running_sums]
    exact List.pairwise_cons.mpr ⟨running_sums_gt (a + p) rest hrest, ih (a + p) hrest⟩

theorem getLast?_running_sums (a : ℚ) (ps : List ℚ) (hne : ps ≠ []) :
    (running_sums a ps).getLast? = some (a + ps.sum) := by
  have hlen : 0 < ps.length := List.length_pos.mpr hne
  rw [List.getLast?_eq_getElem?, length_running_sums,
    getElem?_running_sums a ps (ps.length - 1) (by omega)]
  have : ps.length - 1 + 1 = ps.length := by omega
  rw [this, List.take_length]

theorem length_rounded_sums (fl : ℚ → ℚ) (a : ℚ) (ps : List ℚ) :
    (rounded_sums fl a ps).length = ps.length := by
  induction ps generalizing a with
  | nil => rfl
  | cons p rest ih => simp [rounded_sums, ih]

/-- Without rounding the rounded sums are the cumulative sums. -/
theorem rounded_sums_id (a : ℚ) (ps : List ℚ) :
    rounded_sums id a ps = running_sums a ps := by
  induction ps generalizing a with
  | nil => rfl
  | cons p rest ih => simp [rounded_sums, running_sums, ih]

/-- In binary64, started from a binary64 number and fed non-negative terms,
every rounded sum is a binary64 number not below the start. -/
theorem rounded_sums_fl64_ge (a : ℚ) (ha : fl64 a = a) (ps : List ℚ)
    (hp : ∀ p ∈ ps, 0 ≤ p) : ∀ s ∈ rounded_sums fl64 a ps, a ≤ s := by
  induction ps generalizing a with
  | nil => intro s hs; simp [rounded_sums] at hs
  | cons p rest ih =>
    intro s hs
    have hp0 : 0 ≤ p := hp p (by simp)
    have h1 : a ≤ fl64 (a + p) := by
      have := fl64_mono (show a ≤ a + p by linarith)
      rwa [ha] at this
    simp only [rounded_sums, List.mem_cons] at hs
    rcases hs with h | h
    · rw [h]; exact h1
    · have := ih (fl64 (a + p)) (fl64_idem _) (fun q hq => hp q (by simp [hq])) s h
      linarith

/-- In binary64 the rounded sums of non-negative terms do not decrease. -/
theorem rounded_sums_fl64_pairwise_le (a : ℚ) (ps : List ℚ) (hp : ∀ p ∈ ps, 0 ≤ p) :
    (rounded_sums fl64 a ps).Pairwise (fun x y => x ≤ y) := by
  induction ps generalizing a with
  | nil => simp [rounded_sums]
  | cons p rest ih =>
    have hrest : ∀ q ∈ rest, 0 ≤ q := fun q hq => hp q (by simp [hq])
    simp only [rounded_sums]
    exact List.pairwise_cons.mpr
      ⟨rounded_sums_fl64_ge (fl64 (a + p)) (fl64_idem _) rest hrest, ih (fl64 (a + p)) hrest⟩

/-- The CCDF loop with a non-zero divisor: the representatives of the bins,
and one minus the rounded cumulative sums of the rounded quotients. -/
theorem ccdf_loop_eq (fl : ℚ → ℚ) (norm : ℚ) (hnorm : norm ≠ 0) (bins : List (ℚ × ℚ))
    (a : ℚ) :
    (ccdf_loop fl norm bins (some a)).map Prod.fst
      = bins.map (fun rc => representative rc.1) ∧
    (ccdf_loop fl norm bins (some a)).map Prod.snd
      = (rounded_sums fl a (bins.map (fun rc => fl (rc.2 / norm)))).map
          (fun s => some (fl (1 - s))) := by
  induction bins generalizing a with
  | nil => simp [ccdf_loop, rounded_sums]
  | cons rc rest ih =>
    obtain ⟨r, c⟩ := rc
    obtain ⟨h1, h2⟩ := ih (fl (a + fl (c / norm)))
    have hadd : add_opt fl (some a) ((fdiv c norm).map fl) = some (fl (a + fl (c / norm))) := by
      simp [add_opt, fdiv, hnorm]
    constructor
    · simp only [ccdf_loop, hadd, List.map_cons, h1]
    · simp only [ccdf_loop, hadd, List.map_cons, h2, rounded_sums, Option.map_some']

theorem c_round_natCast_shift (v : Nat) : c_round ((v : ℚ) - 1 / 10 + 1 / 10) = (v : Int) := by
  have h0 : (0 : ℚ) ≤ (v : ℚ) - 1 / 10 + 1 / 10 := by
    have : (0 : ℚ) ≤ (v : ℚ) := Nat.cast_nonneg v
    linarith
  simp only [c_round, h0, if_true]
  rw [Int.floor_eq_iff]
  constructor
  · push_cast; linarith
  · push_cast; linarith

/-- The representative printed for the bin of the value `v`: `v` itself when
`v` is an `int`. -/
theorem representative_of_value (v : Nat) :
    representative ((v : ℚ) - 1 / 10) = to_int (v : Int) := by
  simp only [representative, c_round_natCast_shift]

theorem to_int_natCast (v : Nat) (h : v < 2 ^ 31) : to_int (v : Int) = some (v : Int) := by
  have h1 : -(2 : Int) ^ 31 ≤ (v : Int) := by
    have : (0 : Int) ≤ (v : Int) := Int.natCast_nonneg v
    have : (0 : Int) ≤ (2 : Int) ^ 31 := by norm_num
    omega
  have h2 : (v : Int) < (2 : Int) ^ 31 := by exact_mod_cast h
  unfold to_int
  rw [if_pos ⟨h1, h2⟩]

/-- The pairs `(range[idx], gsl_histogram_get (h, idx))` over which the output
loops run. -/
theorem unique_bins_eq (E : List Nat) (top : ℚ) (counts : List ℚ) (n : Nat)
    (hn : n = E.length) (f : Nat → ℚ) (hc : counts = E.map f) :
    ((E.map (fun (v : Nat) => (v : ℚ) - 1 / 10) ++ [top]).take n).zip counts
      = E.map (fun (v : Nat) => ((v : ℚ) - 1 / 10, f v)) := by
  have htake : (E.map (fun (v : Nat) => (v : ℚ) - 1 / 10) ++ [top]).take n
      = E.map (fun (v : Nat) => (v : ℚ) - 1 / 10) := by
    rw [hn, List.take_append_of_le_length (by simp)]
    apply List.take_of_length_le
    simp
  rw [htake, hc, List.zip_map']

end PowerLaw

end CliStats

namespace CliStats

namespace PowerLaw

/-- The rows of the two unique-value modes on a non-empty list of values, in
terms of the set of values and their tallies, for the rounding `fl` of the CCDF
accumulation. -/
theorem main_unique_spec (fl : ℚ → ℚ) (values : List Nat) (hne : values ≠ []) :
    main_unique fl false values = some ((element_set values).map (fun (v : Nat) =>
      (to_int (v : Int), some ((values.count v : ℚ) / (values.length : ℚ))))) ∧
    ∃ rows, main_unique fl true values = some rows ∧
      rows.map Prod.fst = (element_set values).map (fun (v : Nat) => to_int (v : Int)) ∧
      rows.map Prod.snd
        = (rounded_sums fl 0 ((element_set values).map (fun (v : Nat) =>
            fl ((values.count v : ℚ) / (values.length : ℚ))))).map
              (fun s => some (fl (1 - s))) := by
  obtain ⟨top, h, _, hhist, hn, _, hbin, hsum⟩ := unique_histogram_spec values hne
  have hN : (values.length : ℚ) ≠ 0 := by
    have : values.length ≠ 0 := fun h0 => hne (List.length_eq_zero.mp h0)
    exact_mod_cast this
  have hbins := unique_bins_eq (element_set values) top h.bin h.n hn
    (fun e => (values.count e : ℚ)) hbin
  constructor
  · simp only [main_unique, hhist, Bool.false_eq_true, if_false, pmf_rows, hbins, hsum,
      List.map_map]
    refine congrArg some ?_
    apply List.map_congr_left
    intro v _
    show (representative ((v : ℚ) - 1 / 10), fdiv (values.count v : ℚ) (values.length : ℚ))
      = (to_int (v : Int), some ((values.count v : ℚ) / (values.length : ℚ)))
    rw [representative_of_value]
    simp [fdiv, hN]
  · obtain ⟨h1, h2⟩ := ccdf_loop_eq fl (values.length : ℚ) hN
      ((element_set values).map (fun (v : Nat) => ((v : ℚ) - 1 / 10, (values.count v : ℚ)))) 0
    have hmain : main_unique fl true values = some (ccdf_loop fl (values.length : ℚ)
        ((element_set values).map
          (fun (v : Nat) => ((v : ℚ) - 1 / 10, (values.count v : ℚ)))) (some 0)) := by
      simp only [main_unique, hhist, if_true, hbins, hsum]
    refine ⟨_, hmain, ?_, ?_⟩
    · rw [h1, List.map_map]
      apply List.map_congr_left
      intro v _
      show representative ((v : ℚ) - 1 / 10) = to_int (v : Int)
      exact representative_of_value v
    · rw [h2, List.map_map]
      rfl

/-- The rows of the CCDF mode in exact arithmetic: one minus the cumulative
sums of the quotients. -/
theorem main_unique_exact (values : List Nat) (hne : values ≠ []) :
    ∃ rows, main_unique id true values = some rows ∧
      rows.map Prod.fst = (element_set values).map (fun (v : Nat) => to_int (v : Int)) ∧
      rows.map Prod.snd
        = (running_sums 0 ((element_set values).map (fun (v : Nat) =>
            (values.count v : ℚ) / (values.length : ℚ)))).map (fun s => some (1 - s)) := by
  obtain ⟨_, rows, hrows, hfst, hsnd⟩ := main_unique_spec id values hne
  refine ⟨rows, hrows, hfst, ?_⟩
  rw [hsnd, rounded_sums_id]
  rfl

/-- In binary64, one minus a number that is at least `2^-53` rounds to a number
below `1`. -/
theorem fl64_one_sub_lt_one (a : ℚ) (ha : (1 : ℚ) / 2 ^ 53 ≤ a) : fl64 (1 - a) < 1 := by
  have h1 : fl64 (1 - 1 / 2 ^ 53) = 1 - 1 / 2 ^ 53 := by
    have := fl64_dyadic (2 ^ 53 - 1) (-53) (by norm_num) (by norm_num)
    norm_num at this ⊢
    exact this
  have h2 := fl64_mono (show 1 - a ≤ 1 - 1 / 2 ^ 53 by linarith)
  rw [h1] at h2
  have h3 : (0 : ℚ) < 1 / 2 ^ 53 := by positivity
  linarith

/-- In binary64, the quotient of a count of at least `1` by a total of at most
`2^53` is at least `2^-53`. -/
theorem fl64_quotient_ge (b n : ℚ) (hb : 1 ≤ b) (hn : 0 < n) (hn' : n ≤ 2 ^ 53) :
    (1 : ℚ) / 2 ^ 53 ≤ fl64 (b / n) := by
  have h1 : fl64 (1 / 2 ^ 53) = 1 / 2 ^ 53 := by
    have := fl64_dyadic 1 (-53) (by norm_num) (by norm_num)
    norm_num at this ⊢
    exact this
  have h2 : (1 : ℚ) / 2 ^ 53 ≤ b / n := by
    rw [div_le_div_iff₀ (by positivity) hn]
    nlinarith
  have h3 := fl64_mono h2
  rwa [h1] at h3

/-- The values emitted by the CCDF loop in binary64, for tallies that are at
least `1` and a total of at most `2^53`: they do not increase, and each is
below `1`. -/
theorem ccdf64_values (counts : List ℚ) (n : ℚ) (hc : ∀ c ∈ counts, 1 ≤ c) (hn : 0 < n) :
    ((rounded_sums fl64 0 (counts.map (fun c => fl64 (c / n)))).map
        (fun s => fl64 (1 - s))).Pairwise (fun a b => b ≤ a) ∧
    (n ≤ 2 ^ 53 →
      ∀ x ∈ (rounded_sums fl64 0 (counts.map (fun c => fl64 (c / n)))).map
        (fun s => fl64 (1 - s)), x < 1) := by
  have hnonneg : ∀ p ∈ counts.map (fun c => fl64 (c / n)), 0 ≤ p := by
    intro p hp
    simp only [List.mem_map] at hp
    obtain ⟨c, hc', rfl⟩ := hp
    exact fl64_nonneg (div_nonneg (by linarith [hc c hc']) hn.le)
  constructor
  · rw [List.pairwise_map]
    exact (rounded_sums_fl64_pairwise_le 0 _ hnonneg).imp
      (fun hab => fl64_mono (by linarith))
  · intro hn' x hx
    simp only [List.mem_map] at hx
    obtain ⟨s, hs, rfl⟩ := hx
    apply fl64_one_sub_lt_one
    cases counts with
    | nil => simp [rounded_sums] at hs
    | cons c rest =>
      have hc1 : 1 ≤ c := hc c (by simp)
      have hq := fl64_quotient_ge c n hc1 hn hn'
      have hrest : ∀ p ∈ rest.map (fun c => fl64 (c / n)), 0 ≤ p :=
        fun p hp => hnonneg p (by simp only [List.map_cons, List.mem_cons]; exact Or.inr hp)
      have h0 : fl64 (0 + fl64 (c / n)) = fl64 (c / n) := by
        rw [zero_add, fl64_idem]
      simp only [List.map_cons, rounded_sums, List.mem_cons, h0] at hs
      rcases hs with h | h
      · rw [h]; exact hq
      · have := rounded_sums_fl64_ge (fl64 (c / n)) (fl64_idem _) _ hrest s h
        linarith

theorem count_pos_of_mem_element_set (values : List Nat) (v : Nat)
    (hv : v ∈ element_set values) : 1 ≤ values.count v :=
  List.count_pos_iff.mpr ((mem_element_set values v).mp hv)

/-- The probabilities of the unique-value bins sum to one. -/
theorem sum_probabilities (values : List Nat) (hne : values ≠ []) :
    ((element_set values).map (fun (v : Nat) =>
      (values.count v : ℚ) / (values.length : ℚ))).sum = 1 := by
  have hN : (values.length : ℚ) ≠ 0 := by
    have : values.length ≠ 0 := fun h0 => hne (List.length_eq_zero.mp h0)
    exact_mod_cast this
  have h1 := sum_count_nat (element_set values) values (element_set_sorted values)
    (mem_element_set values)
  have h2 := sum_map_div ((element_set values).map (fun (v : Nat) => (values.count v : ℚ)))
    (values.length : ℚ)
  rw [List.map_map] at h2
  rw [h1, div_self hN] at h2
  exact h2

/-- The binary64 error on a number of magnitude below `2` is at most `2^-53`. -/
theorem abs_fl64_sub_le_two (q : ℚ) (h : |q| < 2) : |fl64 q - q| ≤ 1 / 2 ^ 53 := by
  have := abs_fl64_sub_le q 0 (by norm_num) (by norm_num; exact h)
  norm_num at this ⊢
  exact this

/-- The binary64 error on a number of magnitude below `1` is at most `2^-54`. -/
theorem abs_fl64_sub_le_one (q : ℚ) (h : |q| < 1) : |fl64 q - q| ≤ 1 / 2 ^ 54 := by
  have := abs_fl64_sub_le q (-1) (by norm_num) (by norm_num; exact h)
  norm_num at this ⊢
  exact this

/-- In binary64, rounded sums that stay below `2` of terms that are at least
`g` grow by at least `g - 2^-53` at each step. -/
theorem rounded_sums_fl64_gap (g a : ℚ) (ps : List ℚ) (hg : 1 / 2 ^ 53 ≤ g) (ha : 0 ≤ a)
    (hp : ∀ p ∈ ps, g ≤ p) (hb : a + ps.sum + (ps.length : ℚ) / 2 ^ 53 < 2) :
    (∀ s ∈ rounded_sums fl64 a ps, a + (g - 1 / 2 ^ 53) ≤ s ∧ s < 2) ∧
    (rounded_sums fl64 a ps).Pairwise (fun x y => x + (g - 1 / 2 ^ 53) ≤ y) := by
  induction ps generalizing a with
  | nil => simp [rounded_sums]
  | cons p rest ih =>
    have hg0 : (0 : ℚ) < 1 / 2 ^ 53 := by positivity
    have hp0 : g ≤ p := hp p (by simp)
    have hrest : ∀ q ∈ rest, g ≤ q := fun q hq => hp q (by simp [hq])
    have hsum : 0 ≤ rest.sum := List.sum_nonneg (fun q hq => by linarith [hrest q hq])
    have hlen : (0 : ℚ) ≤ (rest.length : ℚ) / 2 ^ 53 := by positivity
    simp only [List.sum_cons, List.length_cons, Nat.cast_add, Nat.cast_one] at hb
    have hb' : a + p + rest.sum + ((rest.length : ℚ) / 2 ^ 53 + 1 / 2 ^ 53) < 2 := by
      have : ((rest.length : ℚ) + 1) / 2 ^ 53 = (rest.length : ℚ) / 2 ^ 53 + 1 / 2 ^ 53 := by
        ring
      linarith
    have hap : |a + p| < 2 := by
      rw [abs_of_nonneg (by linarith)]
      linarith
    have herr := abs_fl64_sub_le_two (a + p) hap
    rw [abs_le] at herr
    have hs0 : 0 ≤ fl64 (a + p) := fl64_nonneg (by linarith)
    obtain ⟨ih1, ih2⟩ := ih (fl64 (a + p)) hs0 hrest (by linarith)
    constructor
    · intro s hs
      simp only [rounded_sums, List.mem_cons] at hs
      rcases hs with h | h
      · rw [h]
        constructor <;> linarith
      · obtain ⟨h3, h4⟩ := ih1 s h
        constructor <;> linarith
    · simp only [rounded_sums]
      exact List.pairwise_cons.mpr ⟨fun s hs => (ih1 s hs).1, ih2⟩

theorem sum_fl64_quotients_le (counts : List ℚ) (n : ℚ) (hn : 0 < n)
    (hc : ∀ c ∈ counts, 0 ≤ c ∧ c ≤ n) :
    (counts.map (fun c => fl64 (c / n))).sum
      ≤ counts.sum / n + (counts.length : ℚ) / 2 ^ 53 := by
  induction counts with
  | nil => simp
  | cons c rest ih =>
    obtain ⟨hc0, hcn⟩ := hc c (by simp)
    have hq0 : 0 ≤ c / n := div_nonneg hc0 hn.le
    have hq1 : c / n ≤ 1 := (div_le_one hn).mpr hcn
    have herr := abs_fl64_sub_le_two (c / n) (by rw [abs_of_nonneg hq0]; linarith)
    rw [abs_le] at herr
    have := ih (fun d hd => hc d (by simp [hd]))
    simp only [List.map_cons, List.sum_cons, List.length_cons, Nat.cast_add, Nat.cast_one]
    have e : (c + rest.sum) / n + ((rest.length : ℚ) + 1) / 2 ^ 53
        = c / n + 1 / 2 ^ 53 + (rest.sum / n + (rest.length : ℚ) / 2 ^ 53) := by
      ring
    rw [e]
    linarith

theorem length_le_sum (counts : List ℚ) (hc : ∀ c ∈ counts, 1 ≤ c) :
    (counts.length : ℚ) ≤ counts.sum := by
  induction counts with
  | nil => simp
  | cons c rest ih =>
    have h1 := hc c (by simp)
    have := ih (fun d hd => hc d (by simp [hd]))
    simp only [List.sum_cons, List.length_cons, Nat.cast_add, Nat.cast_one]
    linarith

theorem le_sum_of_mem (counts : List ℚ) (hc : ∀ c ∈ counts, 0 ≤ c) :
    ∀ c ∈ counts, c ≤ counts.sum := by
  induction counts with
  | nil => intro c h; simp at h
  | cons d rest ih =>
    intro c h
    have hd := hc d (by simp)
    have hrest : ∀ x ∈ rest, 0 ≤ x := fun x hx => hc x (by simp [hx])
    have hs : 0 ≤ rest.sum := List.sum_nonneg hrest
    simp only [List.sum_cons]
    rcases List.mem_cons.mp h with e | e
    · rw [e]; linarith
    · have := ih hrest c e
      linarith

/-- The values emitted by the CCDF loop in binary64, for tallies that are at
least `1` and sum to a total of at most `2^51`: they decrease strictly. -/
theorem ccdf64_strict (counts : List ℚ) (n : ℚ) (hc : ∀ c ∈ counts, 1 ≤ c)
    (hsum : counts.sum = n) (hn : n ≤ 2 ^ 51) :
    ((rounded_sums fl64 0 (counts.map (fun c => fl64 (c / n)))).map
        (fun s => fl64 (1 - s))).Pairwise (fun a b => b < a) := by
  rcases counts.eq_nil_or_concat with rfl | ⟨_, _, hcons⟩
  · simp [rounded_sums]
  have hlen0 : (0 : ℚ) < (counts.length : ℚ) := by
    have : 0 < counts.length := by rw [hcons]; simp
    exact_mod_cast this
  have hlen := length_le_sum counts hc
  have hn0 : 0 < n := by rw [← hsum]; linarith
  have hc0 : ∀ c ∈ counts, 0 ≤ c := fun c h => by linarith [hc c h]
  have hcn : ∀ c ∈ counts, 0 ≤ c ∧ c ≤ n := fun c h =>
    ⟨hc0 c h, by rw [← hsum]; exact le_sum_of_mem counts hc0 c h⟩
  have h51 : fl64 (1 / 2 ^ 51) = 1 / 2 ^ 51 := by
    have := fl64_dyadic 1 (-51) (by norm_num) (by norm_num)
    norm_num at this ⊢
    exact this
  have hp : ∀ p ∈ counts.map (fun c => fl64 (c / n)), (1 : ℚ) / 2 ^ 51 ≤ p := by
    intro p hp
    simp only [List.mem_map] at hp
    obtain ⟨c, hc', rfl⟩ := hp
    have h1 : (1 : ℚ) / 2 ^ 51 ≤ c / n := by
      rw [div_le_div_iff₀ (by positivity) hn0]
      nlinarith [hc c hc']
    have := fl64_mono h1
    rwa [h51] at this
  have hs := sum_fl64_quotients_le counts n hn0 hcn
  rw [hsum, div_self hn0.ne'] at hs
  have hl2 : (counts.length : ℚ) / 2 ^ 53 ≤ 1 / 4 := by
    rw [div_le_iff₀ (by positivity)]
    have : (counts.length : ℚ) ≤ 2 ^ 51 := by linarith
    linarith
  have hb : (0 : ℚ) + (counts.map (fun c => fl64 (c / n))).sum
      + ((counts.map (fun c => fl64 (c / n))).length : ℚ) / 2 ^ 53 < 2 := by
    rw [List.length_map]
    linarith
  obtain ⟨h1, h2⟩ := rounded_sums_fl64_gap (1 / 2 ^ 51) 0 _ (by norm_num) (le_refl 0) hp hb
  rw [List.pairwise_map]
  refine h2.imp_of_mem ?_
  intro x y hx hy hxy
  obtain ⟨hx1, hx2⟩ := h1 x hx
  obtain ⟨hy1, hy2⟩ := h1 y hy
  have hx0 : 0 < x := by
    have : (0 : ℚ) < 1 / 2 ^ 51 - 1 / 2 ^ 53 := by norm_num
    linarith
  have hy0 : 0 < y := by
    have : (0 : ℚ) < 1 / 2 ^ 51 - 1 / 2 ^ 53 := by norm_num
    linarith
  have ex := abs_fl64_sub_le_one (1 - x) (by rw [abs_lt]; constructor <;> linarith)
  have ey := abs_fl64_sub_le_one (1 - y) (by rw [abs_lt]; constructor <;> linarith)
  rw [abs_le] at ex ey
  have hgap : (1 : ℚ) / 2 ^ 51 - 1 / 2 ^ 53 = 3 / 2 ^ 53 := by norm_num
  have h54 : (1 : ℚ) / 2 ^ 54 + 1 / 2 ^ 54 < 3 / 2 ^ 53 := by norm_num
  linarith

end PowerLaw

end CliStats

namespace CliStats

namespace PowerLaw

/-! ## The CCDF of the tallies `2, 4, 3, 1` in binary64 -/

/-- The binary64 quotient `2 / 10`. -/
theorem fl64_q1 :
    fl64 (2 / 10) = 3602879701896397 / 18014398509481984 := by
  rw [fl64_eq (-3) 7205759403792794 (by norm_num) (by norm_num [abs_of_pos, abs_of_neg])
    (by norm_num [abs_of_pos, abs_of_neg]) (rne_eq_of_lt (by norm_num) (by norm_num))]
  norm_num

/-- The binary64 quotient `4 / 10`. -/
theorem fl64_q2 :
    fl64 (4 / 10) = 3602879701896397 / 9007199254740992 := by
  rw [fl64_eq (-2) 7205759403792794 (by norm_num) (by norm_num [abs_of_pos, abs_of_neg])
    (by norm_num [abs_of_pos, abs_of_neg]) (rne_eq_of_lt (by norm_num) (by norm_num))]
  norm_num

/-- The binary64 quotient `3 / 10`. -/
theorem fl64_q3 :
    fl64 (3 / 10) = 5404319552844595 / 18014398509481984 := by
  rw [fl64_eq (-2) 5404319552844595 (by norm_num) (by norm_num [abs_of_pos, abs_of_neg])
    (by norm_num [abs_of_pos, abs_of_neg]) (rne_eq_of_lt (by norm_num) (by norm_num))]
  norm_num

/-- The binary64 quotient `1 / 10`. -/
theorem fl64_q4 :
    fl64 (1 / 10) = 3602879701896397 / 36028797018963968 := by
  rw [fl64_eq (-4) 7205759403792794 (by norm_num) (by norm_num [abs_of_pos, abs_of_neg])
    (by norm_num [abs_of_pos, abs_of_neg]) (rne_eq_of_lt (by norm_num) (by norm_num))]
  norm_num

theorem fl64_s1 :
    fl64 (0 + 3602879701896397 / 18014398509481984) = 3602879701896397 / 18014398509481984 := by
  rw [fl64_eq (-3) 7205759403792794 (by norm_num) (by norm_num [abs_of_pos, abs_of_neg])
    (by norm_num [abs_of_pos, abs_of_neg]) (rne_eq_of_lt (by norm_num) (by norm_num))]
  norm_num

theorem fl64_s2 :
    fl64 (3602879701896397 / 18014398509481984 + 3602879701896397 / 9007199254740992) = 1351079888211149 / 2251799813685248 := by
  rw [fl64_eq (-1) 5404319552844596 (by norm_num) (by norm_num [abs_of_pos, abs_of_neg])
    (by norm_num [abs_of_pos, abs_of_neg]) (rne_eq_of_tie (by norm_num) (by norm_num))]
  norm_num

theorem fl64_s3 :
    fl64 (1351079888211149 / 2251799813685248 + 5404319552844595 / 18014398509481984) = 4053239664633447 / 4503599627370496 := by
  rw [fl64_eq (-1) 8106479329266894 (by norm_num) (by norm_num [abs_of_pos, abs_of_neg])
    (by norm_num [abs_of_pos, abs_of_neg]) (rne_eq_of_tie (by norm_num) (by norm_num))]
  norm_num

theorem fl64_s4 :
    fl64 (4053239664633447 / 4503599627370496 + 3602879701896397 / 36028797018963968) = 4503599627370497 / 4503599627370496 := by
  rw [fl64_eq 0 4503599627370497 (by norm_num) (by norm_num [abs_of_pos, abs_of_neg])
    (by norm_num [abs_of_pos, abs_of_neg]) (rne_eq_of_lt (by norm_num) (by norm_num))]
  norm_num

theorem fl64_o1 :
    fl64 (1 - 3602879701896397 / 18014398509481984) = 3602879701896397 / 4503599627370496 := by
  rw [fl64_eq (-1) 7205759403792794 (by norm_num) (by norm_num [abs_of_pos, abs_of_neg])
    (by norm_num [abs_of_pos, abs_of_neg]) (rne_eq_of_tie (by norm_num) (by norm_num))]
  norm_num

theorem fl64_o2 :
    fl64 (1 - 1351079888211149 / 2251799813685248) = 900719925474099 / 2251799813685248 := by
  rw [fl64_eq (-2) 7205759403792792 (by norm_num) (by norm_num [abs_of_pos, abs_of_neg])
    (by norm_num [abs_of_pos, abs_of_neg]) (rne_eq_of_lt (by norm_num) (by norm_num))]
  norm_num

theorem fl64_o3 :
    fl64 (1 - 4053239664633447 / 4503599627370496) = 450359962737049 / 4503599627370496 := by
  rw [fl64_eq (-4) 7205759403792784 (by norm_num) (by norm_num [abs_of_pos, abs_of_neg])
    (by norm_num [abs_of_pos, abs_of_neg]) (rne_eq_of_lt (by norm_num) (by norm_num))]
  norm_num

theorem fl64_o4 :
    fl64 (1 - 4503599627370497 / 4503599627370496) = (-1 / 4503599627370496) := by
  rw [fl64_eq (-52) (-4503599627370496) (by norm_num) (by norm_num [abs_of_pos, abs_of_neg])
    (by norm_num [abs_of_pos, abs_of_neg]) (rne_eq_of_lt (by norm_num) (by norm_num))]
  norm_num

/-- The CCDF mode in binary64 on ten inputs with the tallies `2, 4, 3, 1`: the
running sum reaches `1.0000000000000002` and the last emitted value is
`-2^-52`, about `-2.2e-16`. -/
theorem main_unique_tallies :
    main_unique fl64 true [1, 1, 2, 2, 2, 2, 3, 3, 3, 4]
      = some [(some 1, some (3602879701896397 / 4503599627370496)),
          (some 2, some (900719925474099 / 2251799813685248)),
          (some 3, some (450359962737049 / 4503599627370496)),
          (some 4, some (-1 / 4503599627370496))] := by
  obtain ⟨_, rows, hrows, hfst, hsnd⟩ :=
    main_unique_spec fl64 [1, 1, 2, 2, 2, 2, 3, 3, 3, 4] (by simp)
  have hE : element_set [1, 1, 2, 2, 2, 2, 3, 3, 3, 4] = [1, 2, 3, 4] := by decide
  have hc1 : ([1, 1, 2, 2, 2, 2, 3, 3, 3, 4] : List Nat).count 1 = 2 := by decide
  have hc2 : ([1, 1, 2, 2, 2, 2, 3, 3, 3, 4] : List Nat).count 2 = 4 := by decide
  have hc3 : ([1, 1, 2, 2, 2, 2, 3, 3, 3, 4] : List Nat).count 3 = 3 := by decide
  have hc4 : ([1, 1, 2, 2, 2, 2, 3, 3, 3, 4] : List Nat).count 4 = 1 := by decide
  have hlen : ([1, 1, 2, 2, 2, 2, 3, 3, 3, 4] : List Nat).length = 10 := rfl
  have h1 : ((1 : Nat) : ℚ) = 1 := Nat.cast_one
  rw [hE] at hfst hsnd
  have hfst' : rows.map Prod.fst = [some 1, some 2, some 3, some 4] := by
    rw [hfst]
    norm_num [to_int]
  have hsnd' : rows.map Prod.snd
      = [some (3602879701896397 / 4503599627370496),
          some (900719925474099 / 2251799813685248),
          some (450359962737049 / 4503599627370496),
          some (-1 / 4503599627370496)] := by
    rw [hsnd]
    simp only [List.map_cons, List.map_nil, hc1, hc2, hc3, hc4, hlen, Nat.cast_ofNat, h1,
      fl64_q1, fl64_q2, fl64_q3, fl64_q4, rounded_sums, fl64_s1, fl64_s2, fl64_s3, fl64_s4,
      fl64_o1, fl64_o2, fl64_o3, fl64_o4]
  rw [hrows, List.zip_of_prod hfst' hsnd']
  rfl

end PowerLaw

end CliStats


namespace CliStats

namespace PowerLaw

/-! ## C11: the rows of the CCDF mode -/

/-- C11: in the CCDF mode of the power-law pipeline, for every non-empty list
of `unsigned int` inputs, the run completes; with `probability[i]` the count of
bin `i` divided by the histogram sum, the value emitted in row `i` is
`1 - (probability[0] + ... + probability[i])`, the emitted values are
non-increasing, and the first emitted value is strictly less than `1` whenever
the first bin is non-empty.  This holds in exact arithmetic (`main_unique id`)
and for the program in binary64 (`main_unique fl64`), where the quotients, the
running sum and the subtraction are rounded, and the last property is proved
for at most `2^53` inputs. -/
theorem ccdf_rows_cumulative (values : List Nat) (hne : values ≠ []) :
    ∃ (range : List ℚ) (h : gsl_histogram) (rows : List (Option Int × Option ℚ))
      (probs cs : List ℚ),
      unique_histogram values = some (range, h) ∧
      probs = h.bin.map (fun c => c / gsl_histogram_sum h) ∧
      main_unique id true values = some rows ∧
      rows.map Prod.snd = cs.map some ∧
      rows.length = h.n ∧ cs.length = h.n ∧ probs.length = h.n ∧
      (∀ i, i < h.n → cs[i]? = some (1 - (probs.take (i + 1)).sum)) ∧
      cs.Pairwise (fun a b => b ≤ a) ∧
      (∀ c0 b0, cs[0]? = some c0 → h.bin[0]? = some b0 → 0 < b0 → c0 < 1) ∧
      ∃ (rows64 : List (Option Int × Option ℚ)) (cs64 : List ℚ),
        main_unique fl64 true values = some rows64 ∧
        rows64.map Prod.snd = cs64.map some ∧
        rows64.length = h.n ∧ cs64.length = h.n ∧
        cs64 = (rounded_sums fl64 0
            (h.bin.map (fun c => fl64 (c / gsl_histogram_sum h)))).map
              (fun s => fl64 (1 - s)) ∧
        cs64.Pairwise (fun a b => b ≤ a) ∧
        (values.length ≤ 2 ^ 53 →
          ∀ c0 b0, cs64[0]? = some c0 → h.bin[0]? = some b0 → 0 < b0 → c0 < 1) := by
  obtain ⟨top, h, _, hhist, hn, _, hbin, hsum⟩ := unique_histogram_spec values hne
  obtain ⟨rows, hrows, hfst, hsnd⟩ := main_unique_exact values hne
  obtain ⟨_, rows64, hrows64, hfst64, hsnd64⟩ := main_unique_spec fl64 values hne
  have hcounts : ∀ c ∈ (element_set values).map (fun (v : Nat) => (values.count v : ℚ)),
      1 ≤ c := by
    intro c hc
    simp only [List.mem_map] at hc
    obtain ⟨v, hv, rfl⟩ := hc
    exact_mod_cast count_pos_of_mem_element_set values v hv
  have hNpos : (0 : ℚ) < (values.length : ℚ) := by
    have : 0 < values.length := List.length_pos.mpr hne
    exact_mod_cast this
  have hprobs : h.bin.map (fun c => c / gsl_histogram_sum h)
      = (element_set values).map (fun (v : Nat) =>
          (values.count v : ℚ) / (values.length : ℚ)) := by
    rw [hbin, hsum, List.map_map]
    rfl
  have hnonneg : ∀ p ∈ (element_set values).map (fun (v : Nat) =>
      (values.count v : ℚ) / (values.length : ℚ)), 0 ≤ p := by
    intro p hp
    simp only [List.mem_map] at hp
    obtain ⟨v, _, rfl⟩ := hp
    exact div_nonneg (Nat.cast_nonneg _) (le_of_lt hNpos)
  have hplen : ((element_set values).map (fun (v : Nat) =>
      (values.count v : ℚ) / (values.length : ℚ))).length = h.n := by
    rw [hn]; simp
  have h64 := ccdf64_values
    ((element_set values).map (fun (v : Nat) => (values.count v : ℚ)))
    (values.length : ℚ) hcounts hNpos
  have hprobs64 : h.bin.map (fun c => fl64 (c / gsl_histogram_sum h))
      = ((element_set values).map (fun (v : Nat) => (values.count v : ℚ))).map
          (fun c => fl64 (c / (values.length : ℚ))) := by
    rw [hbin, hsum]
  have hsnd64' : rows64.map Prod.snd
      = ((rounded_sums fl64 0
          (((element_set values).map (fun (v : Nat) => (values.count v : ℚ))).map
            (fun c => fl64 (c / (values.length : ℚ))))).map
              (fun s => fl64 (1 - s))).map some := by
    rw [hsnd64, List.map_map, List.map_map]
    rfl
  refine ⟨_, h, rows, _, (running_sums 0 ((element_set values).map (fun (v : Nat) =>
      (values.count v : ℚ) / (values.length : ℚ)))).map (fun s => 1 - s),
    hhist, rfl, hrows, ?_, ?_, ?_, ?_, ?_, ?_, ?_,
    rows64, _, hrows64, hsnd64', ?_, ?_, ?_, h64.1, ?_⟩
  · rw [hsnd, List.map_map]
    rfl
  · have : (rows.map Prod.fst).length = h.n := by rw [hfst, hn]; simp
    simpa using this
  · rw [List.length_map, length_running_sums, hplen]
  · rw [hprobs, hplen]
  · intro i hi
    rw [hprobs, List.getElem?_map,
      getElem?_running_sums 0 _ i (by rw [hplen]; exact hi)]
    simp
  · rw [List.pairwise_map]
    exact (running_sums_pairwise_le 0 _ hnonneg).imp (fun hab => by linarith)
  · intro c0 b0 hc0 hb0 hpos
    have h0n : 0 < h.n := by
      by_contra hc
      have hz : h.n = 0 := by omega
      have hlen : h.bin.length = 0 := by rw [hbin, List.length_map, ← hn, hz]
      have : h.bin[0]? = none := List.getElem?_eq_none (by omega)
      rw [this] at hb0
      cases hb0
    rw [List.getElem?_map, getElem?_running_sums 0 _ 0 (by rw [hplen]; exact h0n)] at hc0
    have hp0 : ((element_set values).map (fun (v : Nat) =>
        (values.count v : ℚ) / (values.length : ℚ)))[0]? = some (b0 / (values.length : ℚ)) := by
      rw [← hprobs, List.getElem?_map, hb0, hsum]
      rfl
    have htk : (((element_set values).map (fun (v : Nat) =>
        (values.count v : ℚ) / (values.length : ℚ))).take (0 + 1)).sum
        = b0 / (values.length : ℚ) := by
      cases hl : (element_set values).map (fun (v : Nat) =>
          (values.count v : ℚ) / (values.length : ℚ)) with
      | nil => rw [hl] at hp0; simp at hp0
      | cons p rest =>
        rw [hl] at hp0
        have : p = b0 / (values.length : ℚ) := by simpa using hp0
        simp [this]
    rw [htk] at hc0
    have hc : c0 = 1 - (0 + b0 / (values.length : ℚ)) := by
      simpa using hc0.symm
    have : 0 < b0 / (values.length : ℚ) := div_pos hpos hNpos
    rw [hc]
    linarith
  · have : (rows64.map Prod.fst).length = h.n := by rw [hfst64, hn]; simp
    simpa using this
  · rw [List.length_map, length_rounded_sums, hn]; simp
  · rw [hprobs64]
  · intro hlen c0 b0 hc0 _ _
    have hle : (values.length : ℚ) ≤ 2 ^ 53 := by exact_mod_cast hlen
    exact h64.2 hle c0 (List.mem_iff_getElem?.mpr ⟨0, hc0⟩)

/-- Witness for C11: the inputs `1 2 2 3 3 3`. -/
theorem ccdf_rows_cumulative_witness :
    ∃ (range : List ℚ) (h : gsl_histogram) (rows : List (Option Int × Option ℚ))
      (probs cs : List ℚ),
      unique_histogram [1, 2, 2, 3, 3, 3] = some (range, h) ∧
      probs = h.bin.map (fun c => c / gsl_histogram_sum h) ∧
      main_unique id true [1, 2, 2, 3, 3, 3] = some rows ∧
      rows.map Prod.snd = cs.map some ∧
      rows.length = h.n ∧ cs.length = h.n ∧ probs.length = h.n ∧
      (∀ i, i < h.n → cs[i]? = some (1 - (probs.take (i + 1)).sum)) ∧
      cs.Pairwise (fun a b => b ≤ a) ∧
      (∀ c0 b0, cs[0]? = some c0 → h.bin[0]? = some b0 → 0 < b0 → c0 < 1) ∧
      ∃ (rows64 : List (Option Int × Option ℚ)) (cs64 : List ℚ),
        main_unique fl64 true [1, 2, 2, 3, 3, 3] = some rows64 ∧
        rows64.map Prod.snd = cs64.map some ∧
        rows64.length = h.n ∧ cs64.length = h.n ∧
        cs64 = (rounded_sums fl64 0
            (h.bin.map (fun c => fl64 (c / gsl_histogram_sum h)))).map
              (fun s => fl64 (1 - s)) ∧
        cs64.Pairwise (fun a b => b ≤ a) ∧
        (([1, 2, 2, 3, 3, 3] : List Nat).length ≤ 2 ^ 53 →
          ∀ c0 b0, cs64[0]? = some c0 → h.bin[0]? = some b0 → 0 < b0 → c0 < 1) :=
  ccdf_rows_cumulative [1, 2, 2, 3, 3, 3] (by simp)

/-! ## C19: the CCDF values on unique-value bins -/

/-- C19, as stated, fails in binary64: on ten inputs with the tallies
`2, 4, 3, 1` the quotients `0.2, 0.4, 0.3, 0.1` accumulate to
`1.0000000000000002`, and the last emitted value is `-2^-52`, about
`-2.2e-16`: it is negative, so not in `[0, 1)`. -/
theorem ccdf_range_counterexample :
    ([1, 1, 2, 2, 2, 2, 3, 3, 3, 4] : List Nat) ≠ [] ∧
    main_unique fl64 true [1, 1, 2, 2, 2, 2, 3, 3, 3, 4]
      = some [(some 1, some (3602879701896397 / 4503599627370496)),
          (some 2, some (900719925474099 / 2251799813685248)),
          (some 3, some (450359962737049 / 4503599627370496)),
          (some 4, some (-1 / 4503599627370496))] ∧
    (-1 / 4503599627370496 : ℚ) < 0 :=
  ⟨by simp, main_unique_tallies, by norm_num⟩

/-- C19 (amended): in the power-law pipeline with unique-value bins, for every
non-empty list of `unsigned int` inputs, every bin of the histogram has a count
of at least `1`.  In the CCDF mode in exact arithmetic (`main_unique id`) the
emitted values are strictly decreasing, each lies in `[0, 1)`, and the last
one is exactly `0`.  In binary64 (`main_unique fl64`, the program) the emitted
values are non-increasing; for at most `2^51` inputs they are strictly
decreasing and each is below `1`; the bound `0 <= value` is not claimed. -/
theorem ccdf_strictly_decreasing (values : List Nat) (hne : values ≠ []) :
    ∃ (range : List ℚ) (h : gsl_histogram) (rows : List (Option Int × Option ℚ))
      (cs : List ℚ),
      unique_histogram values = some (range, h) ∧
      h.bin.length = h.n ∧ 0 < h.n ∧ (∀ c ∈ h.bin, 1 ≤ c) ∧
      main_unique id true values = some rows ∧
      rows.map Prod.snd = cs.map some ∧ cs.length = h.n ∧
      cs.Pairwise (fun a b => b < a) ∧
      (∀ c ∈ cs, 0 ≤ c ∧ c < 1) ∧
      cs.getLast? = some 0 ∧
      ∃ (rows64 : List (Option Int × Option ℚ)) (cs64 : List ℚ),
        main_unique fl64 true values = some rows64 ∧
        rows64.map Prod.snd = cs64.map some ∧ cs64.length = h.n ∧
        cs64.Pairwise (fun a b => b ≤ a) ∧
        (values.length ≤ 2 ^ 51 →
          cs64.Pairwise (fun a b => b < a) ∧ ∀ c ∈ cs64, c < 1) := by
  obtain ⟨top, h, _, hhist, hn, _, hbin, hsum⟩ := unique_histogram_spec values hne
  obtain ⟨rows, hrows, hfst, hsnd⟩ := main_unique_exact values hne
  obtain ⟨_, rows64, hrows64, hfst64, hsnd64⟩ := main_unique_spec fl64 values hne
  have hNpos : (0 : ℚ) < (values.length : ℚ) := by
    have : 0 < values.length := List.length_pos.mpr hne
    exact_mod_cast this
  have hEne := element_set_ne_nil values hne
  have hpos : ∀ p ∈ (element_set values).map (fun (v : Nat) =>
      (values.count v : ℚ) / (values.length : ℚ)), 0 < p := by
    intro p hp
    simp only [List.mem_map] at hp
    obtain ⟨v, hv, rfl⟩ := hp
    have h1 : (1 : ℚ) ≤ (values.count v : ℚ) := by
      exact_mod_cast count_pos_of_mem_element_set values v hv
    exact div_pos (by linarith) hNpos
  have hnonneg : ∀ p ∈ (element_set values).map (fun (v : Nat) =>
      (values.count v : ℚ) / (values.length : ℚ)), 0 ≤ p :=
    fun p hp => le_of_lt (hpos p hp)
  have htotal := sum_probabilities values hne
  have hpne : (element_set values).map (fun (v : Nat) =>
      (values.count v : ℚ) / (values.length : ℚ)) ≠ [] := by
    simpa using hEne
  have hcounts : ∀ c ∈ (element_set values).map (fun (v : Nat) => (values.count v : ℚ)),
      1 ≤ c := by
    intro c hc
    simp only [List.mem_map] at hc
    obtain ⟨v, hv, rfl⟩ := hc
    exact_mod_cast count_pos_of_mem_element_set values v hv
  have hcsum : ((element_set values).map (fun (v : Nat) => (values.count v : ℚ))).sum
      = (values.length : ℚ) :=
    sum_count_nat (element_set values) values (element_set_sorted values)
      (mem_element_set values)
  have h64 := ccdf64_values
    ((element_set values).map (fun (v : Nat) => (values.count v : ℚ)))
    (values.length : ℚ) hcounts hNpos
  have hsnd64' : rows64.map Prod.snd
      = ((rounded_sums fl64 0
          (((element_set values).map (fun (v : Nat) => (values.count v : ℚ))).map
            (fun c => fl64 (c / (values.length : ℚ))))).map
              (fun s => fl64 (1 - s))).map some := by
    rw [hsnd64, List.map_map, List.map_map]
    rfl
  refine ⟨_, h, rows, (running_sums 0 ((element_set values).map (fun (v : Nat) =>
      (values.count v : ℚ) / (values.length : ℚ)))).map (fun s => 1 - s),
    hhist, ?_, ?_, ?_, hrows, ?_, ?_, ?_, ?_, ?_,
    rows64, _, hrows64, hsnd64', ?_, h64.1, ?_⟩
  · rw [hbin, hn]; simp
  · rw [hn]; exact List.length_pos.mpr hEne
  · intro c hc
    rw [hbin] at hc
    exact hcounts c hc
  · rw [hsnd, List.map_map]
    rfl
  · rw [List.length_map, length_running_sums, hn]; simp
  · rw [List.pairwise_map]
    exact (running_sums_pairwise_lt 0 _ hpos).imp (fun hab => by linarith)
  · intro c hc
    simp only [List.mem_map] at hc
    obtain ⟨s, hs, rfl⟩ := hc
    have h1 := running_sums_gt 0 _ hpos s hs
    have h2 := running_sums_le_total 0 _ hnonneg s hs
    rw [htotal] at h2
    constructor <;> linarith
  · rw [List.getLast?_map, getLast?_running_sums 0 _ hpne, htotal]
    simp
  · rw [List.length_map, length_rounded_sums, hn]; simp
  · intro hlen
    have h51 : (values.length : ℚ) ≤ 2 ^ 51 := by exact_mod_cast hlen
    have h53 : (values.length : ℚ) ≤ 2 ^ 53 := by
      have : (2 : ℚ) ^ 51 ≤ 2 ^ 53 := by norm_num
      linarith
    exact ⟨ccdf64_strict _ _ hcounts hcsum h51, h64.2 h53⟩

/-- Witness for C19 (amended): the inputs `1 2 2 3 3 3`. -/
theorem ccdf_strictly_decreasing_witness :
    ∃ (range : List ℚ) (h : gsl_histogram) (rows : List (Option Int × Option ℚ))
      (cs : List ℚ),
      unique_histogram [1, 2, 2, 3, 3, 3] = some (range, h) ∧
      h.bin.length = h.n ∧ 0 < h.n ∧ (∀ c ∈ h.bin, 1 ≤ c) ∧
      main_unique id true [1, 2, 2, 3, 3, 3] = some rows ∧
      rows.map Prod.snd = cs.map some ∧ cs.length = h.n ∧
      cs.Pairwise (fun a b => b < a) ∧
      (∀ c ∈ cs, 0 ≤ c ∧ c < 1) ∧
      cs.getLast? = some 0 ∧
      ∃ (rows64 : List (Option Int × Option ℚ)) (cs64 : List ℚ),
        main_unique fl64 true [1, 2, 2, 3, 3, 3] = some rows64 ∧
        rows64.map Prod.snd = cs64.map some ∧ cs64.length = h.n ∧
        cs64.Pairwise (fun a b => b ≤ a) ∧
        (([1, 2, 2, 3, 3, 3] : List Nat).length ≤ 2 ^ 51 →
          cs64.Pairwise (fun a b => b < a) ∧ ∀ c ∈ cs64, c < 1) :=
  ccdf_strictly_decreasing [1, 2, 2, 3, 3, 3] (by simp)

end PowerLaw

end CliStats

namespace CliStats

namespace PowerLaw

/-! ## C12: the rows of the plain PMF mode -/

/-- The plain PMF mode of the power-law pipeline on every non-empty list of
inputs, with `v_0 < v_1 < ... < v_{n-1}` the distinct values (the set
`element_set`, strictly ascending, with the same members as the inputs): the
histogram has `n` bins and `n + 1` boundaries; the value `v_i` is counted in
bin `i`, and among the bins `j` with boundaries `range[j]`, `range[j+1]` it
satisfies `range[j] <= v_i < range[j+1]` exactly for `j = i`; row `i` carries
the conversion `(int) v_i` and `tally(v_i) / number of inputs`, in ascending
order; the conversion is `v_i` itself when `v_i < 2^31`; and the probabilities
sum to `1`. -/
theorem pmf_rows_bins (values : List Nat) (hne : values ≠ []) :
    (element_set values).Pairwise (fun x y => x < y) ∧
    (∀ x, x ∈ element_set values ↔ x ∈ values) ∧
    (∃ (range : List ℚ) (h : gsl_histogram),
      unique_histogram values = some (range, h) ∧
      h.n = (element_set values).length ∧ range.length = h.n + 1 ∧
      ∀ (i v : Nat), (element_set values)[i]? = some v →
        gsl_find h v = some i ∧
        ∀ (j : Nat) (lo hi : ℚ), range[j]? = some lo → range[j + 1]? = some hi →
          ((lo ≤ (v : ℚ) ∧ (v : ℚ) < hi) ↔ j = i)) ∧
    main_unique fl64 false values = some ((element_set values).map (fun (v : Nat) =>
      (to_int (v : Int), some ((values.count v : ℚ) / (values.length : ℚ))))) ∧
    (∀ v : Nat, v < 2 ^ 31 → to_int (v : Int) = some (v : Int)) ∧
    ((element_set values).map (fun (v : Nat) =>
      (values.count v : ℚ) / (values.length : ℚ))).sum = 1 := by
  have hE := element_set_sorted values
  obtain ⟨top, h, htop, hhist, hn, hr, hbin, hsum⟩ := unique_histogram_spec values hne
  refine ⟨hE, mem_element_set values, ⟨_, h, hhist, hn, by rw [hn]; simp, ?_⟩,
    (main_unique_spec fl64 values hne).1, to_int_natCast, sum_probabilities values hne⟩
  · intro i v hiv
    refine ⟨gsl_find_unique (element_set values) top v i h hE htop hn hr hiv, ?_⟩
    have hil : i < (element_set values).length := (List.getElem?_eq_some_iff.mp hiv).1
    have hvE : v ∈ element_set values := List.mem_iff_getElem?.mpr ⟨i, hiv⟩
    intro j lo hi hlo hhi
    have hjl : j + 1 < ((element_set values).map (fun (v : Nat) => (v : ℚ) - 1 / 10)
        ++ [top]).length := (List.getElem?_eq_some_iff.mp hhi).1
    have hjn : j < (element_set values).length := by
      simp at hjl; omega
    -- the lower boundary of bin `j`
    obtain ⟨ej, hej⟩ : ∃ ej, (element_set values)[j]? = some ej :=
      ⟨_, List.getElem?_eq_getElem hjn⟩
    have hloeq : lo = (ej : ℚ) - 1 / 10 := by
      rw [List.getElem?_append_left (by simpa using hjn), List.getElem?_map, hej] at hlo
      simpa using hlo.symm
    constructor
    · rintro ⟨h1, h2⟩
      -- `ej <= v`, hence `j <= i`
      have hejv : ej ≤ v := by
        by_contra hc
        have : (v : ℚ) + 1 ≤ (ej : ℚ) := by exact_mod_cast (not_le.mp hc)
        rw [hloeq] at h1
        linarith
      have hji : j ≤ i := by
        by_contra hc
        have := sorted_getElem?_lt (element_set values) hE i j v ej hiv hej (by omega)
        omega
      -- `v < range[j+1]`, hence `i <= j`
      by_contra hne'
      have hlt : j + 1 ≤ i := by omega
      have hj1 : j + 1 < (element_set values).length := by omega
      obtain ⟨ej1, hej1⟩ : ∃ e, (element_set values)[j + 1]? = some e :=
        ⟨_, List.getElem?_eq_getElem hj1⟩
      have hhieq : hi = (ej1 : ℚ) - 1 / 10 := by
        rw [List.getElem?_append_left (by simpa using hj1), List.getElem?_map, hej1] at hhi
        simpa using hhi.symm
      have hle := sorted_getElem?_le (element_set values) hE (j + 1) i ej1 v hej1 hiv hlt
      have : (ej1 : ℚ) ≤ (v : ℚ) := by exact_mod_cast hle
      rw [hhieq] at h2
      linarith
    · intro hji
      subst hji
      rw [hiv] at hej
      have hev : ej = v := (Option.some.inj hej).symm
      subst hev
      constructor
      · rw [hloeq]; linarith
      · by_cases hj1 : j + 1 < (element_set values).length
        · obtain ⟨ej1, hej1⟩ : ∃ e, (element_set values)[j + 1]? = some e :=
            ⟨_, List.getElem?_eq_getElem hj1⟩
          have hhieq : hi = (ej1 : ℚ) - 1 / 10 := by
            rw [List.getElem?_append_left (by simpa using hj1), List.getElem?_map, hej1]
              at hhi
            simpa using hhi.symm
          have hlt := sorted_getElem?_lt (element_set values) hE j (j + 1) ej ej1 hiv hej1
            (by omega)
          have : (ej : ℚ) + 1 ≤ (ej1 : ℚ) := by exact_mod_cast hlt
          rw [hhieq]
          linarith
        · have hjeq : j + 1 = (element_set values).length := by omega
          have hhieq : hi = top := by
            rw [List.getElem?_append_right (by simp; omega)] at hhi
            simp [hjeq] at hhi
            exact hhi.symm
          rw [hhieq]
          exact htop ej hvE

/-- C12 fails on the code: the values are read as `unsigned int`, but the
representative is printed through `(int) round(range[idx] + 0.1)`.  For the
single input `3000000000`, which is an `unsigned int` but not an `int`, the
probability `1` is right and the conversion to `int` is undefined: the emitted
row is not `(3000000000, 1)`.  On the inputs `1 2 2 3 3 3` the rows are
`(1, 1/6)`, `(2, 1/3)`, `(3, 1/2)`, as the claim says. -/
theorem pmf_row_cast_undefined :
    3000000000 < UINT_SIZE ∧
    main_unique fl64 false [3000000000] = some [(none, some 1)] ∧
    to_int (3000000000 : Int) = none ∧
    main_unique fl64 false [1, 2, 2, 3, 3, 3]
      = some [(some 1, some (1 / 6)), (some 2, some (1 / 3)), (some 3, some (1 / 2))] := by
  have h := (main_unique_spec fl64 [3000000000] (by simp)).1
  have hE : element_set [3000000000] = [3000000000] := by
    simp [element_set, set_insert]
  have ht : to_int (3000000000 : Int) = none := by
    simp [to_int]
  have h' := (main_unique_spec fl64 [1, 2, 2, 3, 3, 3] (by simp)).1
  have hE' : element_set [1, 2, 2, 3, 3, 3] = [1, 2, 3] := by
    simp [element_set, set_insert]
  refine ⟨by norm_num [UINT_SIZE], ?_, ht, ?_⟩
  · rw [h, hE]
    simp only [List.map_cons, List.map_nil, Nat.cast_ofNat, ht]
    norm_num
  · rw [h', hE']
    norm_num [to_int]

end PowerLaw

end CliStats
